import Mathlib

/-!
# Verification of the simple-inno-engine storage core

A shallow embedding, in Lean 4, of the Python sources of the
`simple-inno-engine` repository, together with theorems settling the
specification's claims about it.  Python objects become Lean structures;
`copy.deepcopy` is value semantics, which Lean has natively; Python dicts
become association lists with unique keys; methods that may `raise` return
`Except` (every raising path in the embedded methods raises before mutating
any state, so an error result models the caller-visible outcome exactly);
in the one place where the source mutates state and then raises, the
embedding is noted in the doc comment.
-/

namespace Inno

/-- A row tuple.  The source stores Python tuples whose first element is the
row id (`row_id = row[0]`); we model a row as its id plus an opaque payload. -/
structure Row where
  rid : Nat
  payload : List Nat
deriving DecidableEq, Repr

/-- Python dict assignment `d[k] = v` on an association list: an existing key
keeps its position and receives the new value, a new key is appended. -/
def dictSet {α : Type} (l : List (Nat × α)) (k : Nat) (v : α) : List (Nat × α) :=
  match l with
  | [] => [(k, v)]
  | (k', v') :: rest => if k' = k then (k, v) :: rest else (k', v') :: dictSet rest k v

/-- Python dict lookup `d.get(k)`. -/
def dictGet {α : Type} (l : List (Nat × α)) (k : Nat) : Option α :=
  match l with
  | [] => none
  | (k', v') :: rest => if k' = k then some v' else dictGet rest k

/-- Python `del d[k]` (keys are unique in all dicts we build). -/
def dictDel {α : Type} (l : List (Nat × α)) (k : Nat) : List (Nat × α) :=
  match l with
  | [] => []
  | (k', v') :: rest => if k' = k then rest else (k', v') :: dictDel rest k

/-- Python `k in d`. -/
def dictHas {α : Type} (l : List (Nat × α)) (k : Nat) : Bool :=
  (dictGet l k).isSome

/-- memory/pages.py `Page`.  `rows` is the dict row-id → row tuple.  The
`dirty`, `pinned` and `pin_count` fields are plain attributes of the object,
so they travel with every `copy.deepcopy` — including the copies stored on
`Disk` by `write_page` and returned by `get_page`. -/
structure Page where
  page_id : Nat
  rows : List (Nat × Row)
  page_lsn : Nat
  dirty : Bool := false
  pinned : Bool := false
  pin_count : Nat := 0
deriving DecidableEq, Repr

/-- The `Page.__init__` constructor: builds the row dict keyed by each row's
own id (`{int(row[0]): row for _, row in enumerate(rows)}`). -/
def mkPage (rows : List Row) (page_id page_lsn : Nat) : Page :=
  { page_id := page_id
    rows := rows.foldl (fun d r => dictSet d r.rid r) []
    page_lsn := page_lsn }

/-- The error kinds surfaced by `raise` sites of the embedded sources. -/
inductive Err where
  | pageMissing | notInPool | unbalancedPin | allPinned | rowMissing
  | invalidState | attributeError | indexError | lockConflict | alreadyExists
deriving DecidableEq, Repr

/-- memory/disks.py `Disk`: a dict page-id → Page. -/
structure Disk where
  pages : List (Nat × Page) := []
deriving DecidableEq, Repr

/-- `Disk.get_page`: raises when absent, otherwise returns a deep copy
(value semantics makes the copy implicit). -/
def Disk.get_page (d : Disk) (pid : Nat) : Except Err Page :=
  match dictGet d.pages pid with
  | none => .error .pageMissing
  | some p => .ok p

/-- `Disk.write_page`: stores an independent copy keyed by the page's id. -/
def Disk.write_page (d : Disk) (p : Page) : Disk :=
  { pages := dictSet d.pages p.page_id p }

/-- `Disk.get_current_page_id`: largest stored id, or 1 when empty. -/
def Disk.get_current_page_id (d : Disk) : Nat :=
  if d.pages = [] then 1 else (d.pages.map Prod.fst).foldl max 0

/-- memory/double_write_buffer.py `DoublewriteBuffer`: an in-memory staging
dict `pages` and the simulated sequential area `dwb_storage`.  The JSON file
(`_persist_dwb_to_disk`) is external I/O with no in-memory effect. -/
structure DoublewriteBuffer where
  pages : List (Nat × Page) := []
  dwb_storage : List (Nat × Page) := []
deriving DecidableEq, Repr

/-- `DoublewriteBuffer.add_page`: deep-copy into the staging area. -/
def DoublewriteBuffer.add_page (w : DoublewriteBuffer) (p : Page) : DoublewriteBuffer :=
  { w with pages := dictSet w.pages p.page_id p }

/-- `DoublewriteBuffer.fsync`: no-op when staging is empty, else copy every
staged page into the sequential area. -/
def DoublewriteBuffer.fsync (w : DoublewriteBuffer) : DoublewriteBuffer :=
  if w.pages = [] then w
  else { w with
          dwb_storage := w.pages.foldl (fun st pr => dictSet st pr.1 pr.2) w.dwb_storage }

/-- `DoublewriteBuffer.clear`: empties staging only. -/
def DoublewriteBuffer.clear (w : DoublewriteBuffer) : DoublewriteBuffer :=
  { w with pages := [] }

/-- memory/buffer_pool.py `BufferPool`.  The source keeps a dict
`pages : page_id → PageNode` and a doubly linked LRU list (sentinel head and
tail) threading exactly the dict's entries; every operation keeps the two in
sync and page ids are unique.  We represent both by the single list `lru`,
most-recently-used first (`head.next` first, `tail.prev` last); the dict is
lookup by `page_id` in that list.  The only place the source iterates the
dict rather than the list is `mark_clean_and_flush`, whose per-page effects
hit pairwise-distinct page ids and therefore commute, so iterating in `lru`
order is observationally equal. -/
structure BufferPool where
  capacity : Nat
  lru : List Page := []
deriving DecidableEq, Repr

def BufferPool.find (bp : BufferPool) (pid : Nat) : Option Page :=
  bp.lru.find? (fun p => p.page_id == pid)

def BufferPool.size (bp : BufferPool) : Nat := bp.lru.length

/-- In-place mutation of the pool entry with the given id (the Python object
held by the `PageNode` is updated through whichever alias the caller holds). -/
def BufferPool.updatePage (bp : BufferPool) (pid : Nat) (f : Page → Page) : BufferPool :=
  { bp with lru := bp.lru.map (fun p => if p.page_id = pid then f p else p) }

/-- The full engine state the buffer pool touches: pool, disk, doublewrite
buffer (the source reaches them through `self.disk` / `self.double_write_buffer`). -/
structure Sys where
  disk : Disk
  dwb : DoublewriteBuffer
  pool : BufferPool
deriving DecidableEq, Repr

/-- The victim search of `_evict_page`: walk the LRU list from the tail
toward the head and stop at the first entry with pin count 0.  In the
head-first representation that is the last pin-0 entry, i.e. the first match
in the reversed list. -/
def BufferPool.evictVictim (bp : BufferPool) : Option Page :=
  bp.lru.reverse.find? (fun p => p.pin_count == 0)

/-- `BufferPool._evict_page`: raises AllPinned when no unpinned entry exists
(before touching anything); otherwise, if the victim is dirty, write it back
through the doublewrite protocol (`add_page`, `fsync`, `disk.write_page`,
`clear`), then unlink and drop the victim. -/
def Sys.evict_page (s : Sys) : Except Err Sys :=
  match s.pool.evictVictim with
  | none => .error .allPinned
  | some v =>
    let s' := if v.dirty then
        { s with
          dwb := ((s.dwb.add_page v).fsync).clear
          disk := s.disk.write_page v }
      else s
    .ok { s' with pool := { s'.pool with lru := s'.pool.lru.filter (fun p => p.page_id ≠ v.page_id) } }

/-- `BufferPool.add_page_to_memory`: no-op when the id is already pooled;
otherwise evict one entry if the pool is at capacity, then insert at head. -/
def Sys.add_page_to_memory (s : Sys) (p : Page) : Except Err Sys := do
  if (s.pool.find p.page_id).isSome then
    return s
  let s ← if s.pool.size = s.pool.capacity then s.evict_page else .ok s
  return { s with pool := { s.pool with lru := p :: s.pool.lru } }

/-- `BufferPool.load_page`: on a hit, increment the pin count and move the
entry to the head, returning the pooled page; on a miss, read the page from
Disk (a deep copy, pin count and dirty flag included), admit it, then
increment the pooled object's pin count and return it. -/
def Sys.load_page (s : Sys) (pid : Nat) : Except Err (Sys × Page) :=
  match s.pool.find pid with
  | some p0 =>
    let p := { p0 with pin_count := p0.pin_count + 1 }
    .ok ({ s with pool := { s.pool with lru := p :: s.pool.lru.filter (fun q => q.page_id ≠ pid) } }, p)
  | none => do
    let p ← s.disk.get_page pid
    let s ← s.add_page_to_memory p
    let s := { s with pool := s.pool.updatePage pid (fun q => { q with pin_count := q.pin_count + 1 }) }
    return (s, { p with pin_count := p.pin_count + 1 })

/-- `BufferPool.release_page`: raises when the id is absent or the pin count
is already 0; otherwise decrement, clearing `pinned` when the count hits 0. -/
def Sys.release_page (s : Sys) (pid : Nat) : Except Err Sys :=
  match s.pool.find pid with
  | none => .error .notInPool
  | some p =>
    if p.pin_count = 0 then .error .unbalancedPin
    else .ok { s with pool := s.pool.updatePage pid (fun q =>
        let q' := { q with pin_count := q.pin_count - 1 }
        if q'.pin_count = 0 then { q' with pinned := false } else q') }

/-- `BufferPool.mark_dirty`. -/
def Sys.mark_dirty (s : Sys) (pid : Nat) : Except Err Sys :=
  if (s.pool.find pid).isSome then
    .ok { s with pool := s.pool.updatePage pid (fun q => { q with dirty := true }) }
  else .error .notInPool

/-- `BufferPool.mark_clean_and_flush`: stage every dirty page in the
doublewrite buffer, and unless there were none, `fsync` the staging area,
then for each dirty page clear its dirty flag (mutating the pooled object)
and write the now-clean page — pin count included — to Disk, finally clear
the staging area. -/
def Sys.mark_clean_and_flush (s : Sys) : Sys :=
  let dirtyPages := s.pool.lru.filter (fun p => p.dirty)
  let dwb := dirtyPages.foldl (fun w p => w.add_page p) s.dwb
  if dirtyPages = [] then { s with dwb := dwb }
  else
    let dwb := dwb.fsync
    let disk := dirtyPages.foldl (fun d p => d.write_page { p with dirty := false }) s.disk
    let pool := { s.pool with lru := s.pool.lru.map (fun p => if p.dirty then { p with dirty := false } else p) }
    { s with dwb := dwb.clear, disk := disk, pool := pool }

/-- The buffer pool's public operations, for quantifying over call sequences. -/
inductive PoolOp where
  | load (pid : Nat)
  | add (p : Page)
  | release (pid : Nat)
  | markDirty (pid : Nat)
  | flush
deriving Repr

/-- One call; a raising call leaves the state as the caller saw it (every
raising path in the five methods raises before mutating anything). -/
def Sys.poolStep (s : Sys) (op : PoolOp) : Sys :=
  match op with
  | .load pid => match s.load_page pid with | .ok (s', _) => s' | .error _ => s
  | .add p => match s.add_page_to_memory p with | .ok s' => s' | .error _ => s
  | .release pid => match s.release_page pid with | .ok s' => s' | .error _ => s
  | .markDirty pid => match s.mark_dirty pid with | .ok s' => s' | .error _ => s
  | .flush => s.mark_clean_and_flush

def Sys.poolRun (s : Sys) (ops : List PoolOp) : Sys :=
  ops.foldl Sys.poolStep s

end Inno

namespace Inno

theorem evict_page_ok_capacity {s s' : Sys} (h : s.evict_page = .ok s') :
    s'.pool.capacity = s.pool.capacity := by
  unfold Sys.evict_page at h
  cases hv : s.pool.evictVictim with
  | none => rw [hv] at h; cases h
  | some v =>
    rw [hv] at h
    cases h
    by_cases hd : v.dirty <;> simp [hd]

theorem evict_page_ok_size {s s' : Sys} (h : s.evict_page = .ok s') :
    s'.pool.lru.length < s.pool.lru.length := by
  unfold Sys.evict_page at h
  cases hv : s.pool.evictVictim with
  | none => rw [hv] at h; cases h
  | some v =>
    rw [hv] at h
    have hvmem : v ∈ s.pool.lru := by
      have := List.mem_of_find?_eq_some hv
      exact List.mem_reverse.mp this
    cases h
    have hlt : (s.pool.lru.filter (fun p => p.page_id ≠ v.page_id)).length < s.pool.lru.length := by
      refine List.length_filter_lt_length_iff_exists.mpr ?_
      exact ⟨v, hvmem, by simp⟩
    by_cases hd : v.dirty <;> simpa [hd] using hlt

theorem add_page_ok_capacity {s s' : Sys} {p : Page} (h : s.add_page_to_memory p = .ok s') :
    s'.pool.capacity = s.pool.capacity := by
  unfold Sys.add_page_to_memory at h
  by_cases hp : (s.pool.find p.page_id).isSome
  · simp only [hp, if_true, Bind.bind, Except.bind, Pure.pure, Except.pure,
      Except.ok.injEq] at h
    rw [← h]
  · simp only [hp, Bool.false_eq_true, if_false, Bind.bind, Except.bind] at h
    by_cases hc : s.pool.size = s.pool.capacity
    · simp only [hc, if_true] at h
      cases he : s.evict_page with
      | error e =>
        rw [he] at h
        exact absurd h (by simp [Pure.pure, Except.pure])
      | ok s1 =>
        rw [he] at h
        simp only [Pure.pure, Except.pure, Except.ok.injEq] at h
        rw [← h]
        simpa using evict_page_ok_capacity he
    · simp only [hc, if_false, Pure.pure, Except.pure, Except.ok.injEq] at h
      rw [← h]

theorem add_page_ok_size {s s' : Sys} {p : Page}
    (h : s.add_page_to_memory p = .ok s') (hle : s.pool.size ≤ s.pool.capacity) :
    s'.pool.size ≤ s.pool.capacity := by
  unfold Sys.add_page_to_memory at h
  by_cases hp : (s.pool.find p.page_id).isSome
  · simp only [hp, if_true, Bind.bind, Except.bind, Pure.pure, Except.pure,
      Except.ok.injEq] at h
    rw [← h]; exact hle
  · simp only [hp, Bool.false_eq_true, if_false, Bind.bind, Except.bind] at h
    by_cases hc : s.pool.size = s.pool.capacity
    · simp only [hc, if_true] at h
      cases he : s.evict_page with
      | error e =>
        rw [he] at h
        exact absurd h (by simp [Pure.pure, Except.pure])
      | ok s1 =>
        rw [he] at h
        simp only [Pure.pure, Except.pure, Except.ok.injEq] at h
        have h1 := evict_page_ok_size he
        rw [← h]
        simp only [BufferPool.size, List.length_cons] at *
        omega
    · simp only [hc, if_false, Pure.pure, Except.pure, Except.ok.injEq] at h
      rw [← h]
      simp only [BufferPool.size, List.length_cons] at *
      omega

theorem load_page_ok_capacity {s s' : Sys} {pid : Nat} {pg : Page}
    (h : s.load_page pid = .ok (s', pg)) :
    s'.pool.capacity = s.pool.capacity := by
  unfold Sys.load_page at h
  cases hf : s.pool.find pid with
  | some p0 => rw [hf] at h; cases h; rfl
  | none =>
    rw [hf] at h
    simp only [Bind.bind] at h
    cases hd : s.disk.get_page pid with
    | error e => rw [hd] at h; exact absurd h (by simp [Except.bind])
    | ok p =>
      rw [hd] at h
      simp only [Except.bind] at h
      cases ha : s.add_page_to_memory p with
      | error e => rw [ha] at h; exact absurd h (by simp [Except.bind])
      | ok s1 =>
        rw [ha] at h
        simp only [Except.bind, Pure.pure, Except.pure, Except.ok.injEq, Prod.mk.injEq] at h
        rw [← h.1]
        simpa [BufferPool.updatePage] using add_page_ok_capacity ha

theorem load_page_ok_size {s s' : Sys} {pid : Nat} {pg : Page}
    (h : s.load_page pid = .ok (s', pg)) (hle : s.pool.size ≤ s.pool.capacity) :
    s'.pool.size ≤ s.pool.capacity := by
  unfold Sys.load_page at h
  cases hf : s.pool.find pid with
  | some p0 =>
    rw [hf] at h; cases h
    have hf' : s.pool.lru.find? (fun p => p.page_id == pid) = some p0 := hf
    have hp0m : p0 ∈ s.pool.lru := List.mem_of_find?_eq_some hf'
    have hp0e := List.find?_some hf'
    simp only [beq_iff_eq] at hp0e
    have hlt : (s.pool.lru.filter (fun q => q.page_id ≠ pid)).length < s.pool.lru.length := by
      refine List.length_filter_lt_length_iff_exists.mpr ?_
      exact ⟨p0, hp0m, by simpa using hp0e⟩
    simp only [BufferPool.size, List.length_cons] at *
    omega
  | none =>
    rw [hf] at h
    simp only [Bind.bind] at h
    cases hd : s.disk.get_page pid with
    | error e => rw [hd] at h; exact absurd h (by simp [Except.bind])
    | ok p =>
      rw [hd] at h
      simp only [Except.bind] at h
      cases ha : s.add_page_to_memory p with
      | error e => rw [ha] at h; exact absurd h (by simp [Except.bind])
      | ok s1 =>
        rw [ha] at h
        simp only [Except.bind, Pure.pure, Except.pure, Except.ok.injEq, Prod.mk.injEq] at h
        have h1 := add_page_ok_size ha hle
        rw [← h.1]
        simpa [BufferPool.updatePage, BufferPool.size] using h1

theorem poolStep_capacity (s : Sys) (op : PoolOp) :
    (s.poolStep op).pool.capacity = s.pool.capacity := by
  cases op with
  | load pid =>
    cases h : s.load_page pid with
    | error e => simp [Sys.poolStep, h]
    | ok pr =>
      obtain ⟨s', pg⟩ := pr
      simpa [Sys.poolStep, h] using load_page_ok_capacity h
  | add p =>
    cases h : s.add_page_to_memory p with
    | error e => simp [Sys.poolStep, h]
    | ok s' => simpa [Sys.poolStep, h] using add_page_ok_capacity h
  | release pid =>
    cases hf : s.pool.find pid with
    | none => simp [Sys.poolStep, Sys.release_page, hf]
    | some p =>
      by_cases hz : p.pin_count = 0 <;>
        simp [Sys.poolStep, Sys.release_page, hf, hz, BufferPool.updatePage]
  | markDirty pid =>
    by_cases hf : (s.pool.find pid).isSome <;>
      simp [Sys.poolStep, Sys.mark_dirty, hf, BufferPool.updatePage]
  | flush =>
    by_cases hd : s.pool.lru.filter (fun p => p.dirty) = [] <;>
      simp [Sys.poolStep, Sys.mark_clean_and_flush, hd]

theorem poolStep_size (s : Sys) (op : PoolOp) (hle : s.pool.size ≤ s.pool.capacity) :
    (s.poolStep op).pool.size ≤ s.pool.capacity := by
  cases op with
  | load pid =>
    cases h : s.load_page pid with
    | error e => simpa [Sys.poolStep, h] using hle
    | ok pr =>
      obtain ⟨s', pg⟩ := pr
      simpa [Sys.poolStep, h] using load_page_ok_size h hle
  | add p =>
    cases h : s.add_page_to_memory p with
    | error e => simpa [Sys.poolStep, h] using hle
    | ok s' => simpa [Sys.poolStep, h] using add_page_ok_size h hle
  | release pid =>
    cases hf : s.pool.find pid with
    | none => simpa [Sys.poolStep, Sys.release_page, hf] using hle
    | some p =>
      by_cases hz : p.pin_count = 0 <;>
        simpa [Sys.poolStep, Sys.release_page, hf, hz, BufferPool.updatePage,
          BufferPool.size] using hle
  | markDirty pid =>
    by_cases hf : (s.pool.find pid).isSome <;>
      simpa [Sys.poolStep, Sys.mark_dirty, hf, BufferPool.updatePage, BufferPool.size] using hle
  | flush =>
    by_cases hd : s.pool.lru.filter (fun p => p.dirty) = [] <;>
      simpa [Sys.poolStep, Sys.mark_clean_and_flush, hd, BufferPool.size] using hle

theorem poolRun_size (s : Sys) (ops : List PoolOp) (hle : s.pool.size ≤ s.pool.capacity) :
    (s.poolRun ops).pool.size ≤ (s.poolRun ops).pool.capacity := by
  induction ops generalizing s with
  | nil => exact hle
  | cons op rest ih =>
    have h1 := poolStep_size s op hle
    have h2 := poolStep_capacity s op
    exact ih (s.poolStep op) (by rw [h2]; exact h1)

/-- C6: for every sequence of BufferPool operations (`load_page`,
`add_page_to_memory`, `release_page`, `mark_dirty`, `mark_clean_and_flush`)
starting from a fresh pool of any capacity over any disk and doublewrite
buffer, the number of entries held by the pool never exceeds its capacity. -/
theorem c6_pool_entries_le_capacity (cap : Nat) (d : Disk) (w : DoublewriteBuffer)
    (ops : List PoolOp) :
    (Sys.poolRun ⟨d, w, ⟨cap, []⟩⟩ ops).pool.size ≤ cap := by
  have h := poolRun_size ⟨d, w, ⟨cap, []⟩⟩ ops (by simp [BufferPool.size])
  have hc : (Sys.poolRun ⟨d, w, ⟨cap, []⟩⟩ ops).pool.capacity = cap := by
    have : ∀ (s : Sys) (l : List PoolOp), (s.poolRun l).pool.capacity = s.pool.capacity := by
      intro s l
      induction l generalizing s with
      | nil => rfl
      | cons op rest ih => simpa [Sys.poolRun, poolStep_capacity] using
          (ih (s.poolStep op)).trans (poolStep_capacity s op)
    exact this _ _
  rw [hc] at h
  exact h

end Inno

namespace Inno

/-- C7: when the BufferPool must evict, the victim is the first entry with pin
count 0 found walking the LRU list from the tail toward the head (in the
head-first representation: the last pin-0 entry); the victim is written back
through the doublewrite protocol when dirty and dropped from the pool.  If
every entry has a positive pin count, `_evict_page` raises AllPinned; the
raise happens before anything is touched, so the pool's map, the LRU list,
the disk and the doublewrite buffer are all left as they were (the embedding
returns the bare error for exactly that reason). -/
theorem c7_evict_walks_tail_first (s : Sys)
    (hnd : (s.pool.lru.map Page.page_id).Nodup) :
    ((∀ p ∈ s.pool.lru, p.pin_count ≠ 0) → s.evict_page = .error .allPinned)
    ∧ (∀ pre v post, s.pool.lru = pre ++ v :: post → v.pin_count = 0 →
        (∀ q ∈ post, q.pin_count ≠ 0) →
        s.evict_page = .ok
          { disk := if v.dirty then s.disk.write_page v else s.disk
            dwb := if v.dirty then ((s.dwb.add_page v).fsync).clear else s.dwb
            pool := { s.pool with lru := pre ++ post } }) := by
  constructor
  · intro hall
    have hv : s.pool.evictVictim = none := by
      unfold BufferPool.evictVictim
      rw [List.find?_eq_none]
      intro x hx
      simp only [beq_iff_eq]
      exact hall x (List.mem_reverse.mp hx)
    unfold Sys.evict_page
    rw [hv]
  · intro pre v post hsplit hpin hpost
    have hv : s.pool.evictVictim = some v := by
      unfold BufferPool.evictVictim
      rw [hsplit]
      have : (pre ++ v :: post).reverse = post.reverse ++ v :: pre.reverse := by
        simp
      rw [this, List.find?_append]
      have h1 : post.reverse.find? (fun p => p.pin_count == 0) = none := by
        rw [List.find?_eq_none]
        intro x hx
        simp only [beq_iff_eq]
        exact hpost x (List.mem_reverse.mp hx)
      rw [h1]
      simp [List.find?_cons, hpin]
    have hvnotin : v.page_id ∉ pre.map Page.page_id ++ post.map Page.page_id := by
      rw [hsplit] at hnd
      simp only [List.map_append, List.map_cons] at hnd
      exact (List.nodup_cons.mp (List.nodup_middle.mp hnd)).1
    have hvid_pre : ∀ q ∈ pre, q.page_id ≠ v.page_id := by
      intro q hq he
      exact hvnotin (by rw [← he]; exact List.mem_append_left _ (List.mem_map_of_mem _ hq))
    have hvid_post : ∀ q ∈ post, q.page_id ≠ v.page_id := by
      intro q hq he
      exact hvnotin (by rw [← he]; exact List.mem_append_right _ (List.mem_map_of_mem _ hq))
    have hfilter : (s.pool.lru.filter (fun p => p.page_id ≠ v.page_id)) = pre ++ post := by
      rw [hsplit, List.filter_append]
      have ha : pre.filter (fun p => p.page_id ≠ v.page_id) = pre :=
        List.filter_eq_self.mpr (fun a ha => by simpa using hvid_pre a ha)
      have hb : (v :: post).filter (fun p => p.page_id ≠ v.page_id) = post := by
        rw [List.filter_cons_of_neg (by simp)]
        exact List.filter_eq_self.mpr (fun a ha => by simpa using hvid_post a ha)
      rw [ha, hb]
    simp only [ne_eq, decide_not] at hfilter
    unfold Sys.evict_page
    rw [hv]
    by_cases hd : v.dirty <;> simp [hd, hfilter]

end Inno

namespace Inno

/-- C8 (failing input): capacity-1 pool over a disk holding empty pages 1 and 2.
Load page 1 (pin 1), mark it dirty, run `mark_clean_and_flush` — which writes
the page to Disk *while still pinned*, so the on-disk image records
`pin_count = 1` — release it, load and release page 2 (evicting the now-clean
page 1 without a write-back), then load page 1 again.  `load_page` does
`page.pin_count += 1` on the deep copy read from Disk instead of setting the
pin count to 1, so the page comes back with pin count 2, not 1 as the claim
and §4.2 of the specification state. -/
theorem c8_reload_after_pinned_flush_pin_count_two :
    (let p1 : Page := { page_id := 1, rows := [], page_lsn := 0 }
     let p2 : Page := { page_id := 2, rows := [], page_lsn := 0 }
     let s0 : Sys := { disk := { pages := [(1, p1), (2, p2)] }, dwb := {},
                       pool := { capacity := 1 } }
     let s6 := s0.poolRun [.load 1, .markDirty 1, .flush, .release 1, .load 2, .release 2]
     (s6.load_page 1).toOption.map (fun r => r.2.pin_count)) = some 2 := by
  decide

/-- memory/locks.py `LockType` constants. -/
def lockTypeShared : String := "S"

def lockTypeExclusive : String := "X"

/-- memory/locks.py `RowLock`. -/
structure RowLock where
  row_id : Nat
  txid : Nat
  lock_type : String
deriving DecidableEq, Repr

/-- memory/locks.py `LockTable`: a dict row-id → RowLock. -/
structure LockTable where
  locks : List (Nat × RowLock) := []
deriving DecidableEq, Repr

/-- `LockTable.acquire_lock`: success when the row is free or already held by
this txid (re-entrant); failure — with the table untouched — otherwise. -/
def LockTable.acquire_lock (lt : LockTable) (txid row_id : Nat)
    (lock_type : String := lockTypeExclusive) : Bool × LockTable :=
  match dictGet lt.locks row_id with
  | some ex => if ex.txid = txid then (true, lt) else (false, lt)
  | none => (true, { locks := dictSet lt.locks row_id ⟨row_id, txid, lock_type⟩ })

/-- `LockTable.release_lock`: drop the lock only when the holder matches. -/
def LockTable.release_lock (lt : LockTable) (txid row_id : Nat) : LockTable :=
  match dictGet lt.locks row_id with
  | some ex => if ex.txid = txid then { locks := dictDel lt.locks row_id } else lt
  | none => lt

/-- The payload values stored in a redo record's `data` dict. -/
inductive Payload where
  | pnat (n : Nat)
  | prow (r : Row)
deriving DecidableEq, Repr

/-- memory/redo_record.py `RedoLogRecordModel`. -/
structure RedoLogRecordModel where
  lsn : Nat
  txid : Nat
  action : String
  data : List (String × Payload)
  page_id : Nat
deriving DecidableEq, Repr

/-- memory/redo_record.py `RedoRecord`: the ordered in-memory redo log.
`redo_lsns` is initialised to `[]` in `__init__` and — as one can check by
searching the whole code base — never appended to by any method or caller. -/
structure RedoRecord where
  records : List RedoLogRecordModel := []
  flushed_lsn : Nat := 0
  redo_lsns : List Nat := []
deriving DecidableEq, Repr

def RedoRecord.append (r : RedoRecord) (rec : RedoLogRecordModel) : RedoRecord :=
  { r with records := r.records ++ [rec] }

def RedoRecord.clear (r : RedoRecord) : RedoRecord :=
  { r with records := [] }

/-- `RedoRecord.flush` is the single line `self.flushed_lsn = self.records[-1].lsn`.
On an empty `records` the subscript `[-1]` raises IndexError before the
assignment happens, so the object is unchanged; we return the error paired
with the unchanged state.  Otherwise `flushed_lsn` becomes the lsn of the
last appended record. -/
def RedoRecord.flush (r : RedoRecord) : Option Err × RedoRecord :=
  match r.records.getLast? with
  | none => (some .indexError, r)
  | some rec => (none, { r with flushed_lsn := rec.lsn })

/-- memory/undo_record.py `UndoRecordModel`: old_value is `None` for INSERT. -/
structure UndoRecordModel where
  row_id : Nat
  page_id : Nat
  old_value : Option Row := none
  operation : String
deriving DecidableEq, Repr

/-- memory/undo_record.py `UndoRecord`. -/
structure UndoRecord where
  records : List UndoRecordModel := []
deriving DecidableEq, Repr

def UndoRecord.append (u : UndoRecord) (rec : UndoRecordModel) : UndoRecord :=
  { records := u.records ++ [rec] }

def UndoRecord.clear (_u : UndoRecord) : UndoRecord :=
  { records := [] }

/-- memory/transactions.py `TransactionStatus`. -/
inductive TransactionStatus where
  | active | preparing | committed | aborted
deriving DecidableEq, Repr

def TransactionStatus.value : TransactionStatus → String
  | .active => "active"
  | .preparing => "preparing"
  | .committed => "committed"
  | .aborted => "aborted"

/-- memory/transactions.py `TransactionTableEntry`. -/
structure TransactionTableEntry where
  txid : Nat
  status : String
deriving DecidableEq, Repr

/-- memory/transactions.py `TransactionTable`. -/
structure TransactionTable where
  active : List (Nat × TransactionTableEntry) := []
deriving DecidableEq, Repr

def TransactionTable.register_transaction (tt : TransactionTable)
    (e : TransactionTableEntry) : TransactionTable :=
  { active := dictSet tt.active e.txid e }

def TransactionTable.commit_transaction (tt : TransactionTable) (txid : Nat) :
    TransactionTable :=
  match dictGet tt.active txid with
  | some e => { active := dictSet tt.active txid { e with status := TransactionStatus.committed.value } }
  | none => tt

def TransactionTable.rollback_transaction (tt : TransactionTable) (txid : Nat) :
    TransactionTable :=
  match dictGet tt.active txid with
  | some e => { active := dictSet tt.active txid { e with status := TransactionStatus.aborted.value } }
  | none => tt

/-- memory/transactions.py `Transaction`.  The structure owns the (references
to the) shared tables and logs the Python object holds.  Note two methods the
engine expects are broken in the source: `engine.py` calls
`tx.add_redo_record(...)`, which `Transaction` does not define (AttributeError),
and `add_redo_lsn` appends its raw integer argument to `redo_record.records`
— in no case is `redo_record.redo_lsns` ever populated. -/
structure Transaction where
  txid : Nat
  tx_table : TransactionTable
  lock_table : LockTable
  redo_record : RedoRecord
  undo_record : UndoRecord
  status : TransactionStatus := .active
  locked_rows : List Nat := []
deriving DecidableEq, Repr

/-- `Transaction.release_locks`: release every locked row, then clear the set. -/
def Transaction.release_locks (tx : Transaction) : Transaction :=
  { tx with
    lock_table := tx.locked_rows.foldl (fun lt r => lt.release_lock tx.txid r) tx.lock_table
    locked_rows := [] }

def Transaction.add_undo_record (tx : Transaction) (rec : UndoRecordModel) : Transaction :=
  { tx with undo_record := tx.undo_record.append rec }

/-- `Transaction.commit` (lines 126-153): InvalidState unless ACTIVE; then
status := PREPARING; the redo flush is guarded by
`if self.redo_record.redo_lsns:` — and `redo_lsns` is always `[]`, so the
guard is never taken and `flush()` is never called; then status := COMMITTED,
the transaction-table entry is updated, all locks are released, and the undo
log is cleared. -/
def Transaction.commit (tx : Transaction) : Except Err Transaction :=
  if tx.status ≠ .active then .error .invalidState
  else
    let tx1 := { tx with status := .preparing }
    let step2 : Except Err Transaction :=
      if tx1.redo_record.redo_lsns ≠ [] then
        match tx1.redo_record.flush with
        | (some e, _) => .error e
        | (none, r) => .ok { tx1 with redo_record := r }
      else .ok tx1
    match step2 with
    | .error e => .error e
    | .ok tx2 =>
      let tx3 := { tx2 with status := .committed,
                            tx_table := tx2.tx_table.commit_transaction tx2.txid }
      let tx4 := tx3.release_locks
      .ok { tx4 with undo_record := tx4.undo_record.clear }

/-- `Transaction.rollback` (lines 155-178): InvalidState unless ACTIVE or
PREPARING.  After the status guard the source iterates
`reversed(self.undo_records)` — but the attribute the class defines is
`undo_record` (no trailing `s`) and `undo_records` is never assigned
anywhere, so the loop header raises AttributeError at once; moreover the
`_apply_undo_record` helper the loop body would call is commented out
(lines 180-199).  No undo record is ever applied and no state is touched. -/
def Transaction.rollback (tx : Transaction) : Except Err Transaction :=
  if tx.status = .active ∨ tx.status = .preparing then .error .attributeError
  else .error .invalidState

/-- C10: `RedoRecord.flush()` fails (raises IndexError) whenever the record
list is empty — rather than being a no-op — and the failed flush leaves
`flushed_lsn` (indeed the whole record object) unchanged; when at least one
record has been appended, flush sets `flushed_lsn` to the lsn of the last
appended record. -/
theorem c10_flush_empty_fails_else_sets_last_lsn (r : RedoRecord) :
    (r.records = [] → r.flush = (some .indexError, r))
    ∧ (∀ (l : List RedoLogRecordModel) (rec : RedoLogRecordModel),
        r.records = l ++ [rec] → r.flush = (none, { r with flushed_lsn := rec.lsn })) := by
  constructor
  · intro h
    unfold RedoRecord.flush
    rw [h]
    rfl
  · intro l rec h
    unfold RedoRecord.flush
    rw [h, List.getLast?_concat]

/-- Witness for C10 at concrete inputs: the empty log and a one-record log. -/
theorem c10_flush_witness :
    (RedoRecord.flush { records := [] } = (some .indexError, { records := [] }))
    ∧ (RedoRecord.flush
        { records := [{ lsn := 7, txid := 1, action := "INSERT", data := [], page_id := 1 }] }
      = (none, { records := [{ lsn := 7, txid := 1, action := "INSERT", data := [], page_id := 1 }],
                 flushed_lsn := 7 })) := by
  refine ⟨(c10_flush_empty_fails_else_sets_last_lsn _).1 rfl, ?_⟩
  exact (c10_flush_empty_fails_else_sets_last_lsn _).2 []
    { lsn := 7, txid := 1, action := "INSERT", data := [], page_id := 1 } rfl

/-- C3 (failing input): an ACTIVE transaction whose redo log holds one record
with lsn 1 (the situation claim C3 quantifies over: at least one record
appended) commits successfully, yet `flushed_lsn` stays 0 — strictly below
the maximum appended lsn 1 — because `commit` gates the flush on the
never-populated `redo_lsns` list.  The guard cannot fire on any reachable
state, so the watermark claim fails on the code. -/
theorem c3_commit_leaves_flushed_lsn_zero :
    (let rec1 : RedoLogRecordModel :=
      { lsn := 1, txid := 1, action := "INSERT", data := [], page_id := 1 }
     let tx : Transaction :=
      { txid := 1, tx_table := {}, lock_table := {},
        redo_record := { records := [rec1] }, undo_record := {} }
     ((tx.commit).toOption.map (fun t => t.redo_record.flushed_lsn),
      (tx.redo_record.records.map RedoLogRecordModel.lsn).foldl max 0))
    = (some 0, 1) := by
  decide

/-- C2: calling `rollback()` on any ACTIVE transaction raises AttributeError
— the undo records are never applied in reverse (or at all), because the
source iterates the undefined attribute `undo_records` and the
`_apply_undo_record` helper is commented out — so the row state cannot be
restored by rollback. -/
theorem c2_rollback_raises_attribute_error (tx : Transaction)
    (h : tx.status = .active) :
    tx.rollback = .error .attributeError := by
  unfold Transaction.rollback
  rw [if_pos (Or.inl h)]

/-- Witness for C2: a transaction holding one INSERT undo record (as after
`tx_insert_row`) whose rollback raises instead of undoing the insert. -/
theorem c2_rollback_witness :
    Transaction.rollback
      { txid := 2, tx_table := {}, lock_table := {}, redo_record := {},
        undo_record := { records := [{ row_id := 3, page_id := 1, operation := "INSERT" }] } }
    = .error .attributeError :=
  c2_rollback_raises_attribute_error _ rfl

end Inno

namespace Inno

/-- Witness for C7: a three-entry pool whose tail entry is pinned; the walk
from the tail picks the middle (pin-0) entry, a clean page, and drops it. -/
theorem c7_evict_witness :
    (Sys.evict_page
      { disk := { pages := [] }, dwb := {},
        pool := { capacity := 3,
                  lru := [⟨1, [], 0, false, false, 1⟩, ⟨2, [], 0, false, false, 0⟩,
                          ⟨3, [], 0, false, false, 1⟩] } })
    = .ok { disk := { pages := [] }, dwb := {},
            pool := { capacity := 3,
                      lru := [⟨1, [], 0, false, false, 1⟩, ⟨3, [], 0, false, false, 1⟩] } } := by
  have h := (c7_evict_walks_tail_first
      { disk := { pages := [] }, dwb := {},
        pool := { capacity := 3,
                  lru := [⟨1, [], 0, false, false, 1⟩, ⟨2, [], 0, false, false, 0⟩,
                          ⟨3, [], 0, false, false, 1⟩] } } (by decide)).2
    [⟨1, [], 0, false, false, 1⟩] ⟨2, [], 0, false, false, 0⟩ [⟨3, [], 0, false, false, 1⟩]
    rfl rfl (by decide)
  simpa using h

end Inno

namespace Inno

/-- memory/index.py `BPlusTreeNode`: `keys` (row ids), `values` (page ids),
`children`, and the `leaf` flag, modelled as two constructors.  The `next`
pointer of leaves is a Python object reference crossing subtrees, which an
inductive tree cannot carry; its maintenance (two assignments inside
`split_child`) is modelled separately by `splitLeafLinks` below, and the
chain it builds is, by that discipline, exactly the left-to-right order of
the leaves. -/
inductive BNode where
  | leaf (keys : List Nat) (values : List Nat)
  | node (keys : List Nat) (values : List Nat) (children : List BNode)
deriving Repr

/-- `BPlusTreeNode.find_key_index`: index of the first key that is `≥ k`
(the loop advances while `keys[idx] < k`). -/
def find_key_index (k : Nat) (keys : List Nat) : Nat :=
  (keys.takeWhile (fun x => x < k)).length

/-- `BPlusTreeNode.is_full`: a node is full at `2*t - 1` keys. -/
def BNode.is_full (t : Nat) : BNode → Bool
  | .leaf keys _ => keys.length == 2 * t - 1
  | .node keys _ _ => keys.length == 2 * t - 1

theorem BNode.sizeOf_getD_lt (children : List BNode) (i : Nat) (keys values : List Nat) :
    sizeOf (children.getD i (BNode.leaf [] [])) < sizeOf (BNode.node keys values children) := by
  by_cases h : i < children.length
  · have hm : children.getD i (BNode.leaf [] []) ∈ children := by
      have h2 := List.getElem_mem h
      rwa [List.getD_eq_getElem _ _ h]
    have h1 : sizeOf (children.getD i (BNode.leaf [] [])) < sizeOf children :=
      List.sizeOf_lt_of_mem hm
    have h2 : sizeOf children < sizeOf (BNode.node keys values children) := by
      simp only [BNode.node.sizeOf_spec]
      omega
    omega
  · rw [List.getD_eq_default _ _ (le_of_not_lt h)]
    have e1 : sizeOf (BNode.leaf [] []) = 3 := by
      simp [BNode.leaf.sizeOf_spec]
    have hk : 1 ≤ sizeOf keys := by cases keys <;> simp_arith
    have hv : 1 ≤ sizeOf values := by cases values <;> simp_arith
    have hc : 1 ≤ sizeOf children := by cases children <;> simp_arith
    simp only [BNode.node.sizeOf_spec]
    omega

/-- `BPlusTree.search` composed with its single use in `get_page_id`:
descend with `find_key_index`; the key is found at a node when
`i < len(keys)` and `keys[i] == k`, in which case `values[i]` at that node is
returned; a miss at a leaf returns None.  (An out-of-range child access,
impossible on a well-formed tree, is modelled by the default empty leaf,
where the search returns none just as the source would fail.) -/
def BNode.searchVal (k : Nat) : BNode → Option Nat
  | .leaf keys values =>
    let i := find_key_index k keys
    if i < keys.length ∧ keys.getD i 0 = k then some (values.getD i 0) else none
  | .node keys values children =>
    let i := find_key_index k keys
    if i < keys.length ∧ keys.getD i 0 = k then some (values.getD i 0)
    else BNode.searchVal k (children.getD i (.leaf [] []))
termination_by n => sizeOf n
decreasing_by
  exact BNode.sizeOf_getD_lt ..

/-- `BPlusTree.get_page_id`: the value found by `search`, or None. -/
def get_page_id (tr : BNode) (row_id : Nat) : Option Nat :=
  BNode.searchVal row_id tr

/-- The update branch of `insert_row_mapping` (`node.values[idx] = page_id`):
replay the descent of `search` and overwrite the value at the found position. -/
def BNode.updateFound (k v : Nat) : BNode → BNode
  | .leaf keys values =>
    let i := find_key_index k keys
    if i < keys.length ∧ keys.getD i 0 = k then .leaf keys (values.set i v)
    else .leaf keys values
  | .node keys values children =>
    let i := find_key_index k keys
    if i < keys.length ∧ keys.getD i 0 = k then .node keys (values.set i v) children
    else .node keys values (children.set i (BNode.updateFound k v (children.getD i (.leaf [] []))))
termination_by n => sizeOf n
decreasing_by
  exact BNode.sizeOf_getD_lt ..

/-- `BPlusTree.delete_row_mapping`: delete keys[idx] and values[idx] at the
node found by `search`, but only when that node is a leaf.  (The source line
carries a stray `s` character before the first `del`; the statement intended
and embedded is the deletion.) -/
def BNode.deleteFound (k : Nat) : BNode → BNode
  | .leaf keys values =>
    let i := find_key_index k keys
    if i < keys.length ∧ keys.getD i 0 = k then .leaf (keys.eraseIdx i) (values.eraseIdx i)
    else .leaf keys values
  | .node keys values children =>
    let i := find_key_index k keys
    if i < keys.length ∧ keys.getD i 0 = k then .node keys values children
    else .node keys values (children.set i (BNode.deleteFound k (children.getD i (.leaf [] []))))
termination_by n => sizeOf n
decreasing_by
  exact BNode.sizeOf_getD_lt ..

def delete_row_mapping (tr : BNode) (row_id : Nat) : BNode :=
  BNode.deleteFound row_id tr

/-- `BPlusTree.split_child` (memory/index.py lines 95-136), structural part.
Split the full child at `parent.children[i]` around `median = t - 1`.  For a
leaf child the median key and value are copied up and the arrays are split
at `median` — so the median key lands at the head of the NEW (right) leaf,
while the left half keeps `keys[:median]`; for an internal child the median
moves up and the arrays split at `median + 1` (children at `median + 1`).
The promoted key and value are inserted into the parent at position `i`, the
new child at `i + 1`. -/
def splitChild (t : Nat) (parent : BNode) (i : Nat) : BNode :=
  match parent with
  | .leaf k v => .leaf k v
  | .node pkeys pvalues pchildren =>
    let median := t - 1
    match pchildren.getD i (.leaf [] []) with
    | .leaf ckeys cvalues =>
      let pk := ckeys.getD median 0
      let pv := cvalues.getD median 0
      let newChild := BNode.leaf (ckeys.drop median) (cvalues.drop median)
      let oldChild := BNode.leaf (ckeys.take median) (cvalues.take median)
      .node (pkeys.insertIdx i pk) (pvalues.insertIdx i pv)
        ((pchildren.set i oldChild).insertIdx (i + 1) newChild)
    | .node ckeys cvalues cchildren =>
      let pk := ckeys.getD median 0
      let pv := cvalues.getD median 0
      let newChild := BNode.node (ckeys.drop (median + 1)) (cvalues.drop (median + 1))
        (cchildren.drop (median + 1))
      let oldChild := BNode.node (ckeys.take median) (cvalues.take median)
        (cchildren.take (median + 1))
      .node (pkeys.insertIdx i pk) (pvalues.insertIdx i pv)
        ((pchildren.set i oldChild).insertIdx (i + 1) newChild)

/-- The leaf-link maintenance of `split_child` lines 117-119
(`new_child.next = full_child.next; full_child.next = new_child`): with the
split leaf's halves as in `splitChild`, the new right leaf inherits the old
leaf's forward link and the old leaf now points at the new leaf (identified
by `newId`).  Returns (old leaf's link, new leaf's link). -/
def splitLeafLinks (oldNext : Option Nat) (newId : Nat) : Option Nat × Option Nat :=
  (some newId, oldNext)

/-- The descent index of `_insert_non_full` (lines 139, 145-148, 154-156):
the loop scans from the right while `keys[i] > k`, so the insertion / child
index is `len(keys)` minus the length of the maximal suffix of keys `> k`. -/
def insertIdxOf (k : Nat) (keys : List Nat) : Nat :=
  keys.length - (keys.reverse.takeWhile (fun x => k < x)).length

/-- `BPlusTree._insert_non_full` (lines 138-165).  In a leaf, shift the
maximal suffix of keys `> k` right by one and place `k` (and `v`) in the gap
— values move in lockstep with keys.  In an internal node, find the child
index the same way, pre-split the child if it is full (descending right of
the promoted key when `k` exceeds it), and recurse.  The source recursion
descends one level per call; it is driven here by explicit fuel, which
`insert_row_mapping` instantiates above the tree height so the 0 case is
never reached. -/
def insertNonFull (t : Nat) : Nat → BNode → Nat → Nat → BNode
  | 0, n, _, _ => n
  | _ + 1, .leaf keys values, k, v =>
    let m := insertIdxOf k keys
    .leaf (keys.take m ++ k :: keys.drop m) (values.take m ++ v :: values.drop m)
  | fuel + 1, .node keys values children, k, v =>
    let i := insertIdxOf k keys
    if (children.getD i (.leaf [] [])).is_full t then
      match splitChild t (.node keys values children) i with
      | .leaf k2 v2 => .leaf k2 v2
      | .node keys2 values2 children2 =>
        let i2 := if keys2.getD i 0 < k then i + 1 else i
        .node keys2 values2
          (children2.set i2 (insertNonFull t fuel (children2.getD i2 (.leaf [] [])) k v))
    else
      .node keys values
        (children.set i (insertNonFull t fuel (children.getD i (.leaf [] [])) k v))

def BNode.height : BNode → Nat
  | .leaf _ _ => 0
  | .node _ _ children => 1 + (children.attach.map (fun c => BNode.height c.1)).foldl max 0
decreasing_by
  simp only [BNode.node.sizeOf_spec]
  have h1 := List.sizeOf_lt_of_mem c.2
  omega

/-- `BPlusTree.insert_row_mapping` (lines 58-80): if the key is found
anywhere, overwrite its value in place; otherwise, if the root is full, grow
the tree by a fresh root above the old one, split it, and insert into the
non-full new root; else insert into the non-full root directly. -/
def insert_row_mapping (t : Nat) (tr : BNode) (row_id page_id : Nat) : BNode :=
  match BNode.searchVal row_id tr with
  | some _ => BNode.updateFound row_id page_id tr
  | none =>
    if tr.is_full t then
      insertNonFull t (tr.height + 2) (splitChild t (.node [] [] [tr]) 0) row_id page_id
    else
      insertNonFull t (tr.height + 1) tr row_id page_id

/-- The keys stored in the leaves, in left-to-right order — what
`traverse_leaves` enumerates by following the leaf link chain from the
leftmost leaf (the chain visits leaves left to right by the link discipline
of `split_child`, cf. `splitLeafLinks`). -/
def BNode.leafKeys : BNode → List Nat
  | .leaf keys _ => keys
  | .node _ _ children => (children.attach.map (fun c => BNode.leafKeys c.1)).flatten
decreasing_by
  simp only [BNode.node.sizeOf_spec]
  have h1 := List.sizeOf_lt_of_mem c.2
  omega

/-- Every (key, value) pair stored anywhere in the tree (the source's
`split_child` stores values in internal nodes too). -/
def BNode.pairsOf : BNode → List (Nat × Nat)
  | .leaf keys values => keys.zip values
  | .node keys values children =>
    keys.zip values ++ (children.attach.map (fun c => BNode.pairsOf c.1)).flatten
decreasing_by
  simp only [BNode.node.sizeOf_spec]
  have h1 := List.sizeOf_lt_of_mem c.2
  omega

/-- Strict ascending order of a key list. -/
def ascChain : List Nat → Bool
  | [] => true
  | [_] => true
  | a :: b :: rest => decide (a < b) && ascChain (b :: rest)

/-- Keys strictly ascending within every node of the tree. -/
def BNode.sortedWithin : BNode → Bool
  | .leaf keys _ => ascChain keys
  | .node keys _ children =>
    ascChain keys && (children.attach.map (fun c => BNode.sortedWithin c.1)).all id
decreasing_by
  simp only [BNode.node.sizeOf_spec]
  have h1 := List.sizeOf_lt_of_mem c.2
  omega

/-- some d when every leaf sits at depth d; none otherwise. -/
def BNode.uniformDepth : BNode → Option Nat
  | .leaf _ _ => some 0
  | .node _ _ children =>
    match children.attach.map (fun c => BNode.uniformDepth c.1) with
    | [] => none
    | some d :: rest => if rest.all (· = some d) then some (d + 1) else none
    | none :: _ => none
decreasing_by
  simp only [BNode.node.sizeOf_spec]
  have h1 := List.sizeOf_lt_of_mem c.2
  omega

/-- Every node of this subtree holds at least `t - 1` keys. -/
def BNode.minFillFrom (t : Nat) : BNode → Bool
  | .leaf keys _ => decide (t - 1 ≤ keys.length)
  | .node keys _ children =>
    decide (t - 1 ≤ keys.length) &&
      (children.attach.map (fun c => BNode.minFillFrom t c.1)).all id
decreasing_by
  simp only [BNode.node.sizeOf_spec]
  have h1 := List.sizeOf_lt_of_mem c.2
  omega

/-- Every non-root node holds at least `t - 1` keys (root exempt). -/
def BNode.minFillRoot (t : Nat) : BNode → Bool
  | .leaf _ _ => true
  | .node _ _ children =>
    (children.attach.map (fun c => BNode.minFillFrom t c.1)).all id

end Inno

namespace Inno

theorem ascChain_iff_chain : ∀ (l : List Nat), ascChain l = true ↔ List.Chain' (· < ·) l
  | [] => by simp [ascChain]
  | [a] => by simp [ascChain]
  | a :: b :: l => by
    rw [show ascChain (a :: b :: l) = (decide (a < b) && ascChain (b :: l)) from rfl,
      Bool.and_eq_true, decide_eq_true_eq, ascChain_iff_chain (b :: l), List.chain'_cons]

theorem ascChain_iff_pairwise (l : List Nat) : ascChain l = true ↔ l.Pairwise (· < ·) := by
  rw [ascChain_iff_chain, List.chain'_iff_pairwise]

/-- C4 counterexample: under a parent with routing key 10, splitting the full
leaf with keys [1, 2, 3] at t = 2 (median key 2) produces the left half
[1] and the new right leaf [2, 3]: the median key 2 is NOT retained in the
left half of the leaf — it moves to the right half — so the claim as stated
fails at this input. -/
theorem c4_counterexample_median_not_in_left_half :
    splitChild 2 (.node [10] [1] [.leaf [1, 2, 3] [5, 6, 7], .leaf [10, 11] [8, 9]]) 0
      = .node [2, 10] [6, 1] [.leaf [1] [5], .leaf [2, 3] [6, 7], .leaf [10, 11] [8, 9]]
    ∧ ¬ (2 ∈ [1]) := by
  exact ⟨rfl, by decide⟩

/-- C4 (amended): when split_child splits a full leaf (2t−1 keys, t ≥ 2), the
median key keys[t−1] is copied into the parent at position i together with
its value, and is retained at the head of the RIGHT half — the new leaf —
not in the left half, which keeps keys[:t−1] (for strictly ascending keys
the median is provably absent from it); the keys and values arrays are split
at the same position t−1; the new right leaf takes over the old leaf's
forward link, and the old leaf's forward link points to the new right leaf
(splitLeafLinks, lines 117-119). -/
theorem c4_leaf_split_right_half_retains_median (t : Nat) (ht : 2 ≤ t)
    (pkeys pvalues : List Nat) (pchildren : List BNode) (i : Nat)
    (ckeys cvalues : List Nat) (oldNext : Option Nat) (newId : Nat)
    (hchild : pchildren.getD i (.leaf [] []) = .leaf ckeys cvalues)
    (hfull : ckeys.length = 2 * t - 1)
    (hsorted : ascChain ckeys = true) :
    splitChild t (.node pkeys pvalues pchildren) i
      = .node (pkeys.insertIdx i (ckeys.getD (t - 1) 0)) (pvalues.insertIdx i (cvalues.getD (t - 1) 0))
          ((pchildren.set i (.leaf (ckeys.take (t - 1)) (cvalues.take (t - 1)))).insertIdx (i + 1)
            (.leaf (ckeys.drop (t - 1)) (cvalues.drop (t - 1))))
    ∧ (ckeys.drop (t - 1)).head? = some (ckeys.getD (t - 1) 0)
    ∧ ckeys.getD (t - 1) 0 ∉ ckeys.take (t - 1)
    ∧ (ckeys.take (t - 1)).length = t - 1
    ∧ (ckeys.drop (t - 1)).length = t
    ∧ splitLeafLinks oldNext newId = (some newId, oldNext) := by
  have hlt : t - 1 < ckeys.length := by omega
  refine ⟨?_, ?_, ?_, ?_, ?_, rfl⟩
  · simp only [splitChild]
    rw [hchild]
  · rw [List.head?_drop, List.getD_eq_getElem _ _ hlt]
    simp
  · have hp : ckeys.Pairwise (· < ·) := (ascChain_iff_pairwise _).mp hsorted
    rw [List.getD_eq_getElem _ _ hlt]
    intro hmem
    obtain ⟨j, hj, hje⟩ := List.mem_iff_getElem.mp hmem
    rw [List.length_take] at hj
    have hjlt : j < t - 1 := lt_of_lt_of_le hj (min_le_left _ _)
    have hje2 : ckeys.take (t - 1) = ckeys.take (t - 1) := rfl
    rw [List.getElem_take] at hje
    have := List.pairwise_iff_getElem.mp hp j (t - 1) (by omega) hlt (by omega)
    omega
  · rw [List.length_take]; omega
  · rw [List.length_drop]; omega

/-- Witness for the amended C4: the concrete split of the counterexample. -/
theorem c4_leaf_split_witness :
    splitChild 2 (.node [10] [1] [.leaf [1, 2, 3] [5, 6, 7], .leaf [10, 11] [8, 9]]) 0
      = .node ([10].insertIdx 0 ([1, 2, 3].getD 1 0)) ([1].insertIdx 0 ([5, 6, 7].getD 1 0))
          (([(.leaf [1, 2, 3] [5, 6, 7]), (.leaf [10, 11] [8, 9])].set 0
              (.leaf ([1, 2, 3].take 1) ([5, 6, 7].take 1))).insertIdx 1
            (.leaf ([1, 2, 3].drop 1) ([5, 6, 7].drop 1)))
    ∧ ([1, 2, 3].drop 1).head? = some ([1, 2, 3].getD 1 0)
    ∧ [1, 2, 3].getD 1 0 ∉ [1, 2, 3].take 1
    ∧ ([1, 2, 3].take 1).length = 1
    ∧ ([1, 2, 3].drop 1).length = 2
    ∧ splitLeafLinks (some 7) 3 = (some 3, some 7) :=
  c4_leaf_split_right_half_retains_median 2 (by decide) [10] [1]
    [(.leaf [1, 2, 3] [5, 6, 7]), (.leaf [10, 11] [8, 9])] 0 [1, 2, 3] [5, 6, 7]
    (some 7) 3 rfl rfl (by decide)

end Inno

namespace Inno

/-! Utility lemmas about lists used throughout the B+ tree development. -/

theorem take_takeWhile_length {α : Type} (p : α → Bool) :
    ∀ (l : List α), l.take (l.takeWhile p).length = l.takeWhile p
  | [] => rfl
  | a :: l => by
    by_cases h : p a <;>
      simp [List.takeWhile_cons, h, take_takeWhile_length p l]

theorem drop_takeWhile_length {α : Type} (p : α → Bool) :
    ∀ (l : List α), l.drop (l.takeWhile p).length = l.dropWhile p
  | [] => rfl
  | a :: l => by
    by_cases h : p a <;>
      simp [List.takeWhile_cons, List.dropWhile_cons, h, drop_takeWhile_length p l]

/-- When satisfaction of p propagates backwards along the list, the p-prefix
contains every p-element: takeWhile length = countP. -/
theorem takeWhile_length_eq_countP {α : Type} {p : α → Bool} :
    ∀ {l : List α}, List.Pairwise (fun a b => p b = true → p a = true) l →
      (l.takeWhile p).length = l.countP p
  | [], _ => rfl
  | a :: l, h => by
    rcases List.pairwise_cons.mp h with ⟨hhead, htail⟩
    by_cases hpa : p a = true
    · simp [List.takeWhile_cons, hpa, List.countP_cons, takeWhile_length_eq_countP htail]
    · have hz : l.countP p = 0 := List.countP_eq_zero.mpr (fun x hx hpx => hpa (hhead x hx hpx))
      simp [List.takeWhile_cons, hpa, List.countP_cons, hz]

/-- On strictly ascending keys, the descent index of _insert_non_full equals
the length of the prefix of keys ≤ k. -/
theorem insertIdxOf_sorted {k : Nat} {keys : List Nat}
    (hp : keys.Pairwise (· < ·)) :
    insertIdxOf k keys = (keys.takeWhile (fun x => x ≤ k)).length := by
  unfold insertIdxOf
  have h1 : (keys.reverse.takeWhile (fun x => k < x)).length
      = keys.reverse.countP (fun x => k < x) := by
    refine takeWhile_length_eq_countP ?_
    rw [List.pairwise_reverse]
    exact hp.imp (by intro a b hab h; simp at h ⊢; omega)
  have h2 : (keys.takeWhile (fun x => x ≤ k)).length
      = keys.countP (fun x => x ≤ k) := by
    refine takeWhile_length_eq_countP ?_
    exact hp.imp (by intro a b hab h; simp at h ⊢; omega)
  rw [h1, h2, List.countP_reverse]
  have h3 := List.length_eq_countP_add_countP (fun x => decide (k < x)) keys
  have h4 : keys.countP (fun a => decide ¬(decide (k < a)) = true)
      = keys.countP (fun x => x ≤ k) := by
    refine List.countP_congr ?_
    intro x _
    simp
  omega

end Inno

namespace Inno

/-- Inclusive lower bound (None = unbounded). -/
def inLo (lo : Option Nat) (k : Nat) : Prop :=
  match lo with
  | none => True
  | some a => a ≤ k

/-- Exclusive upper bound (None = unbounded). -/
def inHi (hi : Option Nat) (k : Nat) : Prop :=
  match hi with
  | none => True
  | some b => k < b

/-- Well-formed alternation of children and separating keys: child j holds
keys in [keys[j-1], keys[j]) (bounds from the enclosing node at the ends). -/
def wfSeq (P : Option Nat → Option Nat → BNode → Prop) :
    Option Nat → Option Nat → List Nat → List BNode → Prop
  | lo, hi, [], [c] => P lo hi c
  | lo, hi, k :: ks, c :: cs => P lo (some k) c ∧ wfSeq P (some k) hi ks cs
  | _, _, _, _ => False

/-- Well-formedness of a non-root subtree at depth d within bounds (lo, hi):
every leaf at depth exactly d; keys strictly ascending, between t−1 and
2t−1 many, within bounds, and with parallel values; internal nodes have
one more child than keys, every routing key has a copy in some leaf below,
and the children partition the key space per wfSeq. -/
def wfAux (t : Nat) : Nat → Option Nat → Option Nat → BNode → Prop
  | 0, lo, hi, n =>
    match n with
    | .leaf keys values =>
      ascChain keys = true ∧ values.length = keys.length ∧
      t - 1 ≤ keys.length ∧ keys.length ≤ 2 * t - 1 ∧
      (∀ k ∈ keys, inLo lo k ∧ inHi hi k)
    | .node _ _ _ => False
  | d + 1, lo, hi, n =>
    match n with
    | .leaf _ _ => False
    | .node keys values children =>
      ascChain keys = true ∧ values.length = keys.length ∧
      children.length = keys.length + 1 ∧
      t - 1 ≤ keys.length ∧ keys.length ≤ 2 * t - 1 ∧
      (∀ k ∈ keys, inLo lo k ∧ inHi hi k) ∧
      (∀ k ∈ keys, k ∈ BNode.leafKeys (.node keys values children)) ∧
      wfSeq (wfAux t d) lo hi keys children

/-- Well-formedness of the whole tree: the root is exempt from the minimum
fill (an internal root still carries at least one key, as `split_child`
guarantees). -/
def WFroot (t : Nat) (tr : BNode) : Prop :=
  match tr with
  | .leaf keys values =>
    ascChain keys = true ∧ values.length = keys.length ∧ keys.length ≤ 2 * t - 1
  | .node keys values children => ∃ d,
    ascChain keys = true ∧ values.length = keys.length ∧
    children.length = keys.length + 1 ∧
    1 ≤ keys.length ∧ keys.length ≤ 2 * t - 1 ∧
    (∀ k ∈ keys, k ∈ BNode.leafKeys (.node keys values children)) ∧
    wfSeq (wfAux t d) none none keys children

theorem leafKeys_node (ks vs : List Nat) (cs : List BNode) :
    (BNode.node ks vs cs).leafKeys = (cs.map BNode.leafKeys).flatten := by
  rw [BNode.leafKeys, List.attach_map_coe]

theorem pairsOf_node (ks vs : List Nat) (cs : List BNode) :
    (BNode.node ks vs cs).pairsOf = ks.zip vs ++ (cs.map BNode.pairsOf).flatten := by
  rw [BNode.pairsOf, List.attach_map_coe]

theorem height_node (ks vs : List Nat) (cs : List BNode) :
    (BNode.node ks vs cs).height = 1 + (cs.map BNode.height).foldl max 0 := by
  rw [BNode.height, List.attach_map_coe]

theorem sortedWithin_node (ks vs : List Nat) (cs : List BNode) :
    (BNode.node ks vs cs).sortedWithin
      = (ascChain ks && (cs.map BNode.sortedWithin).all id) := by
  rw [BNode.sortedWithin, List.attach_map_coe]

theorem uniformDepth_node (ks vs : List Nat) (cs : List BNode) :
    (BNode.node ks vs cs).uniformDepth
      = (match cs.map BNode.uniformDepth with
         | [] => none
         | some d :: rest => if rest.all (· = some d) then some (d + 1) else none
         | none :: _ => none) := by
  rw [BNode.uniformDepth, List.attach_map_coe]

theorem minFillFrom_node (t : Nat) (ks vs : List Nat) (cs : List BNode) :
    BNode.minFillFrom t (.node ks vs cs)
      = (decide (t - 1 ≤ ks.length) && (cs.map (BNode.minFillFrom t)).all id) := by
  rw [BNode.minFillFrom, List.attach_map_coe]

theorem minFillRoot_node (t : Nat) (ks vs : List Nat) (cs : List BNode) :
    BNode.minFillRoot t (.node ks vs cs) = (cs.map (BNode.minFillFrom t)).all id := by
  rw [BNode.minFillRoot, List.attach_map_coe]

theorem wfSeq_length {P : Option Nat → Option Nat → BNode → Prop} :
    ∀ {ks : List Nat} {cs : List BNode} {lo hi : Option Nat},
      wfSeq P lo hi ks cs → cs.length = ks.length + 1
  | [], [c], _, _, _ => rfl
  | [], [], _, _, h => h.elim
  | [], _ :: _ :: _, _, _, h => h.elim
  | _ :: _, [], _, _, h => h.elim
  | k :: ks, c :: cs, lo, hi, h => by
    have := @wfSeq_length P _ _ _ _ h.2
    simp [this]

theorem wfSeq_mem {P : Option Nat → Option Nat → BNode → Prop} :
    ∀ {ks : List Nat} {cs : List BNode} {lo hi : Option Nat},
      wfSeq P lo hi ks cs → ∀ c ∈ cs, ∃ lo' hi', P lo' hi' c
  | [], [c], lo, hi, h, c', hc' => by
    rw [List.mem_singleton] at hc'
    exact ⟨lo, hi, hc' ▸ h⟩
  | [], [], _, _, h, _, _ => h.elim
  | [], _ :: _ :: _, _, _, h, _, _ => h.elim
  | _ :: _, [], _, _, h, _, _ => h.elim
  | k :: ks, c :: cs, lo, hi, h, c', hc' => by
    rcases List.mem_cons.mp hc' with h1 | h1
    · exact ⟨lo, some k, h1 ▸ h.1⟩
    · exact wfSeq_mem h.2 c' h1

end Inno

namespace Inno

theorem inLo_trans {lo : Option Nat} {k x : Nat} (h1 : inLo lo k) (h2 : k ≤ x) : inLo lo x := by
  cases lo with
  | none => trivial
  | some a => exact le_trans h1 h2

theorem inHi_trans {hi : Option Nat} {k x : Nat} (h1 : x < k) (h2 : inHi hi k) : inHi hi x := by
  cases hi with
  | none => trivial
  | some b => exact lt_trans h1 h2

theorem foldl_max_acc_eq {v : Nat} : ∀ (l : List Nat), (∀ x ∈ l, x = v) → l.foldl max v = v
  | [], _ => rfl
  | x :: l, h => by
    have hx : x = v := h x (by simp)
    simp only [List.foldl_cons, hx, Nat.max_self]
    exact foldl_max_acc_eq l (fun y hy => h y (by simp [hy]))

theorem foldl_max_eq_of_all_eq {v : Nat} :
    ∀ (l : List Nat), (∀ x ∈ l, x = v) → l ≠ [] → l.foldl max 0 = v
  | [], _, hne => absurd rfl hne
  | x :: l, h, _ => by
    have hx : x = v := h x (by simp)
    simp only [List.foldl_cons, Nat.zero_max, hx]
    exact foldl_max_acc_eq l (fun y hy => h y (by simp [hy]))

theorem wfAux_height (t : Nat) :
    ∀ (d : Nat) (n : BNode) (lo hi : Option Nat), wfAux t d lo hi n → n.height = d
  | 0, .leaf _ _, _, _, _ => by simp [BNode.height]
  | 0, .node _ _ _, _, _, h => h.elim
  | _ + 1, .leaf _ _, _, _, h => h.elim
  | d + 1, .node ks vs cs, lo, hi, h => by
    obtain ⟨_, _, hclen, _, _, _, _, hseq⟩ := h
    rw [height_node]
    have hmem : ∀ x ∈ cs.map BNode.height, x = d := by
      intro x hx
      obtain ⟨c, hc, rfl⟩ := List.mem_map.mp hx
      obtain ⟨lo', hi', hP⟩ := wfSeq_mem hseq c hc
      exact wfAux_height t d c lo' hi' hP
    have hne : cs.map BNode.height ≠ [] := by
      intro hcontra
      rw [List.map_eq_nil_iff.mp hcontra] at hclen
      simp at hclen
    rw [foldl_max_eq_of_all_eq _ hmem hne]
    omega

theorem wfAux_uniformDepth (t : Nat) :
    ∀ (d : Nat) (n : BNode) (lo hi : Option Nat), wfAux t d lo hi n →
      n.uniformDepth = some d
  | 0, .leaf _ _, _, _, _ => by simp [BNode.uniformDepth]
  | 0, .node _ _ _, _, _, h => h.elim
  | _ + 1, .leaf _ _, _, _, h => h.elim
  | d + 1, .node ks vs cs, lo, hi, h => by
    obtain ⟨_, _, hclen, _, _, _, _, hseq⟩ := h
    rw [uniformDepth_node]
    have hmem : ∀ x ∈ cs.map BNode.uniformDepth, x = some d := by
      intro x hx
      obtain ⟨c, hc, rfl⟩ := List.mem_map.mp hx
      obtain ⟨lo', hi', hP⟩ := wfSeq_mem hseq c hc
      exact wfAux_uniformDepth t d c lo' hi' hP
    cases hcs : cs.map BNode.uniformDepth with
    | nil =>
      rw [List.map_eq_nil_iff.mp hcs] at hclen
      simp at hclen
    | cons a rest =>
      have ha : a = some d := hmem a (by rw [hcs]; simp)
      rw [ha]
      have hrest : rest.all (· = some d) = true := by
        rw [List.all_eq_true]
        intro x hx
        simp only [decide_eq_true_eq]
        exact hmem x (by rw [hcs]; simp [hx])
      simp [hrest]

theorem wfAux_sortedWithin (t : Nat) :
    ∀ (d : Nat) (n : BNode) (lo hi : Option Nat), wfAux t d lo hi n →
      n.sortedWithin = true
  | 0, .leaf ks vs, _, _, h => by rw [BNode.sortedWithin]; exact h.1
  | 0, .node _ _ _, _, _, h => h.elim
  | _ + 1, .leaf _ _, _, _, h => h.elim
  | d + 1, .node ks vs cs, lo, hi, h => by
    obtain ⟨hasc, _, _, _, _, _, _, hseq⟩ := h
    rw [sortedWithin_node, Bool.and_eq_true]
    refine ⟨hasc, ?_⟩
    rw [List.all_eq_true]
    intro x hx
    obtain ⟨c, hc, rfl⟩ := List.mem_map.mp hx
    obtain ⟨lo', hi', hP⟩ := wfSeq_mem hseq c hc
    simpa using wfAux_sortedWithin t d c lo' hi' hP

theorem wfAux_minFillFrom (t : Nat) :
    ∀ (d : Nat) (n : BNode) (lo hi : Option Nat), wfAux t d lo hi n →
      BNode.minFillFrom t n = true
  | 0, .leaf ks vs, _, _, h => by
    simp only [BNode.minFillFrom, decide_eq_true_eq]
    exact h.2.2.1
  | 0, .node _ _ _, _, _, h => h.elim
  | _ + 1, .leaf _ _, _, _, h => h.elim
  | d + 1, .node ks vs cs, lo, hi, h => by
    obtain ⟨_, _, _, hfill, _, _, _, hseq⟩ := h
    rw [minFillFrom_node, Bool.and_eq_true]
    refine ⟨by simpa using hfill, ?_⟩
    rw [List.all_eq_true]
    intro x hx
    obtain ⟨c, hc, rfl⟩ := List.mem_map.mp hx
    obtain ⟨lo', hi', hP⟩ := wfSeq_mem hseq c hc
    simpa using wfAux_minFillFrom t d c lo' hi' hP

end Inno

namespace Inno

theorem wfSeq_leafKeys_bound (t d : Nat)
    (IH : ∀ (n : BNode) (lo hi : Option Nat), wfAux t d lo hi n →
      ∀ x ∈ n.leafKeys, inLo lo x ∧ inHi hi x) :
    ∀ (ks : List Nat) (cs : List BNode) (lo hi : Option Nat),
      wfSeq (wfAux t d) lo hi ks cs →
      ks.Pairwise (· < ·) →
      (∀ k ∈ ks, inLo lo k ∧ inHi hi k) →
      ∀ x ∈ (cs.map BNode.leafKeys).flatten, inLo lo x ∧ inHi hi x
  | [], [c], lo, hi, h, _, _, x, hx => by
    refine IH c lo hi h x ?_
    simpa using hx
  | [], [], _, _, h, _, _, _, _ => h.elim
  | [], _ :: _ :: _, _, _, h, _, _, _, _ => h.elim
  | _ :: _, [], _, _, h, _, _, _, _ => h.elim
  | k :: ks, c :: cs, lo, hi, h, hsorted, hbk, x, hx => by
    rw [List.map_cons, List.flatten_cons, List.mem_append] at hx
    have hk := hbk k (by simp)
    rcases hx with hx | hx
    · have h1 := IH c lo (some k) h.1 x hx
      exact ⟨h1.1, inHi_trans h1.2 hk.2⟩
    · rcases List.pairwise_cons.mp hsorted with ⟨hhead, htail⟩
      have hbk' : ∀ k' ∈ ks, inLo (some k) k' ∧ inHi hi k' := by
        intro k' hk'
        exact ⟨le_of_lt (hhead k' hk'), (hbk k' (by simp [hk'])).2⟩
      have h2 := wfSeq_leafKeys_bound t d IH ks cs (some k) hi h.2 htail hbk' x hx
      exact ⟨inLo_trans hk.1 h2.1, h2.2⟩

theorem wfAux_leafKeys_bound (t : Nat) :
    ∀ (d : Nat) (n : BNode) (lo hi : Option Nat), wfAux t d lo hi n →
      ∀ x ∈ n.leafKeys, inLo lo x ∧ inHi hi x
  | 0, .leaf ks vs, lo, hi, h => by
    intro x hx
    rw [BNode.leafKeys] at hx
    exact h.2.2.2.2 x hx
  | 0, .node _ _ _, _, _, h => h.elim
  | _ + 1, .leaf _ _, _, _, h => h.elim
  | d + 1, .node ks vs cs, lo, hi, h => by
    obtain ⟨hasc, _, _, _, _, hbk, _, hseq⟩ := h
    intro x hx
    rw [leafKeys_node] at hx
    exact wfSeq_leafKeys_bound t d (wfAux_leafKeys_bound t d) ks cs lo hi hseq
      ((ascChain_iff_pairwise ks).mp hasc) hbk x hx

theorem wfSeq_leafKeys_asc (t d : Nat)
    (IHa : ∀ (n : BNode) (lo hi : Option Nat), wfAux t d lo hi n →
      n.leafKeys.Pairwise (· < ·)) :
    ∀ (ks : List Nat) (cs : List BNode) (lo hi : Option Nat),
      wfSeq (wfAux t d) lo hi ks cs →
      ks.Pairwise (· < ·) →
      (∀ k ∈ ks, inLo lo k ∧ inHi hi k) →
      ((cs.map BNode.leafKeys).flatten).Pairwise (· < ·)
  | [], [c], lo, hi, h, _, _ => by simpa using IHa c lo hi h
  | [], [], _, _, h, _, _ => h.elim
  | [], _ :: _ :: _, _, _, h, _, _ => h.elim
  | _ :: _, [], _, _, h, _, _ => h.elim
  | k :: ks, c :: cs, lo, hi, h, hsorted, hbk => by
    rw [List.map_cons, List.flatten_cons, List.pairwise_append]
    rcases List.pairwise_cons.mp hsorted with ⟨hhead, htail⟩
    have hbk' : ∀ k' ∈ ks, inLo (some k) k' ∧ inHi hi k' := by
      intro k' hk'
      exact ⟨le_of_lt (hhead k' hk'), (hbk k' (by simp [hk'])).2⟩
    refine ⟨IHa c lo (some k) h.1,
      wfSeq_leafKeys_asc t d IHa ks cs (some k) hi h.2 htail hbk', ?_⟩
    intro a ha b hb
    have h1 : inHi (some k) a := (wfAux_leafKeys_bound t d c lo (some k) h.1 a ha).2
    have h2 : inLo (some k) b :=
      (wfSeq_leafKeys_bound t d (wfAux_leafKeys_bound t d) ks cs (some k) hi h.2
        htail hbk' b hb).1
    simp only [inHi] at h1
    simp only [inLo] at h2
    omega

theorem wfAux_leafKeys_asc (t : Nat) :
    ∀ (d : Nat) (n : BNode) (lo hi : Option Nat), wfAux t d lo hi n →
      n.leafKeys.Pairwise (· < ·)
  | 0, .leaf ks vs, lo, hi, h => by
    rw [BNode.leafKeys]
    exact (ascChain_iff_pairwise ks).mp h.1
  | 0, .node _ _ _, _, _, h => h.elim
  | _ + 1, .leaf _ _, _, _, h => h.elim
  | d + 1, .node ks vs cs, lo, hi, h => by
    obtain ⟨hasc, _, _, _, _, hbk, _, hseq⟩ := h
    rw [leafKeys_node]
    exact wfSeq_leafKeys_asc t d (wfAux_leafKeys_asc t d) ks cs lo hi hseq
      ((ascChain_iff_pairwise ks).mp hasc) hbk

end Inno

namespace Inno

theorem find_key_index_cons (k a : Nat) (l : List Nat) :
    find_key_index k (a :: l) = if a < k then find_key_index k l + 1 else 0 := by
  unfold find_key_index
  by_cases h : a < k <;> simp [List.takeWhile_cons, h]

theorem find_key_index_le (k : Nat) : ∀ (l : List Nat), find_key_index k l ≤ l.length := by
  intro l
  unfold find_key_index
  simpa using (List.takeWhile_sublist _).length_le

theorem find_mem_sorted {k : Nat} :
    ∀ {keys : List Nat}, keys.Pairwise (· < ·) → k ∈ keys →
      find_key_index k keys < keys.length ∧ keys.getD (find_key_index k keys) 0 = k := by
  intro keys
  induction keys with
  | nil => intro _ h; simp at h
  | cons a l ih =>
    intro hp hmem
    rcases List.pairwise_cons.mp hp with ⟨hhead, htail⟩
    by_cases hak : a < k
    · have hne : k ≠ a := by omega
      have hl : k ∈ l := by
        rcases List.mem_cons.mp hmem with h | h
        · exact absurd h hne
        · exact h
      have := ih htail hl
      rw [find_key_index_cons, if_pos hak]
      simpa using this
    · have hka : k = a := by
        rcases List.mem_cons.mp hmem with h | h
        · exact h
        · exact absurd (hhead k h) (by omega)
      rw [find_key_index_cons, if_neg hak]
      simp [hka]

theorem found_iff_mem {k : Nat} {keys : List Nat} (hp : keys.Pairwise (· < ·)) :
    (find_key_index k keys < keys.length ∧ keys.getD (find_key_index k keys) 0 = k)
      ↔ k ∈ keys := by
  constructor
  · rintro ⟨h1, h2⟩
    rw [List.getD_eq_getElem _ _ h1] at h2
    rw [← h2]
    exact List.getElem_mem h1
  · exact find_mem_sorted hp

theorem searchVal_leaf (k : Nat) (ks vs : List Nat) :
    BNode.searchVal k (.leaf ks vs)
      = (if find_key_index k ks < ks.length ∧ ks.getD (find_key_index k ks) 0 = k
          then some (vs.getD (find_key_index k ks) 0) else none) := by
  rw [BNode.searchVal]

theorem searchVal_node (k : Nat) (ks vs : List Nat) (cs : List BNode) :
    BNode.searchVal k (.node ks vs cs)
      = (if find_key_index k ks < ks.length ∧ ks.getD (find_key_index k ks) 0 = k
          then some (vs.getD (find_key_index k ks) 0)
          else BNode.searchVal k (cs.getD (find_key_index k ks) (.leaf [] []))) := by
  rw [BNode.searchVal]

/-- Helper: if the search key lies in the leaves below one of the children
and is not a routing key, descending to `children[find_key_index]` reaches
the child whose leaves hold it. -/
theorem wfSeq_search_step (t d : Nat)
    (IH : ∀ (n : BNode) (lo hi : Option Nat) (k : Nat), wfAux t d lo hi n →
      k ∈ n.leafKeys → (BNode.searchVal k n).isSome = true) :
    ∀ (ks : List Nat) (cs : List BNode) (lo hi : Option Nat) (k : Nat),
      wfSeq (wfAux t d) lo hi ks cs →
      ks.Pairwise (· < ·) →
      (∀ k' ∈ ks, inLo lo k' ∧ inHi hi k') →
      k ∈ (cs.map BNode.leafKeys).flatten →
      k ∉ ks →
      (BNode.searchVal k (cs.getD (find_key_index k ks) (.leaf [] []))).isSome = true
  | [], [c], lo, hi, k, h, _, _, hmem, _ => by
    unfold find_key_index
    simp only [List.takeWhile_nil, List.length_nil, List.getD]
    refine IH c lo hi k h ?_
    simpa using hmem
  | [], [], _, _, _, h, _, _, _, _ => h.elim
  | [], _ :: _ :: _, _, _, _, h, _, _, _, _ => h.elim
  | _ :: _, [], _, _, _, h, _, _, _, _ => h.elim
  | k0 :: ks, c0 :: cs, lo, hi, k, h, hsorted, hbk, hmem, hnot => by
    rcases List.pairwise_cons.mp hsorted with ⟨hhead, htail⟩
    have hne : k ≠ k0 := fun he => hnot (by simp [he])
    have hbk' : ∀ k' ∈ ks, inLo (some k0) k' ∧ inHi hi k' := by
      intro k' hk'
      exact ⟨le_of_lt (hhead k' hk'), (hbk k' (by simp [hk'])).2⟩
    rw [List.map_cons, List.flatten_cons, List.mem_append] at hmem
    by_cases hlt : k0 < k
    · rw [find_key_index_cons, if_pos hlt]
      have hmem' : k ∈ (cs.map BNode.leafKeys).flatten := by
        rcases hmem with hm | hm
        · have := (wfAux_leafKeys_bound t d c0 lo (some k0) h.1 k hm).2
          simp only [inHi] at this
          omega
        · exact hm
      simpa using wfSeq_search_step t d IH ks cs (some k0) hi k h.2 htail hbk' hmem'
        (fun hc => hnot (by simp [hc]))
    · rw [find_key_index_cons, if_neg hlt]
      have hmem' : k ∈ BNode.leafKeys c0 := by
        rcases hmem with hm | hm
        · exact hm
        · exfalso
          have := (wfSeq_leafKeys_bound t d (wfAux_leafKeys_bound t d) ks cs (some k0) hi
            h.2 htail hbk' k hm).1
          simp only [inLo] at this
          omega
      simpa using IH c0 lo (some k0) k h.1 hmem'

end Inno

namespace Inno

theorem searchVal_complete (t : Nat) :
    ∀ (d : Nat) (n : BNode) (lo hi : Option Nat) (k : Nat), wfAux t d lo hi n →
      k ∈ n.leafKeys → (BNode.searchVal k n).isSome = true
  | 0, .leaf ks vs, _, _, k, h, hmem => by
    rw [BNode.leafKeys] at hmem
    have hf := find_mem_sorted ((ascChain_iff_pairwise ks).mp h.1) hmem
    rw [searchVal_leaf, if_pos ⟨hf.1, hf.2⟩]
    rfl
  | 0, .node _ _ _, _, _, _, h, _ => h.elim
  | _ + 1, .leaf _ _, _, _, _, h, _ => h.elim
  | d + 1, .node ks vs cs, lo, hi, k, h, hmem => by
    obtain ⟨hasc, _, hclen, _, _, hbk, _, hseq⟩ := h
    rw [searchVal_node]
    by_cases hc : find_key_index k ks < ks.length ∧ ks.getD (find_key_index k ks) 0 = k
    · rw [if_pos hc]; rfl
    · rw [if_neg hc]
      have hnot : k ∉ ks := fun hm =>
        hc ((found_iff_mem ((ascChain_iff_pairwise ks).mp hasc)).mpr hm)
      rw [leafKeys_node] at hmem
      exact wfSeq_search_step t d (searchVal_complete t d) ks cs lo hi k hseq
        ((ascChain_iff_pairwise ks).mp hasc) hbk hmem hnot

theorem mem_zip_getD {ks vs : List Nat} {k v : Nat} (i : Nat)
    (hvlen : vs.length = ks.length) (hi : i < ks.length)
    (hk : ks.getD i 0 = k) (hv : vs.getD i 0 = v) : (k, v) ∈ ks.zip vs := by
  have hvi : i < vs.length := by omega
  rw [List.getD_eq_getElem _ _ hi] at hk
  rw [List.getD_eq_getElem _ _ hvi] at hv
  rw [List.mem_iff_getElem]
  refine ⟨i, ?_, ?_⟩
  · rw [List.length_zip]; omega
  · rw [List.getElem_zip]; rw [hk, hv]

theorem searchVal_sound (t : Nat) :
    ∀ (d : Nat) (n : BNode) (lo hi : Option Nat) (k v : Nat), wfAux t d lo hi n →
      BNode.searchVal k n = some v → (k, v) ∈ n.pairsOf
  | 0, .leaf ks vs, _, _, k, v, h, hs => by
    rw [searchVal_leaf] at hs
    by_cases hc : find_key_index k ks < ks.length ∧ ks.getD (find_key_index k ks) 0 = k
    · rw [if_pos hc] at hs
      injection hs with hv
      rw [BNode.pairsOf]
      exact mem_zip_getD _ h.2.1 hc.1 hc.2 hv
    · rw [if_neg hc] at hs; cases hs
  | 0, .node _ _ _, _, _, _, _, h, _ => h.elim
  | _ + 1, .leaf _ _, _, _, _, _, h, _ => h.elim
  | d + 1, .node ks vs cs, lo, hi, k, v, h, hs => by
    obtain ⟨hasc, hvlen, hclen, _, _, _, _, hseq⟩ := h
    rw [searchVal_node] at hs
    rw [pairsOf_node, List.mem_append]
    by_cases hc : find_key_index k ks < ks.length ∧ ks.getD (find_key_index k ks) 0 = k
    · rw [if_pos hc] at hs
      injection hs with hv
      exact Or.inl (mem_zip_getD _ hvlen hc.1 hc.2 hv)
    · rw [if_neg hc] at hs
      have hilt : find_key_index k ks < cs.length := by
        have := find_key_index_le k ks
        omega
      have hcm : cs.getD (find_key_index k ks) (.leaf [] []) ∈ cs := by
        rw [List.getD_eq_getElem _ _ hilt]
        exact List.getElem_mem hilt
      obtain ⟨lo', hi', hP⟩ := wfSeq_mem hseq _ hcm
      refine Or.inr (List.mem_flatten.mpr ⟨_, List.mem_map_of_mem _ hcm, ?_⟩)
      exact searchVal_sound t d _ lo' hi' k v hP hs

theorem searchVal_complete_root (t : Nat) (tr : BNode) (k : Nat)
    (h : WFroot t tr) (hmem : k ∈ tr.leafKeys) : (BNode.searchVal k tr).isSome = true := by
  cases tr with
  | leaf ks vs =>
    rw [BNode.leafKeys] at hmem
    have hf := find_mem_sorted ((ascChain_iff_pairwise ks).mp h.1) hmem
    rw [searchVal_leaf, if_pos ⟨hf.1, hf.2⟩]
    rfl
  | node ks vs cs =>
    obtain ⟨d, hasc, _, hclen, _, _, _, hseq⟩ := h
    rw [searchVal_node]
    by_cases hc : find_key_index k ks < ks.length ∧ ks.getD (find_key_index k ks) 0 = k
    · rw [if_pos hc]; rfl
    · rw [if_neg hc]
      have hnot : k ∉ ks := fun hm =>
        hc ((found_iff_mem ((ascChain_iff_pairwise ks).mp hasc)).mpr hm)
      rw [leafKeys_node] at hmem
      exact wfSeq_search_step t d (searchVal_complete t d) ks cs none none k hseq
        ((ascChain_iff_pairwise ks).mp hasc) (fun k' _ => ⟨trivial, trivial⟩) hmem hnot

theorem searchVal_sound_root (t : Nat) (tr : BNode) (k v : Nat)
    (h : WFroot t tr) (hs : BNode.searchVal k tr = some v) : (k, v) ∈ tr.pairsOf := by
  cases tr with
  | leaf ks vs =>
    rw [searchVal_leaf] at hs
    by_cases hc : find_key_index k ks < ks.length ∧ ks.getD (find_key_index k ks) 0 = k
    · rw [if_pos hc] at hs
      injection hs with hv
      rw [BNode.pairsOf]
      exact mem_zip_getD _ h.2.1 hc.1 hc.2 hv
    · rw [if_neg hc] at hs; cases hs
  | node ks vs cs =>
    obtain ⟨d, hasc, hvlen, hclen, _, _, _, hseq⟩ := h
    rw [searchVal_node] at hs
    rw [pairsOf_node, List.mem_append]
    by_cases hc : find_key_index k ks < ks.length ∧ ks.getD (find_key_index k ks) 0 = k
    · rw [if_pos hc] at hs
      injection hs with hv
      exact Or.inl (mem_zip_getD _ hvlen hc.1 hc.2 hv)
    · rw [if_neg hc] at hs
      have hilt : find_key_index k ks < cs.length := by
        have := find_key_index_le k ks
        omega
      have hcm : cs.getD (find_key_index k ks) (.leaf [] []) ∈ cs := by
        rw [List.getD_eq_getElem _ _ hilt]
        exact List.getElem_mem hilt
      obtain ⟨lo', hi', hP⟩ := wfSeq_mem hseq _ hcm
      refine Or.inr (List.mem_flatten.mpr ⟨_, List.mem_map_of_mem _ hcm, ?_⟩)
      exact searchVal_sound t d _ lo' hi' k v hP hs

end Inno

namespace Inno

theorem dropWhile_le_gt {k : Nat} {ks : List Nat} (hasc : ks.Pairwise (· < ·)) :
    ∀ x ∈ ks.dropWhile (fun x => x ≤ k), k < x := by
  have h1 : ks.countP (fun x => x ≤ k)
      = (ks.takeWhile (fun x => x ≤ k)).countP (fun x => x ≤ k)
        + (ks.dropWhile (fun x => x ≤ k)).countP (fun x => x ≤ k) := by
    conv_lhs => rw [← List.takeWhile_append_dropWhile (fun x => decide (x ≤ k)) ks]
    rw [List.countP_append]
  have h2 : (ks.takeWhile (fun x => x ≤ k)).countP (fun x => x ≤ k)
      = (ks.takeWhile (fun x => x ≤ k)).length := by
    refine List.countP_eq_length.mpr ?_
    intro a ha
    have := List.mem_takeWhile_imp ha
    simpa using this
  have h3 : (ks.takeWhile (fun x => x ≤ k)).length = ks.countP (fun x => x ≤ k) :=
    takeWhile_length_eq_countP (hasc.imp (by intro a b hab h; simp at h ⊢; omega))
  have h4 : (ks.dropWhile (fun x => x ≤ k)).countP (fun x => x ≤ k) = 0 := by omega
  intro x hx
  have := List.countP_eq_zero.mp h4 x hx
  simpa using this

theorem leaf_insert_core {ks vs : List Nat} {k v : Nat} {lo hi : Option Nat}
    (hasc : ks.Pairwise (· < ·)) (hvlen : vs.length = ks.length)
    (hbk : ∀ x ∈ ks, inLo lo x ∧ inHi hi x)
    (hklo : inLo lo k) (hkhi : inHi hi k) (hfresh : k ∉ ks) :
    (ks.take (insertIdxOf k ks) ++ k :: ks.drop (insertIdxOf k ks)).Pairwise (· < ·)
    ∧ (vs.take (insertIdxOf k ks) ++ v :: vs.drop (insertIdxOf k ks)).length
        = (ks.take (insertIdxOf k ks) ++ k :: ks.drop (insertIdxOf k ks)).length
    ∧ (ks.take (insertIdxOf k ks) ++ k :: ks.drop (insertIdxOf k ks)).length = ks.length + 1
    ∧ (∀ x ∈ ks.take (insertIdxOf k ks) ++ k :: ks.drop (insertIdxOf k ks),
        inLo lo x ∧ inHi hi x)
    ∧ (∀ x, x ∈ ks.take (insertIdxOf k ks) ++ k :: ks.drop (insertIdxOf k ks)
        ↔ x = k ∨ x ∈ ks)
    ∧ (∀ p ∈ (ks.take (insertIdxOf k ks) ++ k :: ks.drop (insertIdxOf k ks)).zip
          (vs.take (insertIdxOf k ks) ++ v :: vs.drop (insertIdxOf k ks)),
        p = (k, v) ∨ p ∈ ks.zip vs) := by
  have hm := @insertIdxOf_sorted k _ hasc
  have hmle : insertIdxOf k ks ≤ ks.length := by
    rw [hm]
    simpa using (List.takeWhile_sublist _).length_le
  have hmlev : insertIdxOf k ks ≤ vs.length := by omega
  have htk : ks.take (insertIdxOf k ks) = ks.takeWhile (fun x => x ≤ k) := by
    rw [hm]; exact take_takeWhile_length _ ks
  have hdk : ks.drop (insertIdxOf k ks) = ks.dropWhile (fun x => x ≤ k) := by
    rw [hm]; exact drop_takeWhile_length _ ks
  have htake_lt : ∀ x ∈ ks.take (insertIdxOf k ks), x < k := by
    intro x hx
    rw [htk] at hx
    have h1 : x ≤ k := by simpa using List.mem_takeWhile_imp hx
    have h2 : x ∈ ks := (List.takeWhile_sublist _).mem hx
    have h3 : x ≠ k := fun he => hfresh (he ▸ h2)
    omega
  have hdrop_gt : ∀ x ∈ ks.drop (insertIdxOf k ks), k < x := by
    intro x hx
    rw [hdk] at hx
    exact dropWhile_le_gt hasc x hx
  have hsplit : ks.take (insertIdxOf k ks) ++ ks.drop (insertIdxOf k ks) = ks :=
    List.take_append_drop _ ks
  refine ⟨?_, ?_, ?_, ?_, ?_, ?_⟩
  · rw [List.pairwise_append]
    refine ⟨hasc.sublist (List.take_sublist _ _), ?_, ?_⟩
    · rw [List.pairwise_cons]
      exact ⟨hdrop_gt, hasc.sublist (List.drop_sublist _ _)⟩
    · intro a ha b hb
      rcases List.mem_cons.mp hb with rfl | hb'
      · exact htake_lt a ha
      · exact lt_trans (htake_lt a ha) (hdrop_gt b hb')
  · simp only [List.length_append, List.length_cons, List.length_take, List.length_drop]
    omega
  · simp only [List.length_append, List.length_cons, List.length_take, List.length_drop]
    omega
  · intro x hx
    rw [List.mem_append, List.mem_cons] at hx
    rcases hx with hx | hx | hx
    · exact hbk x ((List.take_sublist _ _).mem hx)
    · exact hx ▸ ⟨hklo, hkhi⟩
    · exact hbk x ((List.drop_sublist _ _).mem hx)
  · intro x
    rw [List.mem_append, List.mem_cons]
    constructor
    · rintro (hx | rfl | hx)
      · exact Or.inr ((List.take_sublist _ _).mem hx)
      · exact Or.inl rfl
      · exact Or.inr ((List.drop_sublist _ _).mem hx)
    · rintro (rfl | hx)
      · exact Or.inr (Or.inl rfl)
      · conv at hx => rw [← hsplit]
        rcases List.mem_append.mp hx with hx | hx
        · exact Or.inl hx
        · exact Or.inr (Or.inr hx)
  · intro p hp
    have hlen2 : (ks.take (insertIdxOf k ks)).length = (vs.take (insertIdxOf k ks)).length := by
      simp only [List.length_take]
      omega
    rw [List.zip_append hlen2] at hp
    have hzip : ks.zip vs
        = (ks.take (insertIdxOf k ks)).zip (vs.take (insertIdxOf k ks))
          ++ (ks.drop (insertIdxOf k ks)).zip (vs.drop (insertIdxOf k ks)) := by
      conv_lhs => rw [← hsplit, ← List.take_append_drop (insertIdxOf k ks) vs]
      rw [List.zip_append hlen2]
    rw [List.mem_append] at hp
    rcases hp with hp | hp
    · exact Or.inr (by rw [hzip, List.mem_append]; exact Or.inl hp)
    · rcases List.mem_cons.mp hp with rfl | hp'
      · exact Or.inl rfl
      · exact Or.inr (by rw [hzip, List.mem_append]; exact Or.inr hp')

end Inno

namespace Inno

/-- The inclusive lower bound of child j in a key-separated child sequence. -/
def bndLo (lo : Option Nat) (ks : List Nat) : Nat → Option Nat
  | 0 => lo
  | j + 1 => some (ks.getD j 0)

/-- The exclusive upper bound of child j in a key-separated child sequence. -/
def bndHi (hi : Option Nat) (ks : List Nat) (j : Nat) : Option Nat :=
  if j < ks.length then some (ks.getD j 0) else hi

theorem bndLo_cons (lo : Option Nat) (k : Nat) (ks : List Nat) (j : Nat) :
    bndLo lo (k :: ks) (j + 1) = bndLo (some k) ks j := by
  cases j with
  | zero => simp [bndLo]
  | succ j => simp [bndLo]

theorem bndHi_cons (hi : Option Nat) (k : Nat) (ks : List Nat) (j : Nat) :
    bndHi hi (k :: ks) (j + 1) = bndHi hi ks j := by
  unfold bndHi
  by_cases h : j < ks.length <;> simp [h]

theorem wfSeq_getD {P : Option Nat → Option Nat → BNode → Prop} :
    ∀ {ks : List Nat} {cs : List BNode} {lo hi : Option Nat},
      wfSeq P lo hi ks cs → ∀ j, j < cs.length →
        P (bndLo lo ks j) (bndHi hi ks j) (cs.getD j (.leaf [] []))
  | [], [c], lo, hi, h, 0, _ => by simpa [bndLo, bndHi] using h
  | [], [c], lo, hi, h, j + 1, hj => by simp at hj
  | [], [], _, _, h, _, _ => h.elim
  | [], _ :: _ :: _, _, _, h, _, _ => h.elim
  | _ :: _, [], _, _, h, _, _ => h.elim
  | k :: ks, c :: cs, lo, hi, h, 0, _ => by
    have hk : bndHi hi (k :: ks) 0 = some k := by simp [bndHi]
    simpa [bndLo, hk] using h.1
  | k :: ks, c :: cs, lo, hi, h, j + 1, hj => by
    rw [bndLo_cons, bndHi_cons]
    simpa using wfSeq_getD h.2 j (by simpa using hj)

theorem wfSeq_set {P : Option Nat → Option Nat → BNode → Prop} :
    ∀ {ks : List Nat} {cs : List BNode} {lo hi : Option Nat} {j : Nat} {c' : BNode},
      wfSeq P lo hi ks cs → j < cs.length →
        P (bndLo lo ks j) (bndHi hi ks j) c' →
        wfSeq P lo hi ks (cs.set j c')
  | [], [c], lo, hi, 0, c', h, _, hP => by simpa [wfSeq, bndLo, bndHi] using hP
  | [], [c], _, _, j + 1, _, h, hj, _ => by simp at hj
  | [], [], _, _, _, _, h, _, _ => h.elim
  | [], _ :: _ :: _, _, _, _, _, h, _, _ => h.elim
  | _ :: _, [], _, _, _, _, h, _, _ => h.elim
  | k :: ks, c :: cs, lo, hi, 0, c', h, _, hP => by
    have hk : bndHi hi (k :: ks) 0 = some k := by simp [bndHi]
    rw [hk] at hP
    exact ⟨by simpa [bndLo] using hP, h.2⟩
  | k :: ks, c :: cs, lo, hi, j + 1, c', h, hj, hP => by
    rw [bndLo_cons, bndHi_cons] at hP
    exact ⟨h.1, wfSeq_set h.2 (by simpa using hj) hP⟩

theorem wfSeq_split_insert {P : Option Nat → Option Nat → BNode → Prop} :
    ∀ {ks : List Nat} {cs : List BNode} {lo hi : Option Nat} {j : Nat}
      {left right : BNode} {pk : Nat},
      wfSeq P lo hi ks cs → j < cs.length →
        P (bndLo lo ks j) (some pk) left →
        P (some pk) (bndHi hi ks j) right →
        wfSeq P lo hi (ks.insertIdx j pk) ((cs.set j left).insertIdx (j + 1) right)
  | [], [c], lo, hi, 0, left, right, pk, h, _, hL, hR => by
    simp only [List.insertIdx, List.set]
    exact ⟨by simpa [bndLo] using hL, by simpa [wfSeq, bndHi] using hR⟩
  | [], [c], _, _, j + 1, _, _, _, h, hj, _, _ => by simp at hj
  | [], [], _, _, _, _, _, _, h, _, _, _ => h.elim
  | [], _ :: _ :: _, _, _, _, _, _, _, h, _, _, _ => h.elim
  | _ :: _, [], _, _, _, _, _, _, h, _, _, _ => h.elim
  | k :: ks, c :: cs, lo, hi, 0, left, right, pk, h, _, hL, hR => by
    have hk : bndHi hi (k :: ks) 0 = some k := by simp [bndHi]
    rw [hk] at hR
    simp only [List.insertIdx, List.set]
    exact ⟨by simpa [bndLo] using hL, hR, h.2⟩
  | k :: ks, c :: cs, lo, hi, j + 1, left, right, pk, h, hj, hL, hR => by
    rw [bndLo_cons] at hL
    rw [bndHi_cons] at hR
    simp only [List.insertIdx, List.set]
    exact ⟨h.1, wfSeq_split_insert h.2 (by simpa using hj) hL hR⟩

theorem wfSeq_take {P : Option Nat → Option Nat → BNode → Prop} :
    ∀ {ks : List Nat} {cs : List BNode} {lo hi : Option Nat} (m : Nat),
      wfSeq P lo hi ks cs → m < ks.length →
        wfSeq P lo (some (ks.getD m 0)) (ks.take m) (cs.take (m + 1))
  | [], _, _, _, _, _, hm => by simp at hm
  | k :: ks, [], _, _, _, h, _ => h.elim
  | k :: ks, c :: cs, lo, hi, 0, h, _ => by
    simpa [wfSeq] using h.1
  | k :: ks, c :: cs, lo, hi, m + 1, h, hm => by
    simp only [List.take, List.getD_cons_succ]
    exact ⟨h.1, wfSeq_take m h.2 (by simpa using hm)⟩

theorem wfSeq_drop {P : Option Nat → Option Nat → BNode → Prop} :
    ∀ {ks : List Nat} {cs : List BNode} {lo hi : Option Nat} (m : Nat),
      wfSeq P lo hi ks cs → m < ks.length →
        wfSeq P (some (ks.getD m 0)) hi (ks.drop (m + 1)) (cs.drop (m + 1))
  | [], _, _, _, _, _, hm => by simp at hm
  | k :: ks, [], _, _, _, h, _ => h.elim
  | k :: ks, c :: cs, lo, hi, 0, h, _ => by
    simpa using h.2
  | k :: ks, c :: cs, lo, hi, m + 1, h, hm => by
    simp only [List.drop, List.getD_cons_succ]
    exact wfSeq_drop m h.2 (by simpa using hm)

end Inno

namespace Inno

theorem insertIdx_take_drop {α : Type} (a : α) :
    ∀ (l : List α) (i : Nat), i ≤ l.length →
      l.insertIdx i a = l.take i ++ a :: l.drop i
  | _, 0, _ => by simp [List.insertIdx_zero]
  | [], i + 1, h => by simp at h
  | x :: l, i + 1, h => by
    rw [List.insertIdx_succ_cons]
    simp only [List.take_succ_cons, List.drop_succ_cons, List.cons_append, List.cons.injEq,
      true_and]
    exact insertIdx_take_drop a l i (by simpa using h)

theorem flatten_set_insert {α : Type} (f : BNode → List α) :
    ∀ (cs : List BNode) (j : Nat) (left right : BNode), j < cs.length →
      f left ++ f right = f (cs.getD j (.leaf [] [])) →
      ((((cs.set j left).insertIdx (j + 1) right)).map f).flatten = (cs.map f).flatten
  | [], j, _, _, hj, _ => by simp at hj
  | c :: cs, 0, left, right, _, hf => by
    simp only [List.set, List.insertIdx_succ_cons, List.insertIdx_zero, List.map_cons,
      List.flatten_cons, List.getD_cons_zero] at *
    rw [← List.append_assoc, hf]
  | c :: cs, j + 1, left, right, hj, hf => by
    simp only [List.set, List.insertIdx_succ_cons, List.map_cons, List.flatten_cons,
      List.getD_cons_succ] at *
    rw [flatten_set_insert f cs j left right (by simpa using hj) hf]

theorem flatten_set_insert_sub {α : Type} (f : BNode → List α) :
    ∀ (cs : List BNode) (j : Nat) (left right : BNode), j < cs.length →
      (∀ p ∈ f left, p ∈ f (cs.getD j (.leaf [] []))) →
      (∀ p ∈ f right, p ∈ f (cs.getD j (.leaf [] []))) →
      ∀ p ∈ ((((cs.set j left).insertIdx (j + 1) right)).map f).flatten,
        p ∈ (cs.map f).flatten
  | [], j, _, _, hj, _, _ => by simp at hj
  | c :: cs, 0, left, right, _, hL, hR => by
    intro p hp
    simp only [List.set, List.insertIdx_succ_cons, List.insertIdx_zero, List.map_cons,
      List.flatten_cons, List.mem_append, List.getD_cons_zero] at *
    rcases hp with hp | hp | hp
    · exact Or.inl (hL p hp)
    · exact Or.inl (hR p hp)
    · exact Or.inr hp
  | c :: cs, j + 1, left, right, hj, hL, hR => by
    intro p hp
    simp only [List.set, List.insertIdx_succ_cons, List.map_cons, List.flatten_cons,
      List.mem_append, List.getD_cons_succ] at *
    rcases hp with hp | hp
    · exact Or.inl hp
    · exact Or.inr (flatten_set_insert_sub f cs j left right (by simpa using hj) hL hR p hp)

end Inno

namespace Inno

theorem wfAux_leafKeys_ne_nil (t : Nat) (ht : 2 ≤ t) :
    ∀ (d : Nat) (n : BNode) (lo hi : Option Nat), wfAux t d lo hi n → n.leafKeys ≠ []
  | 0, .leaf ks vs, _, _, h => by
    rw [BNode.leafKeys]
    have := h.2.2.1
    intro hc
    rw [hc] at this
    simp at this
    omega
  | 0, .node _ _ _, _, _, h => h.elim
  | _ + 1, .leaf _ _, _, _, h => h.elim
  | d + 1, .node ks vs cs, lo, hi, h => by
    rw [leafKeys_node]
    obtain ⟨_, _, _, _, _, _, _, hseq⟩ := h
    cases ks with
    | nil =>
      cases cs with
      | nil => exact hseq.elim
      | cons c cs' =>
        cases cs' with
        | nil =>
          have h1 := wfAux_leafKeys_ne_nil t ht d c lo hi hseq
          simp only [List.map_cons, List.map_nil, List.flatten_cons, List.flatten_nil,
            List.append_nil]
          exact h1
        | cons _ _ => exact hseq.elim
    | cons k ks' =>
      cases cs with
      | nil => exact hseq.elim
      | cons c cs' =>
        have h1 := wfAux_leafKeys_ne_nil t ht d c lo (some k) hseq.1
        simp only [List.map_cons, List.flatten_cons]
        intro hc
        rw [List.append_eq_nil] at hc
        exact h1 hc.1

theorem mem_take_lt_of_sorted {pkeys : List Nat} {i pk : Nat}
    (hasc : pkeys.Pairwise (· < ·)) (hile : i ≤ pkeys.length)
    (hstrict : ∀ i', i = i' + 1 → pkeys.getD i' 0 < pk) :
    ∀ x ∈ pkeys.take i, x < pk := by
  intro x hx
  obtain ⟨j, hj, hje⟩ := List.mem_iff_getElem.mp hx
  rw [List.length_take] at hj
  have hji : j < i := lt_of_lt_of_le hj (min_le_left _ _)
  have hjlen : j < pkeys.length := lt_of_lt_of_le hj (min_le_right _ _)
  rw [List.getElem_take] at hje
  obtain ⟨i', rfl⟩ : ∃ i', i = i' + 1 := ⟨i - 1, by omega⟩
  have hi'len : i' < pkeys.length := by omega
  have hlast := hstrict i' rfl
  rw [List.getD_eq_getElem _ _ hi'len] at hlast
  by_cases hji' : j < i'
  · have := List.pairwise_iff_getElem.mp hasc j i' hjlen hi'len hji'
    omega
  · have : j = i' := by omega
    subst this
    omega

theorem mem_drop_gt_of_sorted {pkeys : List Nat} {i pk : Nat}
    (hasc : pkeys.Pairwise (· < ·))
    (hstrict : i < pkeys.length → pk < pkeys.getD i 0) :
    ∀ x ∈ pkeys.drop i, pk < x := by
  intro x hx
  obtain ⟨j, hj, hje⟩ := List.mem_iff_getElem.mp hx
  rw [List.length_drop] at hj
  have hilen : i < pkeys.length := by omega
  have hjlen : i + j < pkeys.length := by omega
  rw [List.getElem_drop] at hje
  have h1 := hstrict hilen
  rw [List.getD_eq_getElem _ _ hilen] at h1
  by_cases hj0 : j = 0
  · subst hj0
    simp at hje
    omega
  · have := List.pairwise_iff_getElem.mp hasc i (i + j) hilen hjlen (by omega)
    omega

end Inno

namespace Inno

theorem split_parent_side (t : Nat) (ht : 2 ≤ t) (d : Nat)
    (pkeys pvalues : List Nat) (pchildren : List BNode) (lo hi : Option Nat) (i : Nat)
    (pk pv : Nat) (left right : BNode)
    (hseq : wfSeq (wfAux t d) lo hi pkeys pchildren)
    (hasc : pkeys.Pairwise (· < ·))
    (hbk : ∀ x ∈ pkeys, inLo lo x ∧ inHi hi x)
    (hroute : ∀ x ∈ pkeys, x ∈ (pchildren.map BNode.leafKeys).flatten)
    (hvlen : pvalues.length = pkeys.length)
    (hclen : pchildren.length = pkeys.length + 1)
    (hilt : i < pchildren.length)
    (hLwf : wfAux t d (bndLo lo pkeys i) (some pk) left)
    (hRwf : wfAux t d (some pk) (bndHi hi pkeys i) right)
    (hpkR : pk ∈ right.leafKeys)
    (hflat : BNode.leafKeys left ++ BNode.leafKeys right
        = BNode.leafKeys (pchildren.getD i (.leaf [] [])))
    (hpairsL : ∀ p ∈ left.pairsOf, p ∈ (pchildren.getD i (.leaf [] [])).pairsOf)
    (hpairsR : ∀ p ∈ right.pairsOf, p ∈ (pchildren.getD i (.leaf [] [])).pairsOf)
    (hpvpair : (pk, pv) ∈ (pchildren.getD i (.leaf [] [])).pairsOf) :
    wfSeq (wfAux t d) lo hi (pkeys.insertIdx i pk)
        ((pchildren.set i left).insertIdx (i + 1) right)
    ∧ (pkeys.insertIdx i pk).Pairwise (· < ·)
    ∧ (∀ x ∈ pkeys.insertIdx i pk, inLo lo x ∧ inHi hi x)
    ∧ ((((pchildren.set i left).insertIdx (i + 1) right)).map BNode.leafKeys).flatten
        = (pchildren.map BNode.leafKeys).flatten
    ∧ (∀ x ∈ pkeys.insertIdx i pk,
        x ∈ ((((pchildren.set i left).insertIdx (i + 1) right)).map BNode.leafKeys).flatten)
    ∧ (∀ p ∈ BNode.pairsOf (.node (pkeys.insertIdx i pk) (pvalues.insertIdx i pv)
          ((pchildren.set i left).insertIdx (i + 1) right)),
        p ∈ BNode.pairsOf (.node pkeys pvalues pchildren))
    ∧ ((pchildren.set i left).insertIdx (i + 1) right).getD i (.leaf [] []) = left
    ∧ ((pchildren.set i left).insertIdx (i + 1) right).getD (i + 1) (.leaf [] []) = right
    ∧ (pkeys.insertIdx i pk).getD i 0 = pk
    ∧ (pkeys.insertIdx i pk).length = pkeys.length + 1
    ∧ (pvalues.insertIdx i pv).length = pvalues.length + 1
    ∧ ((pchildren.set i left).insertIdx (i + 1) right).length = pchildren.length + 1 := by
  have hile : i ≤ pkeys.length := by omega
  have hilev : i ≤ pvalues.length := by omega
  have hchild_mem : pchildren.getD i (.leaf [] []) ∈ pchildren := by
    rw [List.getD_eq_getElem _ _ hilt]
    exact List.getElem_mem hilt
  have hpkhi : inHi (bndHi hi pkeys i) pk :=
    (wfAux_leafKeys_bound t d right _ _ hRwf pk hpkR).2
  have hLne : left.leafKeys ≠ [] := wfAux_leafKeys_ne_nil t ht d left _ _ hLwf
  obtain ⟨y, hy⟩ := List.exists_mem_of_ne_nil _ hLne
  have hybnd := wfAux_leafKeys_bound t d left _ _ hLwf y hy
  have hylt : y < pk := by simpa [inHi] using hybnd.2
  have hstrictLo : ∀ i', i = i' + 1 → pkeys.getD i' 0 < pk := by
    intro i' he
    subst he
    have h1 : pkeys.getD i' 0 ≤ y := by simpa [bndLo, inLo] using hybnd.1
    omega
  have hstrictHi : i < pkeys.length → pk < pkeys.getD i 0 := by
    intro hilt2
    have : bndHi hi pkeys i = some (pkeys.getD i 0) := by simp [bndHi, hilt2]
    rw [this] at hpkhi
    simpa [inHi] using hpkhi
  have htake := mem_take_lt_of_sorted hasc hile hstrictLo
  have hdrop := mem_drop_gt_of_sorted hasc hstrictHi
  have hpklo2 : inLo lo pk := by
    have h1 : inLo (bndLo lo pkeys i) y := hybnd.1
    cases i with
    | zero => exact inLo_trans (by simpa [bndLo] using h1) (le_of_lt hylt)
    | succ i' =>
      have h2 : pkeys.getD i' 0 < pk := hstrictLo i' rfl
      have h3 : pkeys.getD i' 0 ∈ pkeys := by
        have hi'len : i' < pkeys.length := by omega
        rw [List.getD_eq_getElem _ _ hi'len]
        exact List.getElem_mem hi'len
      exact inLo_trans (hbk _ h3).1 (le_of_lt h2)
  have hpkhi2 : inHi hi pk := by
    by_cases hilt2 : i < pkeys.length
    · have h2 : pk < pkeys.getD i 0 := hstrictHi hilt2
      have h3 : pkeys.getD i 0 ∈ pkeys := by
        rw [List.getD_eq_getElem _ _ hilt2]
        exact List.getElem_mem hilt2
      exact inHi_trans h2 (hbk _ h3).2
    · have : bndHi hi pkeys i = hi := by simp [bndHi, hilt2]
      rw [this] at hpkhi
      exact hpkhi
  have hins := insertIdx_take_drop pk pkeys i hile
  have hinsv := insertIdx_take_drop pv pvalues i hilev
  have hcross : ∀ x ∈ pkeys.take i, ∀ b ∈ pkeys.drop i, x < b := by
    have h1 : (pkeys.take i ++ pkeys.drop i).Pairwise (· < ·) := by
      rw [List.take_append_drop]
      exact hasc
    exact (List.pairwise_append.mp h1).2.2
  have hflatEq := flatten_set_insert BNode.leafKeys pchildren i left right hilt hflat
  have hpkc : pk ∈ BNode.leafKeys (pchildren.getD i (.leaf [] [])) := by
    rw [← hflat, List.mem_append]
    exact Or.inr hpkR
  have hsetlen : (pchildren.set i left).length = pchildren.length := List.length_set _ _ _
  have hcs'len : ((pchildren.set i left).insertIdx (i + 1) right).length
      = pchildren.length + 1 := by
    rw [List.length_insertIdx _ _ (by omega), hsetlen]
  refine ⟨?_, ?_, ?_, hflatEq, ?_, ?_, ?_, ?_, ?_, ?_, ?_, hcs'len⟩
  · exact wfSeq_split_insert hseq hilt hLwf hRwf
  · rw [hins, List.pairwise_append]
    refine ⟨hasc.sublist (List.take_sublist _ _), ?_, ?_⟩
    · rw [List.pairwise_cons]
      exact ⟨hdrop, hasc.sublist (List.drop_sublist _ _)⟩
    · intro a ha b hb
      rcases List.mem_cons.mp hb with rfl | hb'
      · exact htake a ha
      · exact hcross a ha b hb'
  · intro x hx
    rw [hins, List.mem_append, List.mem_cons] at hx
    rcases hx with hx | hx | hx
    · exact hbk x ((List.take_sublist _ _).mem hx)
    · exact hx ▸ ⟨hpklo2, hpkhi2⟩
    · exact hbk x ((List.drop_sublist _ _).mem hx)
  · intro x hx
    rw [hflatEq]
    rw [hins, List.mem_append, List.mem_cons] at hx
    rcases hx with hx | hx | hx
    · exact hroute x ((List.take_sublist _ _).mem hx)
    · subst hx
      exact List.mem_flatten.mpr ⟨_, List.mem_map_of_mem _ hchild_mem, hpkc⟩
    · exact hroute x ((List.drop_sublist _ _).mem hx)
  · intro p hp
    rw [pairsOf_node, List.mem_append] at hp
    rw [pairsOf_node, List.mem_append]
    have hpc : ∀ q ∈ (pchildren.getD i (.leaf [] [])).pairsOf,
        q ∈ (pchildren.map BNode.pairsOf).flatten := by
      intro q hq
      exact List.mem_flatten.mpr ⟨_, List.mem_map_of_mem _ hchild_mem, hq⟩
    rcases hp with hp | hp
    · -- new parent zip
      have hlent : (pkeys.take i).length = (pvalues.take i).length := by
        simp only [List.length_take]
        omega
      rw [hins, hinsv, List.zip_append hlent] at hp
      have hzipold : pkeys.zip pvalues
          = (pkeys.take i).zip (pvalues.take i) ++ (pkeys.drop i).zip (pvalues.drop i) := by
        conv_lhs => rw [← List.take_append_drop i pkeys, ← List.take_append_drop i pvalues]
        rw [List.zip_append hlent]
      rw [List.mem_append] at hp
      rcases hp with hp | hp
      · exact Or.inl (by rw [hzipold, List.mem_append]; exact Or.inl hp)
      · rcases List.mem_cons.mp hp with rfl | hp'
        · exact Or.inr (hpc _ hpvpair)
        · exact Or.inl (by rw [hzipold, List.mem_append]; exact Or.inr hp')
    · exact Or.inr (flatten_set_insert_sub BNode.pairsOf pchildren i left right hilt
        hpairsL hpairsR p hp)
  · rw [List.getD_eq_getElem _ _ (by omega : i < ((pchildren.set i left).insertIdx (i + 1) right).length)]
    rw [List.getElem_insertIdx_of_lt _ _ _ _ (by omega) (by omega)]
    exact List.getElem_set_self _
  · rw [List.getD_eq_getElem _ _ (by omega : i + 1 < ((pchildren.set i left).insertIdx (i + 1) right).length)]
    rw [List.getElem_insertIdx_self _ _ _ (by omega)]
  · rw [List.getD_eq_getElem _ _ (by rw [List.length_insertIdx _ _ hile]; omega)]
    rw [List.getElem_insertIdx_self _ _ _ hile]
  · exact List.length_insertIdx _ _ hile
  · exact List.length_insertIdx _ _ hilev

end Inno

namespace Inno

/-- The facts established about a `split_child` call on child i of an
internal node whose pieces satisfy the wfSeq discipline. -/
structure SplitFacts (t d : Nat) (pkeys pvalues : List Nat) (pchildren : List BNode)
    (lo hi : Option Nat) (i : Nat) (pk pv : Nat) (left right : BNode) : Prop where
  eq : splitChild t (.node pkeys pvalues pchildren) i
    = .node (pkeys.insertIdx i pk) (pvalues.insertIdx i pv)
        ((pchildren.set i left).insertIdx (i + 1) right)
  seq : wfSeq (wfAux t d) lo hi (pkeys.insertIdx i pk)
    ((pchildren.set i left).insertIdx (i + 1) right)
  asc : (pkeys.insertIdx i pk).Pairwise (· < ·)
  bk : ∀ x ∈ pkeys.insertIdx i pk, inLo lo x ∧ inHi hi x
  flat : ((((pchildren.set i left).insertIdx (i + 1) right)).map BNode.leafKeys).flatten
    = (pchildren.map BNode.leafKeys).flatten
  rout : ∀ x ∈ pkeys.insertIdx i pk,
    x ∈ ((((pchildren.set i left).insertIdx (i + 1) right)).map BNode.leafKeys).flatten
  pairs : ∀ p ∈ BNode.pairsOf (.node (pkeys.insertIdx i pk) (pvalues.insertIdx i pv)
      ((pchildren.set i left).insertIdx (i + 1) right)),
    p ∈ BNode.pairsOf (.node pkeys pvalues pchildren)
  getL : ((pchildren.set i left).insertIdx (i + 1) right).getD i (.leaf [] []) = left
  getR : ((pchildren.set i left).insertIdx (i + 1) right).getD (i + 1) (.leaf [] []) = right
  getK : (pkeys.insertIdx i pk).getD i 0 = pk
  klen : (pkeys.insertIdx i pk).length = pkeys.length + 1
  vlen2 : (pvalues.insertIdx i pv).length = pvalues.length + 1
  clen2 : ((pchildren.set i left).insertIdx (i + 1) right).length = pchildren.length + 1
  lnf : left.is_full t = false
  rnf : right.is_full t = false
  lwf : wfAux t d (bndLo lo pkeys i) (some pk) left
  rwf : wfAux t d (some pk) (bndHi hi pkeys i) right

theorem mem_flatten_sub {α : Type} {A B : List (List α)} (h : A.Sublist B) :
    ∀ p ∈ A.flatten, p ∈ B.flatten := by
  intro p hp
  obtain ⟨l, hl, hpl⟩ := List.mem_flatten.mp hp
  exact List.mem_flatten.mpr ⟨l, h.mem hl, hpl⟩

theorem splitChild_step (t : Nat) (ht : 2 ≤ t) (d : Nat)
    (pkeys pvalues : List Nat) (pchildren : List BNode) (lo hi : Option Nat) (i : Nat)
    (hseq : wfSeq (wfAux t d) lo hi pkeys pchildren)
    (hasc : pkeys.Pairwise (· < ·))
    (hbk : ∀ x ∈ pkeys, inLo lo x ∧ inHi hi x)
    (hroute : ∀ x ∈ pkeys, x ∈ (pchildren.map BNode.leafKeys).flatten)
    (hvlen : pvalues.length = pkeys.length)
    (hclen : pchildren.length = pkeys.length + 1)
    (hilt : i < pchildren.length)
    (hfull : (pchildren.getD i (.leaf [] [])).is_full t = true) :
    ∃ pk pv left right, SplitFacts t d pkeys pvalues pchildren lo hi i pk pv left right := by
  have hile : i ≤ pkeys.length := by omega
  have hcwf := wfSeq_getD hseq i hilt
  cases hcd : pchildren.getD i (.leaf [] []) with
  | leaf ckeys cvalues =>
    rw [hcd] at hcwf hfull
    cases d with
    | succ d' => exact hcwf.elim
    | zero =>
    obtain ⟨hasc_c, hvlen_c, _, _, hbnd_c⟩ := hcwf
    rw [BNode.is_full, beq_iff_eq] at hfull
    have hpc : (· < ·) = fun a b : Nat => a < b := rfl
    have hcp : ckeys.Pairwise (· < ·) := (ascChain_iff_pairwise ckeys).mp hasc_c
    have hm1 : t - 1 < ckeys.length := by omega
    set pk := ckeys.getD (t - 1) 0 with hpk
    set pv := cvalues.getD (t - 1) 0 with hpv
    set left := BNode.leaf (ckeys.take (t - 1)) (cvalues.take (t - 1)) with hleft
    set right := BNode.leaf (ckeys.drop (t - 1)) (cvalues.drop (t - 1)) with hright
    have heq : splitChild t (.node pkeys pvalues pchildren) i
        = .node (pkeys.insertIdx i pk) (pvalues.insertIdx i pv)
            ((pchildren.set i left).insertIdx (i + 1) right) := by
      simp only [splitChild]
      rw [hcd]
    have hpk_elem : ∀ j, j < ckeys.length → t - 1 < j → pk < ckeys.getD j 0 := by
      intro j hj htj
      rw [hpk, List.getD_eq_getElem _ _ hm1, List.getD_eq_getElem _ _ hj]
      exact List.pairwise_iff_getElem.mp hcp (t - 1) j hm1 hj htj
    have hpk_elem_lt : ∀ j, j < t - 1 → ckeys.getD j 0 < pk := by
      intro j hj
      rw [hpk, List.getD_eq_getElem _ _ hm1, List.getD_eq_getElem _ _ (by omega)]
      exact List.pairwise_iff_getElem.mp hcp j (t - 1) (by omega) hm1 hj
    have htake_lt : ∀ x ∈ ckeys.take (t - 1), x < pk := by
      intro x hx
      obtain ⟨j, hj, hje⟩ := List.mem_iff_getElem.mp hx
      rw [List.length_take] at hj
      rw [List.getElem_take] at hje
      have := hpk_elem_lt j (by omega)
      rw [List.getD_eq_getElem _ _ (by omega)] at this
      omega
    have hdrop_ge : ∀ x ∈ ckeys.drop (t - 1), pk ≤ x := by
      intro x hx
      obtain ⟨j, hj, hje⟩ := List.mem_iff_getElem.mp hx
      rw [List.length_drop] at hj
      rw [List.getElem_drop] at hje
      by_cases hj0 : j = 0
      · subst hj0
        rw [hpk, List.getD_eq_getElem _ _ hm1]
        simp at hje
        omega
      · have := hpk_elem (t - 1 + j) (by omega) (by omega)
        rw [List.getD_eq_getElem _ _ (by omega)] at this
        omega
    have hLwf : wfAux t 0 (bndLo lo pkeys i) (some pk) left := by
      rw [hleft]
      refine ⟨?_, ?_, ?_, ?_, ?_⟩
      · exact (ascChain_iff_pairwise _).mpr (hcp.sublist (List.take_sublist _ _))
      · simp only [List.length_take]; omega
      · simp only [List.length_take]; omega
      · simp only [List.length_take]; omega
      · intro x hx
        refine ⟨(hbnd_c x ((List.take_sublist _ _).mem hx)).1, ?_⟩
        simpa [inHi] using htake_lt x hx
    have hRwf : wfAux t 0 (some pk) (bndHi hi pkeys i) right := by
      rw [hright]
      refine ⟨?_, ?_, ?_, ?_, ?_⟩
      · exact (ascChain_iff_pairwise _).mpr (hcp.sublist (List.drop_sublist _ _))
      · simp only [List.length_drop]; omega
      · simp only [List.length_drop]; omega
      · simp only [List.length_drop]; omega
      · intro x hx
        refine ⟨by simpa [inLo] using hdrop_ge x hx,
          (hbnd_c x ((List.drop_sublist _ _).mem hx)).2⟩
    have hpkR : pk ∈ right.leafKeys := by
      rw [hright, BNode.leafKeys]
      rw [List.mem_iff_getElem]
      refine ⟨0, by rw [List.length_drop]; omega, ?_⟩
      rw [List.getElem_drop]
      rw [hpk, List.getD_eq_getElem _ _ hm1]
      simp
    have hflat : BNode.leafKeys left ++ BNode.leafKeys right
        = BNode.leafKeys (pchildren.getD i (.leaf [] [])) := by
      rw [hcd, hleft, hright, BNode.leafKeys, BNode.leafKeys, BNode.leafKeys]
      exact List.take_append_drop _ _
    have hzipsplit : ckeys.zip cvalues
        = (ckeys.take (t - 1)).zip (cvalues.take (t - 1))
          ++ (ckeys.drop (t - 1)).zip (cvalues.drop (t - 1)) := by
      have hlent : (ckeys.take (t - 1)).length = (cvalues.take (t - 1)).length := by
        simp only [List.length_take]
        omega
      conv_lhs => rw [← List.take_append_drop (t - 1) ckeys,
        ← List.take_append_drop (t - 1) cvalues]
      rw [List.zip_append hlent]
    have hpairsL : ∀ p ∈ left.pairsOf, p ∈ (pchildren.getD i (.leaf [] [])).pairsOf := by
      intro p hp
      rw [hcd, BNode.pairsOf, hzipsplit, List.mem_append]
      rw [hleft, BNode.pairsOf] at hp
      exact Or.inl hp
    have hpairsR : ∀ p ∈ right.pairsOf, p ∈ (pchildren.getD i (.leaf [] [])).pairsOf := by
      intro p hp
      rw [hcd, BNode.pairsOf, hzipsplit, List.mem_append]
      rw [hright, BNode.pairsOf] at hp
      exact Or.inr hp
    have hpvpair : (pk, pv) ∈ (pchildren.getD i (.leaf [] [])).pairsOf := by
      rw [hcd, BNode.pairsOf]
      exact mem_zip_getD _ hvlen_c hm1 rfl rfl
    obtain ⟨hseq', hasc', hbk', hflatEq, hrout', hpairs', hgetL, hgetR, hgetK, hklen,
      hvlen2, hclen2⟩ := split_parent_side t ht 0 pkeys pvalues pchildren lo hi i pk pv
      left right hseq hasc hbk hroute hvlen hclen hilt hLwf hRwf hpkR hflat hpairsL
      hpairsR hpvpair
    refine ⟨pk, pv, left, right,
      ⟨heq, hseq', hasc', hbk', hflatEq, hrout', hpairs', hgetL, hgetR, hgetK, hklen,
        hvlen2, hclen2, ?_, ?_, hLwf, hRwf⟩⟩
    · rw [hleft, BNode.is_full, beq_eq_false_iff_ne]
      simp only [List.length_take]
      omega
    · rw [hright, BNode.is_full, beq_eq_false_iff_ne]
      simp only [List.length_drop]
      omega
  | node ckeys cvalues cchildren =>
    rw [hcd] at hcwf hfull
    cases d with
    | zero => exact hcwf.elim
    | succ d' =>
    obtain ⟨hasc_c, hvlen_c, hclen_c, _, _, hbnd_c, hrout_c, hseq_c⟩ := hcwf
    rw [BNode.is_full, beq_iff_eq] at hfull
    have hcp : ckeys.Pairwise (· < ·) := (ascChain_iff_pairwise ckeys).mp hasc_c
    have hm1 : t - 1 < ckeys.length := by omega
    set pk := ckeys.getD (t - 1) 0 with hpk
    set pv := cvalues.getD (t - 1) 0 with hpv
    set left := BNode.node (ckeys.take (t - 1)) (cvalues.take (t - 1))
      (cchildren.take t) with hleft
    set right := BNode.node (ckeys.drop t) (cvalues.drop t) (cchildren.drop t) with hright
    have heq : splitChild t (.node pkeys pvalues pchildren) i
        = .node (pkeys.insertIdx i pk) (pvalues.insertIdx i pv)
            ((pchildren.set i left).insertIdx (i + 1) right) := by
      simp only [splitChild]
      rw [hcd]
      have h1 : t - 1 + 1 = t := by omega
      rw [hleft, hright, h1]
    have hpk_elem_lt : ∀ j, j < t - 1 → ckeys.getD j 0 < pk := by
      intro j hj
      rw [hpk, List.getD_eq_getElem _ _ hm1, List.getD_eq_getElem _ _ (by omega)]
      exact List.pairwise_iff_getElem.mp hcp j (t - 1) (by omega) hm1 hj
    have hpk_elem_gt : ∀ j, t - 1 < j → j < ckeys.length → pk < ckeys.getD j 0 := by
      intro j htj hj
      rw [hpk, List.getD_eq_getElem _ _ hm1, List.getD_eq_getElem _ _ hj]
      exact List.pairwise_iff_getElem.mp hcp (t - 1) j hm1 hj htj
    have htake_lt : ∀ x ∈ ckeys.take (t - 1), x < pk := by
      intro x hx
      obtain ⟨j, hj, hje⟩ := List.mem_iff_getElem.mp hx
      rw [List.length_take] at hj
      rw [List.getElem_take] at hje
      have := hpk_elem_lt j (by omega)
      rw [List.getD_eq_getElem _ _ (by omega)] at this
      omega
    have hdrop_gt : ∀ x ∈ ckeys.drop t, pk < x := by
      intro x hx
      obtain ⟨j, hj, hje⟩ := List.mem_iff_getElem.mp hx
      rw [List.length_drop] at hj
      rw [List.getElem_drop] at hje
      have := hpk_elem_gt (t + j) (by omega) (by omega)
      rw [List.getD_eq_getElem _ _ (by omega)] at this
      omega
    have hTT : t - 1 + 1 = t := by omega
    have hseqL : wfSeq (wfAux t d') (bndLo lo pkeys i) (some pk) (ckeys.take (t - 1))
        (cchildren.take t) := by
      have := wfSeq_take (t - 1) hseq_c hm1
      rw [hTT] at this
      exact this
    have hseqR : wfSeq (wfAux t d') (some pk) (bndHi hi pkeys i) (ckeys.drop t)
        (cchildren.drop t) := by
      have := wfSeq_drop (t - 1) hseq_c hm1
      rw [hTT] at this
      exact this
    have hflatC : BNode.leafKeys left ++ BNode.leafKeys right
        = BNode.leafKeys (pchildren.getD i (.leaf [] [])) := by
      rw [hcd, hleft, hright, leafKeys_node, leafKeys_node, leafKeys_node]
      rw [← List.flatten_append, ← List.map_append]
      have h2 : cchildren.take t ++ cchildren.drop t = cchildren := List.take_append_drop _ _
      rw [h2]
    -- bounds on left leaves: below pk
    have hLwf : wfAux t (d' + 1) (bndLo lo pkeys i) (some pk) left := by
      rw [hleft]
      refine ⟨?_, ?_, ?_, ?_, ?_, ?_, ?_, hseqL⟩
      · exact (ascChain_iff_pairwise _).mpr (hcp.sublist (List.take_sublist _ _))
      · simp only [List.length_take]; omega
      · simp only [List.length_take]; omega
      · simp only [List.length_take]; omega
      · simp only [List.length_take]; omega
      · intro x hx
        refine ⟨(hbnd_c x ((List.take_sublist _ _).mem hx)).1, ?_⟩
        simpa [inHi] using htake_lt x hx
      · -- routing keys of left appear among left leaves
        intro x hx
        have hxc : x ∈ BNode.leafKeys (.node ckeys cvalues cchildren) :=
          hrout_c x ((List.take_sublist _ _).mem hx)
        have hxlt : x < pk := htake_lt x hx
        have hsplit2 : BNode.leafKeys (.node ckeys cvalues cchildren)
            = BNode.leafKeys left ++ BNode.leafKeys right := by
          rw [← hcd]
          exact hflatC.symm
        rw [hsplit2, List.mem_append] at hxc
        rcases hxc with hxc | hxc
        · rw [hleft] at hxc
          exact hxc
        · exfalso
          -- right leaves are ≥ pk
          have hrb := wfSeq_leafKeys_bound t d' (wfAux_leafKeys_bound t d')
            (ckeys.drop t) (cchildren.drop t) (some pk) (bndHi hi pkeys i) hseqR
            (hcp.sublist (List.drop_sublist _ _)) ?_ x ?_
          · have : pk ≤ x := by simpa [inLo] using hrb.1
            omega
          · intro k' hk'
            exact ⟨by simpa [inLo] using le_of_lt (hdrop_gt k' hk'),
              (hbnd_c k' ((List.drop_sublist _ _).mem hk')).2⟩
          · rw [hright, leafKeys_node] at hxc
            exact hxc
    have hRwf : wfAux t (d' + 1) (some pk) (bndHi hi pkeys i) right := by
      rw [hright]
      refine ⟨?_, ?_, ?_, ?_, ?_, ?_, ?_, hseqR⟩
      · exact (ascChain_iff_pairwise _).mpr (hcp.sublist (List.drop_sublist _ _))
      · simp only [List.length_drop]; omega
      · simp only [List.length_drop]; omega
      · simp only [List.length_drop]; omega
      · simp only [List.length_drop]; omega
      · intro x hx
        refine ⟨by simpa [inLo] using le_of_lt (hdrop_gt x hx),
          (hbnd_c x ((List.drop_sublist _ _).mem hx)).2⟩
      · intro x hx
        have hxc : x ∈ BNode.leafKeys (.node ckeys cvalues cchildren) :=
          hrout_c x ((List.drop_sublist _ _).mem hx)
        have hxgt : pk < x := hdrop_gt x hx
        have hsplit2 : BNode.leafKeys (.node ckeys cvalues cchildren)
            = BNode.leafKeys left ++ BNode.leafKeys right := by
          rw [← hcd]
          exact hflatC.symm
        rw [hsplit2, List.mem_append] at hxc
        rcases hxc with hxc | hxc
        · exfalso
          have hlb := wfAux_leafKeys_bound t (d' + 1) _ _ _ hLwf x hxc
          have : x < pk := by simpa [inHi] using hlb.2
          omega
        · rw [hright] at hxc
          exact hxc
    have hpkR : pk ∈ right.leafKeys := by
      have hpkmem : pk ∈ ckeys := by
        rw [hpk, List.getD_eq_getElem _ _ hm1]
        exact List.getElem_mem hm1
      have hxc : pk ∈ BNode.leafKeys (.node ckeys cvalues cchildren) := hrout_c pk hpkmem
      have hsplit2 : BNode.leafKeys (.node ckeys cvalues cchildren)
          = BNode.leafKeys left ++ BNode.leafKeys right := by
        rw [← hcd]
        exact hflatC.symm
      rw [hsplit2, List.mem_append] at hxc
      rcases hxc with hxc | hxc
      · exfalso
        have hlb := wfAux_leafKeys_bound t (d' + 1) _ _ _ hLwf pk hxc
        have : pk < pk := by simpa [inHi] using hlb.2
        omega
      · exact hxc
    have hzipsplit : ckeys.zip cvalues
        = (ckeys.take (t - 1)).zip (cvalues.take (t - 1))
          ++ (ckeys.drop (t - 1)).zip (cvalues.drop (t - 1)) := by
      have hlent : (ckeys.take (t - 1)).length = (cvalues.take (t - 1)).length := by
        simp only [List.length_take]
        omega
      conv_lhs => rw [← List.take_append_drop (t - 1) ckeys,
        ← List.take_append_drop (t - 1) cvalues]
      rw [List.zip_append hlent]
    have hzipdropsub : ∀ p ∈ (ckeys.drop t).zip (cvalues.drop t),
        p ∈ (ckeys.drop (t - 1)).zip (cvalues.drop (t - 1)) := by
      intro p hp
      have h3 : ckeys.drop (t - 1) = ckeys.getD (t - 1) 0 :: ckeys.drop t := by
        rw [List.getD_eq_getElem _ _ hm1, List.drop_eq_getElem_cons hm1, hTT]
      have h4 : cvalues.drop (t - 1) = cvalues.getD (t - 1) 0 :: cvalues.drop t := by
        have hm1v : t - 1 < cvalues.length := by omega
        rw [List.getD_eq_getElem _ _ hm1v, List.drop_eq_getElem_cons hm1v, hTT]
      rw [h3, h4]
      simp only [List.zip_cons_cons, List.mem_cons]
      exact Or.inr hp
    have hpairsL : ∀ p ∈ left.pairsOf, p ∈ (pchildren.getD i (.leaf [] [])).pairsOf := by
      intro p hp
      rw [hcd, pairsOf_node, List.mem_append]
      rw [hleft, pairsOf_node, List.mem_append] at hp
      rcases hp with hp | hp
      · rw [hzipsplit]
        exact Or.inl (List.mem_append.mpr (Or.inl hp))
      · refine Or.inr (mem_flatten_sub ?_ p hp)
        exact (List.take_sublist _ _).map _
    have hpairsR : ∀ p ∈ right.pairsOf, p ∈ (pchildren.getD i (.leaf [] [])).pairsOf := by
      intro p hp
      rw [hcd, pairsOf_node, List.mem_append]
      rw [hright, pairsOf_node, List.mem_append] at hp
      rcases hp with hp | hp
      · rw [hzipsplit]
        exact Or.inl (List.mem_append.mpr (Or.inr (hzipdropsub p hp)))
      · refine Or.inr (mem_flatten_sub ?_ p hp)
        exact (List.drop_sublist _ _).map _
    have hpvpair : (pk, pv) ∈ (pchildren.getD i (.leaf [] [])).pairsOf := by
      rw [hcd, pairsOf_node, List.mem_append]
      exact Or.inl (mem_zip_getD _ hvlen_c hm1 rfl rfl)
    obtain ⟨hseq', hasc', hbk', hflatEq, hrout', hpairs', hgetL, hgetR, hgetK, hklen,
      hvlen2, hclen2⟩ := split_parent_side t ht (d' + 1) pkeys pvalues pchildren lo hi i
      pk pv left right hseq hasc hbk hroute hvlen hclen hilt hLwf hRwf hpkR hflatC
      hpairsL hpairsR hpvpair
    refine ⟨pk, pv, left, right,
      ⟨heq, hseq', hasc', hbk', hflatEq, hrout', hpairs', hgetL, hgetR, hgetK, hklen,
        hvlen2, hclen2, ?_, ?_, hLwf, hRwf⟩⟩
    · rw [hleft, BNode.is_full, beq_eq_false_iff_ne]
      simp only [List.length_take]
      omega
    · rw [hright, BNode.is_full, beq_eq_false_iff_ne]
      simp only [List.length_drop]
      omega


end Inno
namespace Inno

theorem insertIdxOf_le (k : Nat) (ks : List Nat) : insertIdxOf k ks ≤ ks.length := by
  rw [insertIdxOf]
  omega

theorem insertIdxOf_bndLo {k : Nat} {ks : List Nat} {lo : Option Nat}
    (hasc : ks.Pairwise (· < ·)) (hklo : inLo lo k) :
    inLo (bndLo lo ks (insertIdxOf k ks)) k := by
  cases hio : insertIdxOf k ks with
  | zero => simpa [bndLo] using hklo
  | succ j =>
    simp only [bndLo]
    have hm := @insertIdxOf_sorted k _ hasc
    have hle := insertIdxOf_le k ks
    have hjlen : j < ks.length := by omega
    have htk : ks.take (insertIdxOf k ks) = ks.takeWhile (fun x => x ≤ k) := by
      rw [hm]; exact take_takeWhile_length _ ks
    have hmem : ks.getD j 0 ∈ ks.take (insertIdxOf k ks) := by
      rw [List.getD_eq_getElem _ _ hjlen]
      rw [List.mem_iff_getElem]
      refine ⟨j, by rw [List.length_take]; omega, ?_⟩
      rw [List.getElem_take]
    rw [htk] at hmem
    have := List.mem_takeWhile_imp hmem
    simp only [decide_eq_true_eq] at this
    simpa [inLo] using this

theorem insertIdxOf_bndHi {k : Nat} {ks : List Nat} {hi : Option Nat}
    (hasc : ks.Pairwise (· < ·)) (hkhi : inHi hi k) :
    inHi (bndHi hi ks (insertIdxOf k ks)) k := by
  rw [bndHi]
  by_cases hlt : insertIdxOf k ks < ks.length
  · rw [if_pos hlt]
    have hm := @insertIdxOf_sorted k _ hasc
    have hdk : ks.drop (insertIdxOf k ks) = ks.dropWhile (fun x => x ≤ k) := by
      rw [hm]; exact drop_takeWhile_length _ ks
    have hmem : ks.getD (insertIdxOf k ks) 0 ∈ ks.drop (insertIdxOf k ks) := by
      rw [List.getD_eq_getElem _ _ hlt]
      rw [List.mem_iff_getElem]
      refine ⟨0, by rw [List.length_drop]; omega, ?_⟩
      rw [List.getElem_drop]
      simp
    rw [hdk] at hmem
    have := dropWhile_le_gt hasc _ hmem
    simpa [inHi] using this
  · rw [if_neg hlt]
    exact hkhi

theorem getD_mem_flatten {α : Type} (f : BNode → List α) {cs : List BNode} {i : Nat}
    (hilt : i < cs.length) (dflt : BNode) {x : α} (hx : x ∈ f (cs.getD i dflt)) :
    x ∈ (cs.map f).flatten := by
  refine List.mem_flatten.mpr ⟨f (cs.getD i dflt), ?_, hx⟩
  refine List.mem_map_of_mem f ?_
  rw [List.getD_eq_getElem _ _ hilt]
  exact List.getElem_mem hilt

theorem flatten_map_set_of_mem {α : Type} (f : BNode → List α) {cs : List BNode}
    {i : Nat} (hilt : i < cs.length) (c' : BNode) {x : α} (hx : x ∈ f c') :
    x ∈ ((cs.set i c').map f).flatten := by
  have h1 : (cs.set i c').getD i c' = c' := by
    rw [List.getD_eq_getElem _ _ (by simpa using hilt)]
    exact List.getElem_set_self (by simpa using hilt)
  refine getD_mem_flatten f (by simpa using hilt) c' ?_
  rw [h1]
  exact hx

theorem flatten_map_set_sub {α : Type} (f : BNode → List α) {cs : List BNode}
    {i : Nat} (hilt : i < cs.length) (c' : BNode) (q : α) (dflt : BNode)
    (hnew : ∀ x ∈ f c', x = q ∨ x ∈ f (cs.getD i dflt)) :
    ∀ x ∈ ((cs.set i c').map f).flatten, x = q ∨ x ∈ (cs.map f).flatten := by
  intro x hx
  obtain ⟨l, hl, hxl⟩ := List.mem_flatten.mp hx
  obtain ⟨c, hc, rfl⟩ := List.mem_map.mp hl
  rcases List.mem_or_eq_of_mem_set hc with hc' | rfl
  · exact Or.inr (List.mem_flatten.mpr ⟨f c, List.mem_map_of_mem f hc', hxl⟩)
  · rcases hnew x hxl with rfl | hx'
    · exact Or.inl rfl
    · exact Or.inr (getD_mem_flatten f hilt dflt hx')

theorem flatten_map_set_sup {α : Type} (f : BNode → List α) {cs : List BNode}
    {i : Nat} (hilt : i < cs.length) (c' : BNode) (dflt : BNode)
    (hsup : ∀ x ∈ f (cs.getD i dflt), x ∈ f c') :
    ∀ x ∈ (cs.map f).flatten, x ∈ ((cs.set i c').map f).flatten := by
  intro x hx
  obtain ⟨l, hl, hxl⟩ := List.mem_flatten.mp hx
  obtain ⟨c, hc, rfl⟩ := List.mem_map.mp hl
  obtain ⟨j, hj, rfl⟩ := List.mem_iff_getElem.mp hc
  by_cases hji : j = i
  · subst hji
    refine flatten_map_set_of_mem f hilt c' (hsup x ?_)
    rw [List.getD_eq_getElem _ _ hj]
    exact hxl
  · refine @getD_mem_flatten _ f (cs.set i c') _ (by simpa using hj) dflt _ ?_
    rw [List.getD_eq_getElem _ _ (by simpa using hj)]
    rw [List.getElem_set_ne (by omega)]
    exact hxl

theorem map_set_eq_of_eq {α : Type} (f : BNode → List α) {cs : List BNode} {i : Nat}
    (hilt : i < cs.length) (c' : BNode) (dflt : BNode)
    (heq : f c' = f (cs.getD i dflt)) :
    (cs.set i c').map f = cs.map f := by
  refine List.ext_getElem (by simp) ?_
  intro j hj hj'
  simp only [List.getElem_map]
  by_cases hji : j = i
  · subst hji
    rw [List.getElem_set_self (by simpa using hj), heq,
      List.getD_eq_getElem _ _ (by simpa using hj)]
  · rw [List.getElem_set_ne (by omega)]

theorem wfSeq_height_node (t d : Nat) (ks vs : List Nat) (cs : List BNode)
    (lo hi : Option Nat) (hseq : wfSeq (wfAux t d) lo hi ks cs) :
    (BNode.node ks vs cs).height = d + 1 := by
  rw [height_node]
  have hclen := wfSeq_length hseq
  have hmem : ∀ x ∈ cs.map BNode.height, x = d := by
    intro x hx
    obtain ⟨c, hc, rfl⟩ := List.mem_map.mp hx
    obtain ⟨lo', hi', hP⟩ := wfSeq_mem hseq c hc
    exact wfAux_height t d c lo' hi' hP
  have hne : cs.map BNode.height ≠ [] := by
    intro hcontra
    rw [List.map_eq_nil_iff.mp hcontra] at hclen
    simp at hclen
  rw [foldl_max_eq_of_all_eq _ hmem hne]
  omega

theorem updateFound_wfAux (t k v : Nat) :
    ∀ (d : Nat) (n : BNode) (lo hi : Option Nat), wfAux t d lo hi n →
      wfAux t d lo hi (BNode.updateFound k v n)
      ∧ (BNode.updateFound k v n).leafKeys = n.leafKeys
  | 0, .leaf ks vs, lo, hi, h => by
    rw [BNode.updateFound]
    by_cases hc : find_key_index k ks < ks.length ∧ ks.getD (find_key_index k ks) 0 = k
    · rw [if_pos hc]
      obtain ⟨h1, h2, h3, h4, h5⟩ := h
      exact ⟨⟨h1, by simpa using h2, h3, h4, h5⟩, by rw [BNode.leafKeys, BNode.leafKeys]⟩
    · rw [if_neg hc]
      exact ⟨h, rfl⟩
  | 0, .node _ _ _, _, _, h => h.elim
  | _ + 1, .leaf _ _, _, _, h => h.elim
  | d + 1, .node ks vs cs, lo, hi, h => by
    rw [BNode.updateFound]
    obtain ⟨h1, h2, h3, h4, h5, h6, h7, hseq⟩ := h
    by_cases hc : find_key_index k ks < ks.length ∧ ks.getD (find_key_index k ks) 0 = k
    · rw [if_pos hc]
      refine ⟨⟨h1, by simpa using h2, h3, h4, h5, h6, ?_, hseq⟩, ?_⟩
      · intro x hx
        rw [leafKeys_node]
        have := h7 x hx
        rw [leafKeys_node] at this
        exact this
      · rw [leafKeys_node, leafKeys_node]
    · rw [if_neg hc]
      have hile : find_key_index k ks ≤ ks.length := find_key_index_le k ks
      have hilt : find_key_index k ks < cs.length := by omega
      have hcwf := wfSeq_getD hseq (find_key_index k ks) hilt
      have hrec := updateFound_wfAux t k v d (cs.getD (find_key_index k ks) (.leaf [] []))
        _ _ hcwf
      have hmap : ((cs.set (find_key_index k ks)
          (BNode.updateFound k v (cs.getD (find_key_index k ks) (.leaf [] [])))).map
            BNode.leafKeys)
          = cs.map BNode.leafKeys :=
        map_set_eq_of_eq BNode.leafKeys hilt _ (.leaf [] []) hrec.2
      refine ⟨⟨h1, h2, by simpa using h3, h4, h5, h6, ?_, ?_⟩, ?_⟩
      · intro x hx
        rw [leafKeys_node, hmap]
        have := h7 x hx
        rw [leafKeys_node] at this
        exact this
      · exact wfSeq_set hseq hilt hrec.1
      · rw [leafKeys_node, leafKeys_node, hmap]
termination_by d => d

theorem updateFound_WFroot (t k v : Nat) (tr : BNode) (h : WFroot t tr) :
    WFroot t (BNode.updateFound k v tr)
    ∧ (BNode.updateFound k v tr).leafKeys = tr.leafKeys := by
  cases tr with
  | leaf ks vs =>
    rw [BNode.updateFound]
    by_cases hc : find_key_index k ks < ks.length ∧ ks.getD (find_key_index k ks) 0 = k
    · rw [if_pos hc]
      obtain ⟨h1, h2, h3⟩ := h
      exact ⟨⟨h1, by simpa using h2, h3⟩, by rw [BNode.leafKeys, BNode.leafKeys]⟩
    · rw [if_neg hc]
      exact ⟨h, rfl⟩
  | node ks vs cs =>
    obtain ⟨d, h1, h2, h3, h4, h5, h7, hseq⟩ := h
    rw [BNode.updateFound]
    by_cases hc : find_key_index k ks < ks.length ∧ ks.getD (find_key_index k ks) 0 = k
    · rw [if_pos hc]
      refine ⟨⟨d, h1, by simpa using h2, h3, h4, h5, ?_, hseq⟩, ?_⟩
      · intro x hx
        rw [leafKeys_node]
        have := h7 x hx
        rw [leafKeys_node] at this
        exact this
      · rw [leafKeys_node, leafKeys_node]
    · rw [if_neg hc]
      have hile : find_key_index k ks ≤ ks.length := find_key_index_le k ks
      have hilt : find_key_index k ks < cs.length := by omega
      have hcwf := wfSeq_getD hseq (find_key_index k ks) hilt
      have hrec := updateFound_wfAux t k v d (cs.getD (find_key_index k ks) (.leaf [] []))
        _ _ hcwf
      have hmap : ((cs.set (find_key_index k ks)
          (BNode.updateFound k v (cs.getD (find_key_index k ks) (.leaf [] [])))).map
            BNode.leafKeys)
          = cs.map BNode.leafKeys :=
        map_set_eq_of_eq BNode.leafKeys hilt _ (.leaf [] []) hrec.2
      refine ⟨⟨d, h1, h2, by simpa using h3, h4, h5, ?_, ?_⟩, ?_⟩
      · intro x hx
        rw [leafKeys_node, hmap]
        have := h7 x hx
        rw [leafKeys_node] at this
        exact this
      · exact wfSeq_set hseq hilt hrec.1
      · rw [leafKeys_node, leafKeys_node, hmap]

theorem pairsOf_fst_leafKeys (t : Nat) :
    ∀ (d : Nat) (n : BNode) (lo hi : Option Nat), wfAux t d lo hi n →
      ∀ x y, (x, y) ∈ n.pairsOf → x ∈ n.leafKeys
  | 0, .leaf ks vs, _, _, _, x, y, hp => by
    rw [BNode.pairsOf] at hp
    rw [BNode.leafKeys]
    exact (List.of_mem_zip hp).1
  | 0, .node _ _ _, _, _, h, _, _, _ => h.elim
  | _ + 1, .leaf _ _, _, _, h, _, _, _ => h.elim
  | d + 1, .node ks vs cs, lo, hi, h, x, y, hp => by
    obtain ⟨_, _, _, _, _, _, h7, hseq⟩ := h
    rw [pairsOf_node, List.mem_append] at hp
    rcases hp with hp | hp
    · exact h7 x (List.of_mem_zip hp).1
    · obtain ⟨l, hl, hxl⟩ := List.mem_flatten.mp hp
      obtain ⟨c, hc, rfl⟩ := List.mem_map.mp hl
      obtain ⟨lo', hi', hP⟩ := wfSeq_mem hseq c hc
      rw [leafKeys_node]
      refine List.mem_flatten.mpr ⟨c.leafKeys, List.mem_map_of_mem _ hc, ?_⟩
      exact pairsOf_fst_leafKeys t d c lo' hi' hP x y hxl
termination_by d => d

theorem pairsOf_fst_leafKeys_root (t : Nat) (tr : BNode) (h : WFroot t tr) :
    ∀ x y, (x, y) ∈ tr.pairsOf → x ∈ tr.leafKeys := by
  cases tr with
  | leaf ks vs =>
    intro x y hp
    rw [BNode.pairsOf] at hp
    rw [BNode.leafKeys]
    exact (List.of_mem_zip hp).1
  | node ks vs cs =>
    obtain ⟨d, _, _, _, _, _, h7, hseq⟩ := h
    intro x y hp
    rw [pairsOf_node, List.mem_append] at hp
    rcases hp with hp | hp
    · exact h7 x (List.of_mem_zip hp).1
    · obtain ⟨l, hl, hxl⟩ := List.mem_flatten.mp hp
      obtain ⟨c, hc, rfl⟩ := List.mem_map.mp hl
      obtain ⟨lo', hi', hP⟩ := wfSeq_mem hseq c hc
      rw [leafKeys_node]
      refine List.mem_flatten.mpr ⟨c.leafKeys, List.mem_map_of_mem _ hc, ?_⟩
      exact pairsOf_fst_leafKeys t d c lo' hi' hP x y hxl

end Inno
namespace Inno

theorem bndLo_insertIdx_self (lo : Option Nat) (ks : List Nat) (i pk : Nat)
    (hile : i ≤ ks.length) : bndLo lo (ks.insertIdx i pk) (i + 1) = some pk := by
  simp only [bndLo]
  rw [List.getD_eq_getElem _ _ (by rw [List.length_insertIdx _ _ hile]; omega)]
  rw [List.getElem_insertIdx_self _ _ _ hile]

theorem bndHi_insertIdx_succ (hi : Option Nat) (ks : List Nat) (i pk : Nat)
    (hile : i ≤ ks.length) : bndHi hi (ks.insertIdx i pk) (i + 1) = bndHi hi ks i := by
  simp only [bndHi, List.length_insertIdx _ _ hile]
  by_cases hlt : i < ks.length
  · rw [if_pos (by omega), if_pos hlt]
    rw [List.getD_eq_getElem _ _ (by rw [List.length_insertIdx _ _ hile]; omega)]
    rw [List.getD_eq_getElem _ _ hlt]
    have := List.getElem_insertIdx_add_succ ks pk i 0 (by omega)
    simpa using this
  · rw [if_neg (by omega), if_neg hlt]

theorem bndLo_insertIdx_eq (lo : Option Nat) (ks : List Nat) (i pk : Nat)
    (hile : i ≤ ks.length) : bndLo lo (ks.insertIdx i pk) i = bndLo lo ks i := by
  cases i with
  | zero => simp [bndLo]
  | succ j =>
    simp only [bndLo]
    rw [List.getD_eq_getElem _ _ (by rw [List.length_insertIdx _ _ hile]; omega)]
    rw [List.getD_eq_getElem _ _ (by omega)]
    rw [List.getElem_insertIdx_of_lt _ _ _ _ (by omega) (by omega)]

theorem bndHi_insertIdx_self (hi : Option Nat) (ks : List Nat) (i pk : Nat)
    (hile : i ≤ ks.length) : bndHi hi (ks.insertIdx i pk) i = some pk := by
  simp only [bndHi, List.length_insertIdx _ _ hile]
  rw [if_pos (by omega)]
  rw [List.getD_eq_getElem _ _ (by rw [List.length_insertIdx _ _ hile]; omega)]
  rw [List.getElem_insertIdx_self _ _ _ hile]

/-- Replacing child j of a well-formed child sequence by the result of a
recursive insert (characterised by its wfAux, leaf-key and pair facts)
preserves the sequence and propagates those facts to the flattened level. -/
theorem set_child_rebuild (t d : Nat) (K : List Nat) (C : List BNode)
    (lo hi : Option Nat) (j : Nat) (c' : BNode) (k v : Nat)
    (hseq : wfSeq (wfAux t d) lo hi K C)
    (hjlt : j < C.length)
    (hw : wfAux t d (bndLo lo K j) (bndHi hi K j) c')
    (hiff : ∀ x, x ∈ c'.leafKeys ↔ x = k ∨ x ∈ (C.getD j (.leaf [] [])).leafKeys)
    (hpairs : ∀ p ∈ c'.pairsOf, p = (k, v) ∨ p ∈ (C.getD j (.leaf [] [])).pairsOf)
    (hroutK : ∀ x ∈ K, x ∈ (C.map BNode.leafKeys).flatten) :
    wfSeq (wfAux t d) lo hi K (C.set j c')
    ∧ (∀ x ∈ K, x ∈ ((C.set j c').map BNode.leafKeys).flatten)
    ∧ (∀ x, x ∈ ((C.set j c').map BNode.leafKeys).flatten
        ↔ x = k ∨ x ∈ (C.map BNode.leafKeys).flatten)
    ∧ (∀ p ∈ ((C.set j c').map BNode.pairsOf).flatten,
        p = (k, v) ∨ p ∈ (C.map BNode.pairsOf).flatten) := by
  have hsup : ∀ x ∈ (C.getD j (.leaf [] [])).leafKeys, x ∈ c'.leafKeys := by
    intro x hx
    exact (hiff x).mpr (Or.inr hx)
  refine ⟨wfSeq_set hseq hjlt hw, ?_, ?_, ?_⟩
  · intro x hx
    exact flatten_map_set_sup BNode.leafKeys hjlt c' (.leaf [] []) hsup x (hroutK x hx)
  · intro x
    constructor
    · intro hx
      exact flatten_map_set_sub BNode.leafKeys hjlt c' k (.leaf [] [])
        (fun y hy => (hiff y).mp hy) x hx
    · rintro (rfl | hx)
      · exact flatten_map_set_of_mem BNode.leafKeys hjlt c' ((hiff x).mpr (Or.inl rfl))
      · exact flatten_map_set_sup BNode.leafKeys hjlt c' (.leaf [] []) hsup x hx
  · intro p hp
    exact flatten_map_set_sub BNode.pairsOf hjlt c' (k, v) (.leaf [] []) hpairs p hp

end Inno
namespace Inno

theorem insertNonFull_node_eq (t fuel : Nat) (keys values : List Nat)
    (children : List BNode) (k v : Nat) :
    insertNonFull t (fuel + 1) (.node keys values children) k v
      = (if (children.getD (insertIdxOf k keys) (.leaf [] [])).is_full t then
           match splitChild t (.node keys values children) (insertIdxOf k keys) with
           | .leaf k2 v2 => .leaf k2 v2
           | .node keys2 values2 children2 =>
             let i2 := if keys2.getD (insertIdxOf k keys) 0 < k then insertIdxOf k keys + 1
               else insertIdxOf k keys
             .node keys2 values2
               (children2.set i2
                 (insertNonFull t fuel (children2.getD i2 (.leaf [] [])) k v))
         else
           .node keys values
             (children.set (insertIdxOf k keys)
               (insertNonFull t fuel
                 (children.getD (insertIdxOf k keys) (.leaf [] [])) k v))) := by
  rw [insertNonFull]

theorem insertNonFull_leaf_eq (t fuel : Nat) (keys values : List Nat) (k v : Nat) :
    insertNonFull t (fuel + 1) (.leaf keys values) k v
      = .leaf (keys.take (insertIdxOf k keys) ++ k :: keys.drop (insertIdxOf k keys))
          (values.take (insertIdxOf k keys) ++ v :: values.drop (insertIdxOf k keys)) := by
  rw [insertNonFull]

end Inno

namespace Inno

theorem insertNonFull_node_step (t : Nat) (ht : 2 ≤ t) (d fuel : Nat)
    (keys values : List Nat) (children : List BNode) (lo hi : Option Nat) (k v : Nat)
    (IH : ∀ (n : BNode) (lo' hi' : Option Nat), wfAux t d lo' hi' n →
        n.is_full t = false → inLo lo' k → inHi hi' k → k ∉ n.leafKeys →
        wfAux t d lo' hi' (insertNonFull t fuel n k v)
        ∧ (∀ x, x ∈ (insertNonFull t fuel n k v).leafKeys ↔ x = k ∨ x ∈ n.leafKeys)
        ∧ (∀ p ∈ (insertNonFull t fuel n k v).pairsOf, p = (k, v) ∨ p ∈ n.pairsOf))
    (hasc : ascChain keys = true) (hvlen : values.length = keys.length)
    (hclen : children.length = keys.length + 1)
    (hbks : ∀ x ∈ keys, inLo lo x ∧ inHi hi x)
    (hroute : ∀ x ∈ keys, x ∈ (children.map BNode.leafKeys).flatten)
    (hseq : wfSeq (wfAux t d) lo hi keys children)
    (hklo : inLo lo k) (hkhi : inHi hi k)
    (hfresh : k ∉ (children.map BNode.leafKeys).flatten) :
    ∃ K2 V2 C2,
      insertNonFull t (fuel + 1) (.node keys values children) k v = .node K2 V2 C2
      ∧ ascChain K2 = true ∧ V2.length = K2.length ∧ C2.length = K2.length + 1
      ∧ keys.length ≤ K2.length ∧ K2.length ≤ keys.length + 1
      ∧ (∀ x ∈ K2, inLo lo x ∧ inHi hi x)
      ∧ (∀ x ∈ K2, x ∈ (C2.map BNode.leafKeys).flatten)
      ∧ wfSeq (wfAux t d) lo hi K2 C2
      ∧ (∀ x, x ∈ (C2.map BNode.leafKeys).flatten
          ↔ x = k ∨ x ∈ (children.map BNode.leafKeys).flatten)
      ∧ (∀ p ∈ BNode.pairsOf (.node K2 V2 C2),
          p = (k, v) ∨ p ∈ BNode.pairsOf (.node keys values children)) := by
  have hascP := (ascChain_iff_pairwise keys).mp hasc
  set i := insertIdxOf k keys with hidef
  have hile : i ≤ keys.length := insertIdxOf_le k keys
  have hilt : i < children.length := by omega
  have hklo' : inLo (bndLo lo keys i) k := insertIdxOf_bndLo hascP hklo
  have hkhi' : inHi (bndHi hi keys i) k := insertIdxOf_bndHi hascP hkhi
  cases hfullc : (children.getD i (.leaf [] [])).is_full t with
  | false =>
    have heqA : insertNonFull t (fuel + 1) (.node keys values children) k v
        = .node keys values
            (children.set i
              (insertNonFull t fuel (children.getD i (.leaf [] [])) k v)) := by
      rw [insertNonFull_node_eq, ← hidef, if_neg (by rw [hfullc]; simp)]
    have hcwf := wfSeq_getD hseq i hilt
    have hfr : k ∉ (children.getD i (.leaf [] [])).leafKeys := fun hm =>
      hfresh (getD_mem_flatten BNode.leafKeys hilt _ hm)
    obtain ⟨hw, hiff, hpairs⟩ := IH _ _ _ hcwf hfullc hklo' hkhi' hfr
    obtain ⟨hs', hrt', hiff', hpairs'⟩ := set_child_rebuild t d keys children lo hi i
      _ k v hseq hilt hw hiff hpairs hroute
    refine ⟨keys, values, _, heqA, hasc, hvlen, by simpa using hclen, le_refl _,
      by omega, hbks, hrt', hs', hiff', ?_⟩
    intro p hp
    rw [pairsOf_node, List.mem_append] at hp
    rcases hp with hp | hp
    · exact Or.inr (by rw [pairsOf_node, List.mem_append]; exact Or.inl hp)
    · rcases hpairs' p hp with h | h
      · exact Or.inl h
      · exact Or.inr (by rw [pairsOf_node, List.mem_append]; exact Or.inr h)
  | true =>
    obtain ⟨pk, pv, left, right, SF⟩ := splitChild_step t ht d keys values children
      lo hi i hseq hascP hbks hroute hvlen hclen hilt hfullc
    have hK2len : (keys.insertIdx i pk).length = keys.length + 1 := SF.klen
    have hC : ((children.set i left).insertIdx (i + 1) right).length
        = children.length + 1 := SF.clen2
    have hpkK2 : pk ∈ keys.insertIdx i pk := by
      rw [List.mem_iff_getElem]
      exact ⟨i, by omega, by rw [List.getElem_insertIdx_self _ _ _ hile]⟩
    have hpkOld : pk ∈ (children.map BNode.leafKeys).flatten := by
      rw [← SF.flat]
      exact SF.rout pk hpkK2
    have hkne : k ≠ pk := fun he => hfresh (he ▸ hpkOld)
    have hascK2 : ascChain (keys.insertIdx i pk) = true :=
      (ascChain_iff_pairwise _).mpr SF.asc
    by_cases hdir : pk < k
    · -- descend into the right half
      have heqB : insertNonFull t (fuel + 1) (.node keys values children) k v
          = .node (keys.insertIdx i pk) (values.insertIdx i pv)
              (((children.set i left).insertIdx (i + 1) right).set (i + 1)
                (insertNonFull t fuel
                  (((children.set i left).insertIdx (i + 1) right).getD (i + 1)
                    (.leaf [] [])) k v)) := by
        rw [insertNonFull_node_eq, ← hidef, if_pos hfullc, SF.eq]
        show BNode.node (keys.insertIdx i pk) (values.insertIdx i pv)
            (((children.set i left).insertIdx (i + 1) right).set
              (if (keys.insertIdx i pk).getD i 0 < k then i + 1 else i)
              (insertNonFull t fuel
                (((children.set i left).insertIdx (i + 1) right).getD
                  (if (keys.insertIdx i pk).getD i 0 < k then i + 1 else i)
                  (.leaf [] [])) k v)) = _
        rw [SF.getK, if_pos hdir]
      have hfrR : k ∉ right.leafKeys := by
        intro hm
        refine hfresh ?_
        rw [← SF.flat]
        have hm' : k ∈ (((children.set i left).insertIdx (i + 1) right).getD (i + 1)
            (.leaf [] [])).leafKeys := by rw [SF.getR]; exact hm
        exact getD_mem_flatten BNode.leafKeys (by rw [hC]; omega) (.leaf [] []) hm' 
      obtain ⟨hw, hiff, hpairs⟩ := IH right (some pk) (bndHi hi keys i) SF.rwf SF.rnf
        (by simpa [inLo] using le_of_lt hdir) hkhi' hfrR
      rw [← SF.getR] at hw hiff hpairs
      rw [← bndLo_insertIdx_self lo keys i pk hile] at hw
      rw [← bndHi_insertIdx_succ hi keys i pk hile] at hw
      obtain ⟨hs', hrt', hiff', hpairs'⟩ := set_child_rebuild t d (keys.insertIdx i pk)
        ((children.set i left).insertIdx (i + 1) right) lo hi (i + 1) _ k v SF.seq
        (by rw [hC]; omega) hw hiff hpairs SF.rout
      refine ⟨_, _, _, heqB, hascK2, ?_, ?_, by omega, by omega, SF.bk, hrt', hs', ?_, ?_⟩
      · rw [SF.vlen2, hK2len, hvlen]
      · rw [List.length_set, hC, hK2len, hclen]
    -- leaf-key membership at the node level
      · intro x
        rw [← SF.flat]
        exact hiff' x
      · intro p hp
        rw [pairsOf_node, List.mem_append] at hp
        rcases hp with hp | hp
        · refine Or.inr (SF.pairs _ ?_)
          rw [pairsOf_node, List.mem_append]
          exact Or.inl hp
        · rcases hpairs' p hp with h | h
          · exact Or.inl h
          · refine Or.inr (SF.pairs _ ?_)
            rw [pairsOf_node, List.mem_append]
            exact Or.inr h
    · -- descend into the left half
      have hklt : k < pk := by omega
      have heqB : insertNonFull t (fuel + 1) (.node keys values children) k v
          = .node (keys.insertIdx i pk) (values.insertIdx i pv)
              (((children.set i left).insertIdx (i + 1) right).set i
                (insertNonFull t fuel
                  (((children.set i left).insertIdx (i + 1) right).getD i
                    (.leaf [] [])) k v)) := by
        rw [insertNonFull_node_eq, ← hidef, if_pos hfullc, SF.eq]
        show BNode.node (keys.insertIdx i pk) (values.insertIdx i pv)
            (((children.set i left).insertIdx (i + 1) right).set
              (if (keys.insertIdx i pk).getD i 0 < k then i + 1 else i)
              (insertNonFull t fuel
                (((children.set i left).insertIdx (i + 1) right).getD
                  (if (keys.insertIdx i pk).getD i 0 < k then i + 1 else i)
                  (.leaf [] [])) k v)) = _
        rw [SF.getK, if_neg hdir]
      have hfrL : k ∉ left.leafKeys := by
        intro hm
        refine hfresh ?_
        rw [← SF.flat]
        have hm' : k ∈ (((children.set i left).insertIdx (i + 1) right).getD i
            (.leaf [] [])).leafKeys := by rw [SF.getL]; exact hm
        exact getD_mem_flatten BNode.leafKeys (by rw [hC]; omega) (.leaf [] []) hm' 
      obtain ⟨hw, hiff, hpairs⟩ := IH left (bndLo lo keys i) (some pk) SF.lwf SF.lnf
        hklo' (by simpa [inHi] using hklt) hfrL
      rw [← SF.getL] at hw hiff hpairs
      rw [← bndHi_insertIdx_self hi keys i pk hile] at hw
      rw [← bndLo_insertIdx_eq lo keys i pk hile] at hw
      obtain ⟨hs', hrt', hiff', hpairs'⟩ := set_child_rebuild t d (keys.insertIdx i pk)
        ((children.set i left).insertIdx (i + 1) right) lo hi i _ k v SF.seq
        (by rw [hC]; omega) hw hiff hpairs SF.rout
      refine ⟨_, _, _, heqB, hascK2, ?_, ?_, by omega, by omega, SF.bk, hrt', hs', ?_, ?_⟩
      · rw [SF.vlen2, hK2len, hvlen]
      · rw [List.length_set, hC, hK2len, hclen]
      · intro x
        rw [← SF.flat]
        exact hiff' x
      · intro p hp
        rw [pairsOf_node, List.mem_append] at hp
        rcases hp with hp | hp
        · refine Or.inr (SF.pairs _ ?_)
          rw [pairsOf_node, List.mem_append]
          exact Or.inl hp
        · rcases hpairs' p hp with h | h
          · exact Or.inl h
          · refine Or.inr (SF.pairs _ ?_)
            rw [pairsOf_node, List.mem_append]
            exact Or.inr h

end Inno
namespace Inno

theorem insertNonFull_wf (t : Nat) (ht : 2 ≤ t) :
    ∀ (d fuel : Nat) (n : BNode) (lo hi : Option Nat) (k v : Nat),
      d < fuel → wfAux t d lo hi n → n.is_full t = false →
      inLo lo k → inHi hi k → k ∉ n.leafKeys →
      wfAux t d lo hi (insertNonFull t fuel n k v)
      ∧ (∀ x, x ∈ (insertNonFull t fuel n k v).leafKeys ↔ x = k ∨ x ∈ n.leafKeys)
      ∧ (∀ p ∈ (insertNonFull t fuel n k v).pairsOf, p = (k, v) ∨ p ∈ n.pairsOf) := by
  intro d
  induction d with
  | zero =>
    intro fuel n lo hi k v hdf hw hnf hklo hkhi hfr
    obtain ⟨fuel, rfl⟩ : ∃ f, fuel = f + 1 := ⟨fuel - 1, by omega⟩
    cases n with
    | node ks vs cs => exact hw.elim
    | leaf ks vs =>
      obtain ⟨hasc, hvlen, hfill, hmaxk, hbnd⟩ := hw
      rw [BNode.is_full, beq_eq_false_iff_ne] at hnf
      have hfr' : k ∉ ks := by rw [BNode.leafKeys] at hfr; exact hfr
      obtain ⟨c1, c2, c3, c4, c5, c6⟩ := leaf_insert_core
        ((ascChain_iff_pairwise ks).mp hasc) hvlen hbnd hklo hkhi hfr'
      rw [insertNonFull_leaf_eq]
      refine ⟨⟨(ascChain_iff_pairwise _).mpr c1, c2, ?_, ?_, c4⟩, ?_, ?_⟩
      · rw [c3]; omega
      · rw [c3]; omega
      · intro x
        rw [BNode.leafKeys, BNode.leafKeys]
        exact c5 x
      · intro p hp
        rw [BNode.pairsOf] at hp
        rw [BNode.pairsOf]
        exact c6 p hp
  | succ d IHd =>
    intro fuel n lo hi k v hdf hw hnf hklo hkhi hfr
    obtain ⟨fuel, rfl⟩ : ∃ f, fuel = f + 1 := ⟨fuel - 1, by omega⟩
    cases n with
    | leaf ks vs => exact hw.elim
    | node ks vs cs =>
      obtain ⟨hasc, hvlen, hclen, hfill, hmaxk, hbks, hrout, hseq⟩ := hw
      have hroutF : ∀ x ∈ ks, x ∈ (cs.map BNode.leafKeys).flatten := by
        intro x hx
        have := hrout x hx
        rw [leafKeys_node] at this
        exact this
      have hfrF : k ∉ (cs.map BNode.leafKeys).flatten := by
        rw [leafKeys_node] at hfr
        exact hfr
      rw [BNode.is_full, beq_eq_false_iff_ne] at hnf
      obtain ⟨K2, V2, C2, heq, a1, a2, a3, a4, a5, a6, a7, a8, a9, a10⟩ :=
        insertNonFull_node_step t ht d fuel ks vs cs lo hi k v
          (fun m lo' hi' h1 h2 h3 h4 h5 => IHd fuel m lo' hi' k v (by omega) h1 h2 h3 h4 h5)
          hasc hvlen hclen hbks hroutF hseq hklo hkhi hfrF
      rw [heq]
      refine ⟨⟨a1, a2, a3, by omega, by omega, a6, ?_, a8⟩, ?_, ?_⟩
      · intro x hx
        rw [leafKeys_node]
        exact a7 x hx
      · intro x
        rw [leafKeys_node, leafKeys_node]
        exact a9 x
      · intro p hp
        exact a10 p hp

end Inno
namespace Inno

theorem insert_row_mapping_none_eq (t : Nat) (tr : BNode) (k v : Nat)
    (hsv : BNode.searchVal k tr = none) :
    insert_row_mapping t tr k v
      = if tr.is_full t then
          insertNonFull t (tr.height + 2) (splitChild t (.node [] [] [tr]) 0) k v
        else insertNonFull t (tr.height + 1) tr k v := by
  rw [insert_row_mapping, hsv]

theorem insert_row_mapping_found_eq (t : Nat) (tr : BNode) (k v v' : Nat)
    (hsv : BNode.searchVal k tr = some v') :
    insert_row_mapping t tr k v = BNode.updateFound k v tr := by
  rw [insert_row_mapping, hsv]

theorem WFroot_full_wfAux (t : Nat) (tr : BNode) (hwf : WFroot t tr)
    (hfull : tr.is_full t = true) :
    ∃ d, wfAux t d none none tr ∧ tr.height = d := by
  cases tr with
  | leaf ks vs =>
    obtain ⟨h1, h2, h3⟩ := hwf
    rw [BNode.is_full, beq_iff_eq] at hfull
    refine ⟨0, ⟨h1, h2, by omega, h3, fun x _ => ⟨trivial, trivial⟩⟩, ?_⟩
    rw [BNode.height]
  | node ks vs cs =>
    obtain ⟨d, h1, h2, h3, h4, h5, h6, hseq⟩ := hwf
    rw [BNode.is_full, beq_iff_eq] at hfull
    exact ⟨d + 1, ⟨h1, h2, h3, by omega, h5, fun x _ => ⟨trivial, trivial⟩, h6, hseq⟩,
      wfSeq_height_node t d ks vs cs none none hseq⟩

theorem insert_row_mapping_wf_fresh (t : Nat) (ht : 2 ≤ t) (tr : BNode)
    (hwf : WFroot t tr) (k v : Nat) (hfresh : k ∉ tr.leafKeys) :
    WFroot t (insert_row_mapping t tr k v)
    ∧ (∀ x, x ∈ (insert_row_mapping t tr k v).leafKeys ↔ x = k ∨ x ∈ tr.leafKeys)
    ∧ (∀ p ∈ (insert_row_mapping t tr k v).pairsOf, p = (k, v) ∨ p ∈ tr.pairsOf) := by
  have hsv : BNode.searchVal k tr = none := by
    cases hs : BNode.searchVal k tr with
    | none => rfl
    | some v' =>
      exact absurd (pairsOf_fst_leafKeys_root t tr hwf k v'
        (searchVal_sound_root t tr k v' hwf hs)) hfresh
  rw [insert_row_mapping_none_eq t tr k v hsv]
  by_cases hfull : tr.is_full t = true
  · rw [if_pos hfull]
    obtain ⟨d, hwa, hh⟩ := WFroot_full_wfAux t tr hwf hfull
    have hseq0 : wfSeq (wfAux t d) none none [] [tr] := hwa
    have hfull0 : ([tr].getD 0 (.leaf [] [])).is_full t = true := hfull
    obtain ⟨pk, pv, left, right, SF⟩ := splitChild_step t ht d [] [] [tr] none none 0
      hseq0 List.Pairwise.nil (by simp) (by simp) rfl rfl (by simp) hfull0
    have hK1 : ([] : List Nat).insertIdx 0 pk = [pk] := rfl
    have hV1 : ([] : List Nat).insertIdx 0 pv = [pv] := rfl
    have hC1 : ([tr].set 0 left).insertIdx 1 right = [left, right] := rfl
    have hfreshC : k ∉ ((([tr].set 0 left).insertIdx 1 right).map BNode.leafKeys).flatten := by
      rw [SF.flat]
      simpa using hfresh
    obtain ⟨K2, V2, C2, heq, a1, a2, a3, a4, a5, a6, a7, a8, a9, a10⟩ :=
      insertNonFull_node_step t ht d (d + 1) ([].insertIdx 0 pk) ([].insertIdx 0 pv)
        (([tr].set 0 left).insertIdx 1 right) none none k v
        (fun m lo' hi' h1 h2 h3 h4 h5 =>
          insertNonFull_wf t ht d (d + 1) m lo' hi' k v (by omega) h1 h2 h3 h4 h5)
        ((ascChain_iff_pairwise _).mpr SF.asc)
        (by rw [SF.vlen2, SF.klen])
        (by rw [SF.clen2, SF.klen]; rfl)
        (fun x _ => ⟨trivial, trivial⟩) SF.rout SF.seq trivial trivial hfreshC
    have hf2 : tr.height + 2 = d + 1 + 1 := by omega
    rw [SF.eq, hf2, heq]
    have hk1 : (([] : List Nat).insertIdx 0 pk).length = 1 := rfl
    have hK2ge : 1 ≤ K2.length := by omega
    have hK2le : K2.length ≤ 2 * t - 1 := by omega
    refine ⟨⟨d, a1, a2, a3, hK2ge, hK2le, ?_, a8⟩, ?_, ?_⟩
    · intro x hx
      rw [leafKeys_node]
      exact a7 x hx
    · intro x
      rw [leafKeys_node]
      rw [a9 x, SF.flat]
      simp
    · intro p hp
      rcases a10 p hp with h | h
      · exact Or.inl h
      · have h2 := SF.pairs p h
        rw [pairsOf_node] at h2
        exact Or.inr (by simpa using h2)
  · rw [if_neg hfull]
    rw [Bool.not_eq_true] at hfull
    cases tr with
    | leaf ks vs =>
      obtain ⟨h1, h2, h3⟩ := hwf
      rw [BNode.is_full, beq_eq_false_iff_ne] at hfull
      have hh : (BNode.leaf ks vs).height = 0 := by rw [BNode.height]
      rw [hh]
      have hfr' : k ∉ ks := by rw [BNode.leafKeys] at hfresh; exact hfresh
      have hbn : ∀ x ∈ ks, inLo (none : Option Nat) x ∧ inHi (none : Option Nat) x :=
        fun x _ => ⟨trivial, trivial⟩
      obtain ⟨c1, c2, c3, c4, c5, c6⟩ := leaf_insert_core
        ((ascChain_iff_pairwise ks).mp h1) h2 hbn trivial trivial hfr'
      rw [insertNonFull_leaf_eq]
      refine ⟨⟨(ascChain_iff_pairwise _).mpr c1, c2, by omega⟩, ?_, ?_⟩
      · intro x
        rw [BNode.leafKeys, BNode.leafKeys]
        exact c5 x
      · intro p hp
        rw [BNode.pairsOf] at hp
        rw [BNode.pairsOf]
        exact c6 p hp
    | node ks vs cs =>
      obtain ⟨d, h1, h2, h3, h4, h5, h6, hseq⟩ := hwf
      rw [BNode.is_full, beq_eq_false_iff_ne] at hfull
      have hh : (BNode.node ks vs cs).height = d + 1 :=
        wfSeq_height_node t d ks vs cs none none hseq
      rw [hh]
      have hroutF : ∀ x ∈ ks, x ∈ (cs.map BNode.leafKeys).flatten := by
        intro x hx
        have := h6 x hx
        rw [leafKeys_node] at this
        exact this
      have hfrF : k ∉ (cs.map BNode.leafKeys).flatten := by
        rw [leafKeys_node] at hfresh
        exact hfresh
      obtain ⟨K2, V2, C2, heq, a1, a2, a3, a4, a5, a6, a7, a8, a9, a10⟩ :=
        insertNonFull_node_step t ht d (d + 1) ks vs cs none none k v
          (fun m lo' hi' hh1 hh2 hh3 hh4 hh5 =>
            insertNonFull_wf t ht d (d + 1) m lo' hi' k v (by omega) hh1 hh2 hh3 hh4 hh5)
          h1 h2 h3 (fun x _ => ⟨trivial, trivial⟩) hroutF hseq trivial trivial hfrF
      rw [heq]
      refine ⟨⟨d, a1, a2, a3, by omega, by omega, ?_, a8⟩, ?_, ?_⟩
      · intro x hx
        rw [leafKeys_node]
        exact a7 x hx
      · intro x
        rw [leafKeys_node, leafKeys_node]
        exact a9 x
      · intro p hp
        exact a10 p hp

theorem insert_row_mapping_wf_dup (t : Nat) (tr : BNode) (hwf : WFroot t tr)
    (k v v' : Nat) (hsv : BNode.searchVal k tr = some v') :
    WFroot t (insert_row_mapping t tr k v)
    ∧ (insert_row_mapping t tr k v).leafKeys = tr.leafKeys := by
  rw [insert_row_mapping_found_eq t tr k v v' hsv]
  exact updateFound_WFroot t k v tr hwf

end Inno
namespace Inno

/-- `BPlusTree.insert_row_mapping` applied to a whole sequence of
(row_id, page_id) insertions, starting from the fresh tree of
`BPlusTree.__init__` (a single empty leaf as root). -/
def insertAll (t : Nat) (ops : List (Nat × Nat)) : BNode :=
  ops.foldl (fun tr op => insert_row_mapping t tr op.1 op.2) (.leaf [] [])

theorem WFroot_uniformDepth (t : Nat) (tr : BNode) (h : WFroot t tr) :
    (BNode.uniformDepth tr).isSome = true := by
  cases tr with
  | leaf ks vs => rw [BNode.uniformDepth]; rfl
  | node ks vs cs =>
    obtain ⟨d, _, _, hclen, _, _, _, hseq⟩ := h
    rw [uniformDepth_node]
    have hmem : ∀ x ∈ cs.map BNode.uniformDepth, x = some d := by
      intro x hx
      obtain ⟨c, hc, rfl⟩ := List.mem_map.mp hx
      obtain ⟨lo', hi', hP⟩ := wfSeq_mem hseq c hc
      exact wfAux_uniformDepth t d c lo' hi' hP
    cases hcs : cs.map BNode.uniformDepth with
    | nil =>
      rw [List.map_eq_nil_iff.mp hcs] at hclen
      simp at hclen
    | cons a rest =>
      have ha : a = some d := hmem a (by rw [hcs]; simp)
      rw [ha]
      have hrest : rest.all (· = some d) = true := by
        rw [List.all_eq_true]
        intro x hx
        simp only [decide_eq_true_eq]
        exact hmem x (by rw [hcs]; simp [hx])
      simp [hrest]

theorem WFroot_minFillRoot (t : Nat) (tr : BNode) (h : WFroot t tr) :
    BNode.minFillRoot t tr = true := by
  cases tr with
  | leaf ks vs => rw [BNode.minFillRoot]
  | node ks vs cs =>
    obtain ⟨d, _, _, _, _, _, _, hseq⟩ := h
    rw [minFillRoot_node, List.all_eq_true]
    intro x hx
    obtain ⟨c, hc, rfl⟩ := List.mem_map.mp hx
    obtain ⟨lo', hi', hP⟩ := wfSeq_mem hseq c hc
    simpa using wfAux_minFillFrom t d c lo' hi' hP

theorem WFroot_sortedWithin (t : Nat) (tr : BNode) (h : WFroot t tr) :
    BNode.sortedWithin tr = true := by
  cases tr with
  | leaf ks vs => rw [BNode.sortedWithin]; exact h.1
  | node ks vs cs =>
    obtain ⟨d, hasc, _, _, _, _, _, hseq⟩ := h
    rw [sortedWithin_node, Bool.and_eq_true]
    refine ⟨hasc, ?_⟩
    rw [List.all_eq_true]
    intro x hx
    obtain ⟨c, hc, rfl⟩ := List.mem_map.mp hx
    obtain ⟨lo', hi', hP⟩ := wfSeq_mem hseq c hc
    simpa using wfAux_sortedWithin t d c lo' hi' hP

theorem WFroot_leafKeys_asc (t : Nat) (tr : BNode) (h : WFroot t tr) :
    ascChain tr.leafKeys = true := by
  cases tr with
  | leaf ks vs => rw [BNode.leafKeys]; exact h.1
  | node ks vs cs =>
    obtain ⟨d, hasc, _, _, _, _, _, hseq⟩ := h
    rw [leafKeys_node]
    refine (ascChain_iff_pairwise _).mpr ?_
    exact wfSeq_leafKeys_asc t d (wfAux_leafKeys_asc t d) ks cs none none hseq
      ((ascChain_iff_pairwise ks).mp hasc) (fun x _ => ⟨trivial, trivial⟩)

theorem insertAll_go (t : Nat) (ht : 2 ≤ t) :
    ∀ (ops : List (Nat × Nat)) (tr : BNode) (S : List Nat),
      WFroot t tr → (∀ x, x ∈ tr.leafKeys ↔ x ∈ S) →
      WFroot t (ops.foldl (fun tr op => insert_row_mapping t tr op.1 op.2) tr)
      ∧ (∀ x, x ∈ (ops.foldl (fun tr op => insert_row_mapping t tr op.1 op.2) tr).leafKeys
          ↔ x ∈ S ++ ops.map Prod.fst)
  | [], tr, S, hwf, hiff => ⟨hwf, by simpa using hiff⟩
  | (k, v) :: ops, tr, S, hwf, hiff => by
    rw [List.foldl_cons]
    by_cases hk : k ∈ tr.leafKeys
    · have hs := searchVal_complete_root t tr k hwf hk
      obtain ⟨v', hv'⟩ := Option.isSome_iff_exists.mp hs
      obtain ⟨hwf', hlk⟩ := insert_row_mapping_wf_dup t tr hwf k v v' hv'
      have hiff' : ∀ x, x ∈ (insert_row_mapping t tr k v).leafKeys ↔ x ∈ S ++ [k] := by
        intro x
        rw [hlk, hiff x, List.mem_append, List.mem_singleton]
        constructor
        · exact Or.inl
        · rintro (h | rfl)
          · exact h
          · exact (hiff x).mp hk
      have hrec := insertAll_go t ht ops (insert_row_mapping t tr k v) (S ++ [k]) hwf' hiff'
      refine ⟨hrec.1, ?_⟩
      intro x
      rw [hrec.2 x]
      simp only [List.mem_append, List.mem_singleton, List.map_cons, List.mem_cons]
      tauto
    · obtain ⟨hwf', hiffI, _⟩ := insert_row_mapping_wf_fresh t ht tr hwf k v hk
      have hiff' : ∀ x, x ∈ (insert_row_mapping t tr k v).leafKeys ↔ x ∈ S ++ [k] := by
        intro x
        rw [hiffI x, hiff x, List.mem_append, List.mem_singleton]
        tauto
      have hrec := insertAll_go t ht ops (insert_row_mapping t tr k v) (S ++ [k]) hwf' hiff'
      refine ⟨hrec.1, ?_⟩
      intro x
      rw [hrec.2 x]
      simp only [List.mem_append, List.mem_singleton, List.map_cons, List.mem_cons]
      tauto

theorem insertAll_WFroot (t : Nat) (ht : 2 ≤ t) (ops : List (Nat × Nat)) :
    WFroot t (insertAll t ops)
    ∧ (∀ x, x ∈ (insertAll t ops).leafKeys ↔ x ∈ ops.map Prod.fst) := by
  have hwf0 : WFroot t (BNode.leaf [] []) := ⟨rfl, rfl, by simp⟩
  have hiff0 : ∀ x, x ∈ (BNode.leaf [] [] : BNode).leafKeys ↔ x ∈ ([] : List Nat) := by
    intro x
    rw [BNode.leafKeys]
  have h := insertAll_go t ht ops (.leaf [] []) [] hwf0 hiff0
  rw [insertAll]
  refine ⟨h.1, ?_⟩
  intro x
  rw [h.2 x]
  simp

/-- C5: for every sequence of insertions into a B+ tree of minimum degree
t ≥ 2 (each insertion by `insert_row_mapping`, starting from the fresh
single-leaf root of `BPlusTree.__init__`), the resulting tree has all
leaves at equal depth (`uniformDepth` is some d), every non-root node holds
at least t − 1 keys (`minFillRoot`), keys within each node are strictly
ascending (`sortedWithin`), and the left-to-right leaf enumeration
(`leafKeys`, the order the leaf link chain visits) is strictly ascending
and contains exactly the inserted keys.  Since the sequence is arbitrary,
this holds after each insertion of any run. -/
theorem c5_insert_sequence_btree_invariants (t : Nat) (ht : 2 ≤ t)
    (ops : List (Nat × Nat)) :
    (BNode.uniformDepth (insertAll t ops)).isSome = true
    ∧ BNode.minFillRoot t (insertAll t ops) = true
    ∧ BNode.sortedWithin (insertAll t ops) = true
    ∧ ascChain (insertAll t ops).leafKeys = true
    ∧ (∀ x, x ∈ (insertAll t ops).leafKeys ↔ x ∈ ops.map Prod.fst) := by
  obtain ⟨hwf, hiff⟩ := insertAll_WFroot t ht ops
  exact ⟨WFroot_uniformDepth t _ hwf, WFroot_minFillRoot t _ hwf,
    WFroot_sortedWithin t _ hwf, WFroot_leafKeys_asc t _ hwf, hiff⟩

/-- Witness for C5: six insertions at t = 2 (enough to split the root
twice), with the hypothesis 2 ≤ t discharged at t = 2 and the membership
conjunct instantiated at key 5. -/
theorem c5_insert_sequence_btree_invariants_witness :
    2 ≤ 2
    ∧ (BNode.uniformDepth (insertAll 2 [(5, 50), (1, 10), (4, 40), (2, 20), (3, 30), (6, 60)])).isSome = true
    ∧ BNode.minFillRoot 2 (insertAll 2 [(5, 50), (1, 10), (4, 40), (2, 20), (3, 30), (6, 60)]) = true
    ∧ BNode.sortedWithin (insertAll 2 [(5, 50), (1, 10), (4, 40), (2, 20), (3, 30), (6, 60)]) = true
    ∧ ascChain (insertAll 2 [(5, 50), (1, 10), (4, 40), (2, 20), (3, 30), (6, 60)]).leafKeys = true
    ∧ (5 ∈ (insertAll 2 [(5, 50), (1, 10), (4, 40), (2, 20), (3, 30), (6, 60)]).leafKeys
        ↔ 5 ∈ ([(5, 50), (1, 10), (4, 40), (2, 20), (3, 30), (6, 60)].map Prod.fst)) := by
  have h := c5_insert_sequence_btree_invariants 2 (by decide)
    [(5, 50), (1, 10), (4, 40), (2, 20), (3, 30), (6, 60)]
  exact ⟨by decide, h.1, h.2.1, h.2.2.1, h.2.2.2.1, h.2.2.2.2 5⟩

end Inno
namespace Inno

/-- `Operation.rows_per_page` (operation.py line 14): max rows per page. -/
def rows_per_page : Nat := 10

/-- The state reached through an `Operation` object: the shared disk /
doublewrite buffer / buffer pool (`Sys`), the B+ tree index, and the
page-allocation cursor `current_page_id` (operation.py lines 9-15). -/
structure OpState where
  sys : Sys
  index : BNode
  current_page_id : Nat
deriving Repr

namespace Operation

/-- `Operation.get_page_id` (lines 17-23): the index lookup. -/
def get_page_id (st : OpState) (row_id : Nat) : Option Nat :=
  Inno.get_page_id st.index row_id

/-- The shared fallthrough of `_get_current_page_id_from_disk` (lines
101-106): 1 on an empty disk, else max key + 1. -/
def freshDiskId (st : OpState) : Nat :=
  if st.sys.disk.pages.length > 0 then (st.sys.disk.pages.map Prod.fst).foldl max 0 + 1
  else 1

/-- `Operation._get_current_page_id_from_disk` (lines 94-108). -/
def get_current_page_id_from_disk (st : OpState) : Nat :=
  match dictGet st.sys.disk.pages st.current_page_id with
  | some current_page =>
    if current_page.rows.length < rows_per_page then st.current_page_id
    else freshDiskId st
  | none => freshDiskId st

/-- The fallthrough of `_get_current_page_id_from_buffer_pool` (lines
116-121): 1 on an empty pool, else max pooled page id + 1. -/
def freshPoolId (st : OpState) : Nat :=
  if st.sys.pool.lru.length > 0 then (st.sys.pool.lru.map Page.page_id).foldl max 0 + 1
  else 1

/-- `Operation._get_current_page_id_from_buffer_pool` (lines 110-123). -/
def get_current_page_id_from_buffer_pool (st : OpState) : Nat :=
  match st.sys.pool.find st.current_page_id with
  | some current_page =>
    if current_page.rows.length < rows_per_page then st.current_page_id
    else freshPoolId st
  | none => freshPoolId st

/-- `Operation.allocate_page_for_row` (lines 125-131): the max of the two
candidates, stored back into `current_page_id`. -/
def allocate_page_for_row (st : OpState) : OpState × Nat :=
  let pid := max (get_current_page_id_from_disk st) (get_current_page_id_from_buffer_pool st)
  ({ st with current_page_id := pid }, pid)

/-- `Operation.get_row` (lines 25-38).  The second raise (row on page
missing) fires after `release_page` already ran; every run below keeps the
invariant that an indexed row is present on its page, so that path never
executes and dropping its state is immaterial. -/
def get_row (st : OpState) (row_id : Nat) : Except Err (OpState × Row) :=
  match get_page_id st row_id with
  | none => .error .rowMissing
  | some page_id => do
    let sp ← st.sys.load_page page_id
    let row := dictGet sp.2.rows row_id
    let s2 ← sp.1.release_page page_id
    match row with
    | none => .error .rowMissing
    | some r => .ok ({ st with sys := s2 }, r)

/-- `Operation.update_row` (lines 85-91).  `page.rows[row_id] = row` writes
through the alias into the pooled object. -/
def update_row (st : OpState) (row_id : Nat) (row : Row) (page_id : Nat) :
    Except Err OpState := do
  let sp ← st.sys.load_page page_id
  let pool1 := sp.1.pool.updatePage page_id (fun q => { q with rows := dictSet q.rows row_id row })
  let s1 := { sp.1 with pool := pool1 }
  let s2 ← s1.mark_dirty page_id
  let s3 ← s2.release_page page_id
  .ok { st with sys := s3 }

/-- The continuation both arms of `insert_row`'s try/except share (lines
64-71): put the row into the (pooled) page, mark dirty, release, and record
the mapping in the index. -/
def insert_row_finish (t : Nat) (st : OpState) (row : Row) (page_id : Nat) :
    Except Err OpState := do
  let pool1 := st.sys.pool.updatePage page_id (fun q => { q with rows := dictSet q.rows row.rid row })
  let s1 := { st.sys with pool := pool1 }
  let s2 ← s1.mark_dirty page_id
  let s3 ← s2.release_page page_id
  .ok { st with sys := s3, index := insert_row_mapping t st.index row.rid page_id }

/-- `Operation.insert_row` (lines 40-73).  An already-indexed id is routed
to `update_row`; otherwise a page is allocated and loaded, and when
`load_page` raises (`except Exception`, line 58) — which on every raising
path happens before any state mutation — the page is created fresh, written
to disk, admitted to the pool and pinned (lines 59-63). -/
def insert_row (t : Nat) (st : OpState) (row : Row) (next_lsn : Nat) :
    Except Err OpState :=
  match get_page_id st row.rid with
  | some existing_page_id => update_row st row.rid row existing_page_id
  | none =>
    let ap := allocate_page_for_row st
    match ap.1.sys.load_page ap.2 with
    | .ok sp => insert_row_finish t { ap.1 with sys := sp.1 } row ap.2
    | .error _ =>
      let page : Page := { page_id := ap.2, rows := [], page_lsn := next_lsn }
      let s := { ap.1.sys with disk := ap.1.sys.disk.write_page page }
      match s.add_page_to_memory page with
      | .error e => .error e
      | .ok s2 =>
        let pool2 := s2.pool.updatePage ap.2 (fun q => { q with pin_count := q.pin_count + 1 })
        let s3 := { s2 with pool := pool2 }
        insert_row_finish t { ap.1 with sys := s3 } row ap.2

/-- `Operation.delete_row` (lines 75-84): load (and pin) the page, and only
when the row is present delete it, mark dirty, release and unmap — the
absent-row branch returns without `release_page`. -/
def delete_row (st : OpState) (row_id page_id : Nat) : Except Err OpState := do
  let sp ← st.sys.load_page page_id
  if dictHas sp.2.rows row_id then do
    let pool1 := sp.1.pool.updatePage page_id (fun q => { q with rows := dictDel q.rows row_id })
    let s1 := { sp.1 with pool := pool1 }
    let s2 ← s1.mark_dirty page_id
    let s3 ← s2.release_page page_id
    .ok { st with sys := s3, index := delete_row_mapping st.index row_id }
  else
    .ok { st with sys := sp.1 }

end Operation

/-- The C9 failing input: page 1 sits on disk with a single row 1 and pin
count 0, the pool is empty, and `delete_row(5, 1)` asks for a row that is
not on the page. -/
def c9_before : OpState :=
  { sys :=
      { disk := { pages := [(1, { page_id := 1, rows := [(1, { rid := 1, payload := [7] })], page_lsn := 0 })] }
        dwb := {}
        pool := { capacity := 2 } }
    index := .leaf [] []
    current_page_id := 1 }

/-- C9: the claim — delete_row leaves the target page's pin count unchanged
on every control path — fails on the absent-row path: on `c9_before` the
page starts unpooled with pin count 0 (its disk copy), `delete_row 5 1`
returns normally, and the pooled page afterwards has pin count 1: the
load_page pin is never released because the early return skips
release_page (operation.py lines 75-84). -/
theorem c9_delete_row_absent_row_leaks_pin :
    (c9_before.sys.pool.find 1) = none
    ∧ (dictGet c9_before.sys.disk.pages 1).map Page.pin_count = some 0
    ∧ ((Operation.delete_row c9_before 5 1).toOption.map
        (fun st' => (st'.sys.pool.find 1).map Page.pin_count)) = some (some 1) := by
  refine ⟨rfl, rfl, ?_⟩
  decide

end Inno
namespace Inno

theorem dictGet_dictSet_self {α : Type} (l : List (Nat × α)) (k : Nat) (v : α) :
    dictGet (dictSet l k v) k = some v := by
  induction l with
  | nil => simp [dictSet, dictGet]
  | cons pr l ih =>
    by_cases h : pr.1 = k
    · rw [dictSet, if_pos h, dictGet, if_pos rfl]
    · rw [dictSet, if_neg h, dictGet, if_neg h]
      exact ih

theorem dictGet_dictSet_ne {α : Type} (l : List (Nat × α)) (k : Nat) (v : α)
    (k' : Nat) (h : k' ≠ k) : dictGet (dictSet l k v) k' = dictGet l k' := by
  induction l with
  | nil =>
    simp only [dictSet, dictGet]
    rw [if_neg (by omega)]
  | cons pr l ih =>
    by_cases hp : pr.1 = k
    · rw [dictSet, if_pos hp, dictGet, if_neg (by omega), dictGet, if_neg (by omega)]
    · rw [dictSet, if_neg hp, dictGet, dictGet]
      by_cases hp' : pr.1 = k'
      · rw [if_pos hp', if_pos hp']
      · rw [if_neg hp', if_neg hp']
        exact ih

theorem mem_dictSet {α : Type} (l : List (Nat × α)) (k : Nat) (v : α) :
    ∀ pr ∈ dictSet l k v, pr = (k, v) ∨ pr ∈ l := by
  induction l with
  | nil =>
    intro pr hpr
    rw [dictSet] at hpr
    simpa using hpr
  | cons q l ih =>
    intro pr hpr
    by_cases h : q.1 = k
    · rw [dictSet, if_pos h] at hpr
      rcases List.mem_cons.mp hpr with rfl | hpr'
      · exact Or.inl rfl
      · exact Or.inr (List.mem_cons_of_mem q hpr')
    · rw [dictSet, if_neg h] at hpr
      rcases List.mem_cons.mp hpr with rfl | hpr'
      · exact Or.inr (List.mem_cons_self _ _)
      · rcases ih pr hpr' with h1 | h1
        · exact Or.inl h1
        · exact Or.inr (List.mem_cons_of_mem q h1)

theorem find?_filter_of_imp {α : Type} (p f : α → Bool)
    (h : ∀ x, p x = true → f x = true) :
    ∀ l : List α, (l.filter f).find? p = l.find? p
  | [] => rfl
  | x :: l => by
    by_cases hf : f x = true
    · rw [List.filter_cons_of_pos hf]
      by_cases hp : p x = true
      · rw [List.find?_cons_of_pos _ hp, List.find?_cons_of_pos _ hp]
      · rw [List.find?_cons_of_neg _ (by simpa using hp),
          List.find?_cons_of_neg _ (by simpa using hp)]
        exact find?_filter_of_imp p f h l
    · have hp : ¬ p x = true := fun hpx => hf (h x hpx)
      rw [List.filter_cons_of_neg (by simpa using hf),
        List.find?_cons_of_neg _ (by simpa using hp)]
      exact find?_filter_of_imp p f h l

theorem find_pid_eq_of_mem {l : List Page} (hnd : (l.map Page.page_id).Nodup)
    {v : Page} (hv : v ∈ l) : l.find? (fun p => p.page_id == v.page_id) = some v := by
  induction l with
  | nil => cases hv
  | cons x l ih =>
    rw [List.map_cons, List.nodup_cons] at hnd
    rcases List.mem_cons.mp hv with rfl | hv'
    · rw [List.find?_cons_of_pos _ (by simp)]
    · by_cases hx : x.page_id = v.page_id
      · exact absurd (hx ▸ List.mem_map_of_mem Page.page_id hv') hnd.1
      · rw [List.find?_cons_of_neg _ (by simpa using hx)]
        exact ih hnd.2 hv'

theorem find_updatePage (bp : BufferPool) (pid q : Nat) (f : Page → Page)
    (hf : ∀ p, (f p).page_id = p.page_id) :
    (bp.updatePage pid f).find q
      = (bp.find q).map (fun p => if p.page_id = pid then f p else p) := by
  rw [BufferPool.updatePage, BufferPool.find, BufferPool.find]
  show (bp.lru.map fun p => if p.page_id = pid then f p else p).find?
      (fun p => p.page_id == q) = _
  rw [List.find?_map]
  have hpred : ((fun p : Page => p.page_id == q)
      ∘ fun p => if p.page_id = pid then f p else p) = fun p => p.page_id == q := by
    funext p
    simp only [Function.comp]
    by_cases h : p.page_id = pid
    · rw [if_pos h, hf]
    · rw [if_neg h]
  rw [hpred]

theorem filter_out_unique {l1 l2 : List Page} {v : Page}
    (hnd : ((l1 ++ v :: l2).map Page.page_id).Nodup) :
    (l1 ++ v :: l2).filter (fun p => p.page_id ≠ v.page_id) = l1 ++ l2 := by
  rw [List.map_append, List.map_cons] at hnd
  have hnd2 := List.nodup_middle.mp hnd
  have hvnotin := (List.nodup_cons.mp hnd2).1
  rw [List.filter_append, List.filter_cons_of_neg (by simp)]
  rw [List.filter_eq_self.mpr, List.filter_eq_self.mpr]
  · intro a ha
    have : a.page_id ≠ v.page_id := by
      intro he
      refine hvnotin ?_
      rw [← he]
      exact List.mem_append.mpr (Or.inr (List.mem_map_of_mem _ ha))
    simpa using this
  · intro a ha
    have : a.page_id ≠ v.page_id := by
      intro he
      refine hvnotin ?_
      rw [← he]
      exact List.mem_append.mpr (Or.inl (List.mem_map_of_mem _ ha))
    simpa using this

/-- What `load_page` serves for a page id: the pooled object when pooled,
otherwise the disk copy. -/
def pageView (s : Sys) (pid : Nat) : Option Page :=
  match s.pool.find pid with
  | some p => some p
  | none => dictGet s.disk.pages pid

theorem pageView_pool {s : Sys} {pid : Nat} {p : Page} (h : s.pool.find pid = some p) :
    pageView s pid = some p := by
  rw [pageView, h]

theorem pageView_disk {s : Sys} {pid : Nat} (h : s.pool.find pid = none) :
    pageView s pid = dictGet s.disk.pages pid := by
  rw [pageView, h]

theorem write_page_pages (d : Disk) (p : Page) :
    (d.write_page p).pages = dictSet d.pages p.page_id p := rfl

/-- The between-operations invariant of the memory subsystem: no page is
pinned, disk copies carry pin count 0, clean pooled pages agree with their
disk copy on content, pooled page ids are distinct (the source keeps the
LRU list and the id dict in sync), and the pool has at least one frame
(the engine constructs it with capacity 5). -/
structure SysInv (s : Sys) : Prop where
  pins : ∀ q ∈ s.pool.lru, q.pin_count = 0
  dpins : ∀ pr ∈ s.disk.pages, (pr : Nat × Page).2.pin_count = 0
  dkeys : ∀ pr ∈ s.disk.pages, (pr : Nat × Page).2.page_id = pr.1
  csync : ∀ q ∈ s.pool.lru, q.dirty = false →
    ∃ pd, dictGet s.disk.pages q.page_id = some pd ∧ pd.rows = q.rows
  nodup : (s.pool.lru.map Page.page_id).Nodup
  cap : 1 ≤ s.pool.capacity

theorem evict_page_spec (s : Sys) (hinv : SysInv s) (hne : s.pool.lru ≠ []) :
    ∃ s', s.evict_page = .ok s'
      ∧ (∀ q, (pageView s' q).map Page.rows = (pageView s q).map Page.rows)
      ∧ SysInv s'
      ∧ s'.pool.capacity = s.pool.capacity
      ∧ s'.pool.lru.length + 1 = s.pool.lru.length
      ∧ (∀ q ∈ s'.pool.lru, q ∈ s.pool.lru) := by
  have hvic : ∃ v, s.pool.evictVictim = some v := by
    rw [BufferPool.evictVictim]
    cases hrev : s.pool.lru.reverse with
    | nil => exact absurd (by simpa using hrev) hne
    | cons x xs =>
      refine ⟨x, ?_⟩
      rw [List.find?_cons_of_pos _ ?_]
      have hx : x ∈ s.pool.lru := by
        rw [← List.mem_reverse, hrev]
        exact List.mem_cons_self _ _
      simpa using hinv.pins x hx
  obtain ⟨v, hv⟩ := hvic
  have hvmem : v ∈ s.pool.lru := by
    have := List.mem_of_find?_eq_some hv
    rwa [List.mem_reverse] at this
  have hfnone : (s.pool.lru.filter (fun p => p.page_id ≠ v.page_id)).find?
      (fun p => p.page_id == v.page_id) = none := by
    rw [List.find?_eq_none]
    intro x hx
    have := List.of_mem_filter hx
    simpa using this
  have hfq : ∀ q, q ≠ v.page_id →
      (s.pool.lru.filter (fun p => p.page_id ≠ v.page_id)).find?
        (fun p => p.page_id == q) = s.pool.lru.find? (fun p => p.page_id == q) := by
    intro q hq
    refine find?_filter_of_imp _ _ ?_ _
    intro x hx
    rw [beq_iff_eq] at hx
    simpa [hx] using hq
  have hfv : s.pool.lru.find? (fun p => p.page_id == v.page_id) = some v :=
    find_pid_eq_of_mem hinv.nodup hvmem
  have hlen : (s.pool.lru.filter (fun p => p.page_id ≠ v.page_id)).length + 1
      = s.pool.lru.length := by
    obtain ⟨l1, l2, hdec⟩ := List.append_of_mem hvmem
    have hnd2 : ((l1 ++ v :: l2).map Page.page_id).Nodup := hdec ▸ hinv.nodup
    rw [hdec, filter_out_unique hnd2]
    simp
    omega
  have hsub : ∀ q ∈ s.pool.lru.filter (fun p => p.page_id ≠ v.page_id),
      q ∈ s.pool.lru := fun q hq => List.mem_of_mem_filter hq
  by_cases hvd : v.dirty = true
  · set sres : Sys :=
      { s with dwb := ((s.dwb.add_page v).fsync).clear
               disk := s.disk.write_page v
               pool := { s.pool with
                 lru := s.pool.lru.filter (fun p => p.page_id ≠ v.page_id) } } with hsres
    have heva : s.evict_page = .ok sres := by
      rw [hsres]
      simp [Sys.evict_page, hv, hvd]
    have hfnone1 : sres.pool.find v.page_id = none := hfnone
    refine ⟨sres, heva, ?_, ⟨?_, ?_, ?_, ?_, ?_, hinv.cap⟩, rfl, hlen, hsub⟩
    · intro q
      by_cases hq : q = v.page_id
      · subst hq
        have h2 : s.pool.find v.page_id = some v := hfv
        have h3 : sres.disk.pages = dictSet s.disk.pages v.page_id v := rfl
        rw [pageView_disk hfnone1, pageView_pool h2, h3, dictGet_dictSet_self]
      · cases hfind : s.pool.lru.find? (fun p => p.page_id == q) with
        | some p =>
          have h2 : sres.pool.find q = some p := (hfq q hq).trans hfind
          have h3 : s.pool.find q = some p := hfind
          rw [pageView_pool h2, pageView_pool h3]
        | none =>
          have h2 : sres.pool.find q = none := (hfq q hq).trans hfind
          have h3 : s.pool.find q = none := hfind
          have h4 : sres.disk.pages = dictSet s.disk.pages v.page_id v := rfl
          rw [pageView_disk h2, pageView_disk h3, h4,
            dictGet_dictSet_ne _ _ _ _ hq]
    · intro q hq
      exact hinv.pins q (hsub q hq)
    · intro pr hpr
      rcases mem_dictSet _ _ _ pr hpr with rfl | h
      · exact hinv.pins v hvmem
      · exact hinv.dpins pr h
    · intro pr hpr
      rcases mem_dictSet _ _ _ pr hpr with rfl | h
      · rfl
      · exact hinv.dkeys pr h
    · intro q hq hqd
      obtain ⟨pd, hpd1, hpd2⟩ := hinv.csync q (hsub q hq) hqd
      have hqne : q.page_id ≠ v.page_id := by simpa using List.of_mem_filter hq
      refine ⟨pd, ?_, hpd2⟩
      have h4 : sres.disk.pages = dictSet s.disk.pages v.page_id v := rfl
      rw [h4, dictGet_dictSet_ne _ _ _ _ hqne]
      exact hpd1
    · exact hinv.nodup.sublist ((List.filter_sublist _).map _)
  · set sres : Sys :=
      { s with pool := { s.pool with
          lru := s.pool.lru.filter (fun p => p.page_id ≠ v.page_id) } } with hsres
    have heva : s.evict_page = .ok sres := by
      rw [hsres]
      rw [Bool.not_eq_true] at hvd
      simp [Sys.evict_page, hv, hvd]
    rw [Bool.not_eq_true] at hvd
    obtain ⟨pd, hpd1, hpd2⟩ := hinv.csync v hvmem hvd
    have hfnone1 : sres.pool.find v.page_id = none := hfnone
    refine ⟨sres, heva, ?_, ⟨?_, hinv.dpins, hinv.dkeys, ?_, ?_, hinv.cap⟩, rfl, hlen,
      hsub⟩
    · intro q
      by_cases hq : q = v.page_id
      · subst hq
        have h2 : s.pool.find v.page_id = some v := hfv
        have h3 : sres.disk.pages = s.disk.pages := rfl
        rw [pageView_disk hfnone1, pageView_pool h2, h3, hpd1]
        simp [hpd2]
      · cases hfind : s.pool.lru.find? (fun p => p.page_id == q) with
        | some p =>
          have h2 : sres.pool.find q = some p := (hfq q hq).trans hfind
          have h3 : s.pool.find q = some p := hfind
          rw [pageView_pool h2, pageView_pool h3]
        | none =>
          have h2 : sres.pool.find q = none := (hfq q hq).trans hfind
          have h3 : s.pool.find q = none := hfind
          have h4 : sres.disk.pages = s.disk.pages := rfl
          rw [pageView_disk h2, pageView_disk h3, h4]
    · intro q hq
      exact hinv.pins q (hsub q hq)
    · intro q hq hqd
      exact hinv.csync q (hsub q hq) hqd
    · exact hinv.nodup.sublist ((List.filter_sublist _).map _)

end Inno
namespace Inno

theorem mem_unique_of_nodup {l : List Page} (hnd : (l.map Page.page_id).Nodup)
    {x y : Page} (hx : x ∈ l) (hy : y ∈ l) (hxy : x.page_id = y.page_id) : x = y := by
  have h1 := find_pid_eq_of_mem hnd hx
  have h2 := find_pid_eq_of_mem hnd hy
  rw [hxy] at h1
  rw [h1] at h2
  exact Option.some.inj h2

theorem updatePage_ids (bp : BufferPool) (pid : Nat) (f : Page → Page)
    (hf : ∀ p, (f p).page_id = p.page_id) :
    (bp.updatePage pid f).lru.map Page.page_id = bp.lru.map Page.page_id := by
  rw [BufferPool.updatePage]
  show (bp.lru.map fun p => if p.page_id = pid then f p else p).map Page.page_id = _
  rw [List.map_map]
  refine List.map_congr_left ?_
  intro p _
  simp only [Function.comp]
  by_cases h : p.page_id = pid
  · rw [if_pos h, hf]
  · rw [if_neg h]

theorem mem_updatePage (bp : BufferPool) (pid : Nat) (f : Page → Page) :
    ∀ x ∈ (bp.updatePage pid f).lru, ∃ y ∈ bp.lru,
      x = if y.page_id = pid then f y else y := by
  intro x hx
  obtain ⟨y, hy, rfl⟩ := List.mem_map.mp hx
  exact ⟨y, hy, rfl⟩

/-- The mid-operation invariant while the page `pid` is pinned: like
`SysInv`, but pin count and clean-sync are only constrained away from
`pid`. -/
structure MidInv (s : Sys) (pid : Nat) : Prop where
  pins : ∀ x ∈ s.pool.lru, x.page_id ≠ pid → x.pin_count = 0
  dpins : ∀ pr ∈ s.disk.pages, (pr : Nat × Page).2.pin_count = 0
  dkeys : ∀ pr ∈ s.disk.pages, (pr : Nat × Page).2.page_id = pr.1
  csync : ∀ x ∈ s.pool.lru, x.page_id ≠ pid → x.dirty = false →
    ∃ pd, dictGet s.disk.pages x.page_id = some pd ∧ pd.rows = x.rows
  nodup : (s.pool.lru.map Page.page_id).Nodup
  cap : 1 ≤ s.pool.capacity

theorem SysInv.toMid {s : Sys} (h : SysInv s) (pid : Nat) : MidInv s pid :=
  ⟨fun x hx _ => h.pins x hx, h.dpins, h.dkeys,
    fun x hx _ hd => h.csync x hx hd, h.nodup, h.cap⟩

theorem add_page_to_memory_spec (s : Sys) (hinv : SysInv s) (p : Page)
    (hmiss : s.pool.find p.page_id = none) (hpin : p.pin_count = 0)
    (hclean : p.dirty = false →
      ∃ pd, dictGet s.disk.pages p.page_id = some pd ∧ pd.rows = p.rows) :
    ∃ s', s.add_page_to_memory p = .ok s'
      ∧ s'.pool.find p.page_id = some p
      ∧ (∀ q, q ≠ p.page_id →
          (pageView s' q).map Page.rows = (pageView s q).map Page.rows)
      ∧ SysInv s'
      ∧ s'.pool.capacity = s.pool.capacity := by
  obtain ⟨s1, hs1eq, hpv1, hinv1, hcap1, hsub1⟩ :
      ∃ s1, (if s.pool.size = s.pool.capacity then s.evict_page else .ok s) = .ok s1
        ∧ (∀ q, (pageView s1 q).map Page.rows = (pageView s q).map Page.rows)
        ∧ SysInv s1 ∧ s1.pool.capacity = s.pool.capacity
        ∧ (∀ x ∈ s1.pool.lru, x ∈ s.pool.lru) := by
    by_cases hfull : s.pool.size = s.pool.capacity
    · rw [if_pos hfull]
      have hne : s.pool.lru ≠ [] := by
        intro hc
        rw [BufferPool.size, hc] at hfull
        have := hinv.cap
        simp at hfull
        omega
      obtain ⟨s1, h1, h2, h3, h4, _, h6⟩ := evict_page_spec s hinv hne
      exact ⟨s1, h1, h2, h3, h4, h6⟩
    · rw [if_neg hfull]
      exact ⟨s, rfl, fun q => rfl, hinv, rfl, fun x hx => hx⟩
  have hnopid : ∀ x ∈ s1.pool.lru, x.page_id ≠ p.page_id := by
    intro x hx
    have hxs := hsub1 x hx
    have := List.find?_eq_none.mp hmiss x hxs
    simpa using this
  have heq : s.add_page_to_memory p
      = .ok { s1 with pool := { s1.pool with lru := p :: s1.pool.lru } } := by
    rw [Sys.add_page_to_memory]
    simp only [hmiss, Option.isSome_none, Bool.false_eq_true, if_false,
      Bind.bind, Except.bind, Pure.pure, Except.pure]
    by_cases hfull : s.pool.size = s.pool.capacity
    · rw [if_pos hfull] at hs1eq ⊢
      rw [hs1eq]
    · rw [if_neg hfull] at hs1eq ⊢
      injection hs1eq with h
      rw [h]
  have hfind : ({ s1 with pool := { s1.pool with lru := p :: s1.pool.lru } } : Sys).pool.find
      p.page_id = some p := by
    show (p :: s1.pool.lru).find? (fun q => q.page_id == p.page_id) = some p
    rw [List.find?_cons_of_pos _ (by simp)]
  refine ⟨_, heq, hfind, ?_, ⟨?_, hinv1.dpins, hinv1.dkeys, ?_, ?_, by rw [hcap1]; exact hinv.cap⟩, hcap1⟩
  · intro q hq
    have hfq : ({ s1 with pool := { s1.pool with lru := p :: s1.pool.lru } } : Sys).pool.find q
        = s1.pool.find q := by
      show (p :: s1.pool.lru).find? (fun x => x.page_id == q) = _
      rw [List.find?_cons_of_neg _ (by simpa using (fun h => hq h.symm))]
      rfl
    have h5 : pageView { s1 with pool := { s1.pool with lru := p :: s1.pool.lru } } q
        = pageView s1 q := by
      cases hf1 : s1.pool.find q with
      | some x => rw [pageView_pool (hfq.trans hf1), pageView_pool hf1]
      | none => rw [pageView_disk (hfq.trans hf1), pageView_disk hf1]
    rw [h5]
    exact hpv1 q
  · intro x hx
    rcases List.mem_cons.mp hx with rfl | hx'
    · exact hpin
    · exact hinv1.pins x hx'
  · intro x hx hxd
    rcases List.mem_cons.mp hx with rfl | hx'
    · obtain ⟨pd0, hpd0, hpd0r⟩ := hclean hxd
      have hview : (pageView s1 x.page_id).map Page.rows
          = (pageView s x.page_id).map Page.rows := hpv1 x.page_id
      have hfs : s.pool.find x.page_id = none := hmiss
      have hfs1 : s1.pool.find x.page_id = none := by
        rw [BufferPool.find, List.find?_eq_none]
        intro y hy
        simpa using hnopid y hy
      rw [pageView_disk hfs1, pageView_disk hfs, hpd0] at hview
      cases hd1 : dictGet s1.disk.pages x.page_id with
      | none => rw [hd1] at hview; simp at hview
      | some pd1 =>
        rw [hd1] at hview
        have hview2 : pd1.rows = pd0.rows := by simpa using hview
        refine ⟨pd1, rfl, hview2.trans hpd0r⟩
    · exact hinv1.csync x hx' hxd
  · rw [List.map_cons]
    rw [List.nodup_cons]
    refine ⟨?_, hinv1.nodup⟩
    intro hmem
    obtain ⟨y, hy, hyid⟩ := List.mem_map.mp hmem
    exact hnopid y hy hyid


theorem dictGet_mem {α : Type} {l : List (Nat × α)} {k : Nat} {v : α}
    (h : dictGet l k = some v) : (k, v) ∈ l := by
  induction l with
  | nil => simp [dictGet] at h
  | cons pr l ih =>
    rw [dictGet] at h
    by_cases hp : pr.1 = k
    · rw [if_pos hp] at h
      have hv := Option.some.inj h
      have hpr : pr = (k, v) := by
        obtain ⟨a, b⟩ := pr
        simp only at hp hv
        rw [hp, hv]
      exact hpr ▸ List.mem_cons_self _ _
    · rw [if_neg hp] at h
      exact List.mem_cons_of_mem _ (ih h)

theorem find_page_id {bp : BufferPool} {pid : Nat} {p : Page}
    (h : bp.find pid = some p) : p.page_id = pid := by
  have h2 : bp.lru.find? (fun q => q.page_id == pid) = some p := h
  have := List.find?_some h2
  simpa using this

theorem find_mem {bp : BufferPool} {pid : Nat} {p : Page}
    (h : bp.find pid = some p) : p ∈ bp.lru := by
  have h2 : bp.lru.find? (fun q => q.page_id == pid) = some p := h
  exact List.mem_of_find?_eq_some h2

/-- In-place mutation of one pooled page, as the operation layer performs it
through the alias returned by `load_page`. -/
def poolSet (s : Sys) (pid : Nat) (f : Page → Page) : Sys :=
  { s with pool := s.pool.updatePage pid f }

theorem poolSet_find_self (s : Sys) (pid : Nat) (f : Page → Page) (p' : Page)
    (hf : ∀ p, (f p).page_id = p.page_id)
    (hfind : s.pool.find pid = some p') :
    (poolSet s pid f).pool.find pid = some (f p') := by
  have hpid : p'.page_id = pid := find_page_id hfind
  show (s.pool.updatePage pid f).find pid = some (f p')
  rw [find_updatePage _ _ _ _ hf, hfind]
  show some (if p'.page_id = pid then f p' else p') = some (f p')
  rw [if_pos hpid]

theorem poolSet_find_other (s : Sys) (pid : Nat) (f : Page → Page) (q : Nat)
    (hf : ∀ p, (f p).page_id = p.page_id) (hq : q ≠ pid) :
    (poolSet s pid f).pool.find q = s.pool.find q := by
  show (s.pool.updatePage pid f).find q = s.pool.find q
  rw [find_updatePage _ _ _ _ hf]
  cases hf1 : s.pool.find q with
  | none => rfl
  | some x =>
    have hxq : x.page_id = q := find_page_id hf1
    show some (if x.page_id = pid then f x else x) = some x
    rw [if_neg (by rw [hxq]; exact hq)]

theorem poolSet_pageView_other (s : Sys) (pid : Nat) (f : Page → Page) (q : Nat)
    (hf : ∀ p, (f p).page_id = p.page_id) (hq : q ≠ pid) :
    pageView (poolSet s pid f) q = pageView s q := by
  cases hf1 : s.pool.find q with
  | some x => rw [pageView_pool ((poolSet_find_other s pid f q hf hq).trans hf1),
      pageView_pool hf1]
  | none =>
    rw [pageView_disk ((poolSet_find_other s pid f q hf hq).trans hf1),
      pageView_disk hf1]
    rfl

theorem poolSet_mem (s : Sys) (pid : Nat) (f : Page → Page) :
    ∀ x ∈ (poolSet s pid f).pool.lru, ∃ y ∈ s.pool.lru,
      x = if y.page_id = pid then f y else y :=
  mem_updatePage s.pool pid f

theorem poolSet_MidInv (s : Sys) (pid : Nat) (f : Page → Page)
    (hf : ∀ p, (f p).page_id = p.page_id)
    (hmid : MidInv s pid) : MidInv (poolSet s pid f) pid := by
  refine ⟨?_, hmid.dpins, hmid.dkeys, ?_, ?_, hmid.cap⟩
  · intro x hx hxne
    obtain ⟨y, hy, hxy⟩ := poolSet_mem s pid f x hx
    by_cases hyid : y.page_id = pid
    · rw [hxy, if_pos hyid, hf] at hxne
      exact absurd hyid hxne
    · rw [hxy, if_neg hyid]
      exact hmid.pins y hy hyid
  · intro x hx hxne hxd
    obtain ⟨y, hy, hxy⟩ := poolSet_mem s pid f x hx
    by_cases hyid : y.page_id = pid
    · rw [hxy, if_pos hyid, hf] at hxne
      exact absurd hyid hxne
    · rw [hxy, if_neg hyid] at hxne hxd ⊢
      exact hmid.csync y hy hxne hxd
  · show ((s.pool.updatePage pid f).lru.map Page.page_id).Nodup
    rw [updatePage_ids _ _ _ hf]
    exact hmid.nodup

theorem load_page_spec (s : Sys) (hinv : SysInv s) (pid : Nat) (page : Page)
    (hv : pageView s pid = some page) :
    ∃ s' p', s.load_page pid = .ok (s', p')
      ∧ p'.rows = page.rows
      ∧ p'.pin_count = 1
      ∧ p'.page_id = pid
      ∧ s'.pool.find pid = some p'
      ∧ (∀ q, q ≠ pid → (pageView s' q).map Page.rows = (pageView s q).map Page.rows)
      ∧ (p'.dirty = false → ∃ pd, dictGet s'.disk.pages pid = some pd ∧ pd.rows = p'.rows)
      ∧ MidInv s' pid
      ∧ s'.pool.capacity = s.pool.capacity := by
  cases hf : s.pool.find pid with
  | some p0 =>
    have hv2 : page = p0 := by
      rw [pageView_pool hf] at hv
      exact (Option.some.inj hv).symm
    subst hv2
    have hpagemem : page ∈ s.pool.lru := find_mem hf
    have hpageid : page.page_id = pid := find_page_id hf
    have hpagepin : page.pin_count = 0 := hinv.pins page hpagemem
    refine ⟨{ s with pool := { s.pool with lru := ({ page with pin_count := page.pin_count + 1 } :: s.pool.lru.filter (fun q => q.page_id ≠ pid)) } }, { page with pin_count := page.pin_count + 1 }, ?_, rfl, by simp [hpagepin], by simp [hpageid], ?_, ?_, ?_, ⟨?_, hinv.dpins, hinv.dkeys, ?_, ?_, hinv.cap⟩, rfl⟩
    · rw [Sys.load_page, hf]
    · show ({ page with pin_count := page.pin_count + 1 } :: s.pool.lru.filter (fun q => q.page_id ≠ pid)).find? (fun q => q.page_id == pid) = some { page with pin_count := page.pin_count + 1 }
      rw [List.find?_cons_of_pos _ (by simp [hpageid])]
    · intro q hq
      have hfq : ({ s with pool := { s.pool with lru := ({ page with pin_count := page.pin_count + 1 } :: s.pool.lru.filter (fun x => x.page_id ≠ pid)) } } : Sys).pool.find q = s.pool.find q := by
        show ({ page with pin_count := page.pin_count + 1 } :: s.pool.lru.filter (fun x => x.page_id ≠ pid)).find? (fun x => x.page_id == q) = s.pool.find q
        rw [List.find?_cons_of_neg _ (by simp [hpageid]; exact fun h => hq h.symm)]
        exact find?_filter_of_imp _ _ (by
          intro x hx
          rw [beq_iff_eq] at hx
          simpa [hx] using hq) _
      cases hf1 : s.pool.find q with
      | some x => rw [pageView_pool (hfq.trans hf1), pageView_pool hf1]
      | none => rw [pageView_disk (hfq.trans hf1), pageView_disk hf1]
    · intro hd
      obtain ⟨pd, h1, h2⟩ := hinv.csync page hpagemem hd
      rw [hpageid] at h1
      exact ⟨pd, h1, h2⟩
    · intro x hx hxne
      rcases List.mem_cons.mp hx with rfl | hx'
      · exact absurd (by simp [hpageid]) hxne
      · exact hinv.pins x (List.mem_of_mem_filter hx')
    · intro x hx hxne hxd
      rcases List.mem_cons.mp hx with rfl | hx'
      · exact absurd (by simp [hpageid]) hxne
      · exact hinv.csync x (List.mem_of_mem_filter hx') hxd
    · rw [List.map_cons, List.nodup_cons]
      constructor
      · intro hmem
        obtain ⟨y, hy, hyid⟩ := List.mem_map.mp hmem
        have hyf := List.of_mem_filter hy
        rw [show ({ page with pin_count := page.pin_count + 1 } : Page).page_id = page.page_id from rfl, hpageid] at hyid
        simp [hyid] at hyf
      · exact (hinv.nodup.sublist ((List.filter_sublist _).map _))
  | none =>
    have hdisk : dictGet s.disk.pages pid = some page := by
      rw [pageView_disk hf] at hv
      exact hv
    have hdget : s.disk.get_page pid = .ok page := by
      rw [Disk.get_page, hdisk]
    have hpid : page.page_id = pid := hinv.dkeys (pid, page) (dictGet_mem hdisk)
    have hppin : page.pin_count = 0 := hinv.dpins (pid, page) (dictGet_mem hdisk)
    have hmiss2 : s.pool.find page.page_id = none := by rw [hpid]; exact hf
    obtain ⟨s1, haddeq, hfind1, hpv1, hinv1, hcap1⟩ :=
      add_page_to_memory_spec s hinv page hmiss2 hppin
        (fun _ => ⟨page, by rw [hpid]; exact hdisk, rfl⟩)
    have hpagemem : page ∈ s1.pool.lru := find_mem hfind1
    have hfind1' : s1.pool.find pid = some page := hpid ▸ hfind1
    have hmid1 : MidInv s1 pid := hinv1.toMid pid
    refine ⟨poolSet s1 pid (fun q => { q with pin_count := q.pin_count + 1 }), { page with pin_count := page.pin_count + 1 }, ?_, rfl, by simp [hppin], by simp [hpid], ?_, ?_, ?_, ?_, hcap1⟩
    · rw [Sys.load_page, hf]
      simp only [hdget, haddeq, Bind.bind, Except.bind, Pure.pure, Except.pure]
      rfl
    · exact poolSet_find_self s1 pid (fun q => { q with pin_count := q.pin_count + 1 }) page (fun p => rfl) hfind1'
    · intro q hq
      rw [poolSet_pageView_other s1 pid (fun x => { x with pin_count := x.pin_count + 1 }) q (fun p => rfl) hq]
      exact hpv1 q (by rw [hpid]; exact hq)
    · intro hd
      obtain ⟨pd, h1, h2⟩ := hinv1.csync page hpagemem hd
      rw [hpid] at h1
      exact ⟨pd, h1, h2⟩
    · exact poolSet_MidInv s1 pid (fun q => { q with pin_count := q.pin_count + 1 }) (fun p => rfl) hmid1

theorem mark_dirty_spec (s : Sys) (pid : Nat) (p' : Page)
    (hfind : s.pool.find pid = some p') (hmid : MidInv s pid) :
    ∃ s2, s.mark_dirty pid = .ok s2
      ∧ s2 = poolSet s pid (fun q => { q with dirty := true })
      ∧ s2.pool.find pid = some { p' with dirty := true }
      ∧ (∀ q, q ≠ pid → pageView s2 q = pageView s q)
      ∧ s2.disk = s.disk
      ∧ MidInv s2 pid := by
  refine ⟨poolSet s pid (fun q => { q with dirty := true }), ?_, rfl,
    poolSet_find_self s pid (fun q => { q with dirty := true }) p' (fun p => rfl) hfind,
    fun q hq => poolSet_pageView_other s pid (fun x => { x with dirty := true }) q
      (fun p => rfl) hq,
    rfl,
    poolSet_MidInv s pid (fun q => { q with dirty := true }) (fun p => rfl) hmid⟩
  rw [Sys.mark_dirty, hfind]
  rfl

theorem release_page_spec (s : Sys) (pid : Nat) (p' : Page)
    (hfind : s.pool.find pid = some p') (hpin : p'.pin_count = 1)
    (hmid : MidInv s pid)
    (hsync1 : p'.dirty = false →
      ∃ pd, dictGet s.disk.pages pid = some pd ∧ pd.rows = p'.rows) :
    ∃ s2, s.release_page pid = .ok s2
      ∧ (∀ q, (pageView s2 q).map Page.rows = (pageView s q).map Page.rows)
      ∧ SysInv s2
      ∧ s2.pool.capacity = s.pool.capacity := by
  have hpid : p'.page_id = pid := find_page_id hfind
  have hpmem : p' ∈ s.pool.lru := find_mem hfind
  have hfid : ∀ p : Page, ((let q' := { p with pin_count := p.pin_count - 1 };
      if q'.pin_count = 0 then { q' with pinned := false } else q') : Page).page_id
      = p.page_id := by
    intro p
    by_cases h : p.pin_count - 1 = 0 <;> simp [h]
  refine ⟨poolSet s pid (fun q => let q' := { q with pin_count := q.pin_count - 1 };
      if q'.pin_count = 0 then { q' with pinned := false } else q'),
    ?_, ?_, ⟨?_, hmid.dpins, hmid.dkeys, ?_, ?_, hmid.cap⟩, rfl⟩
  · simp only [Sys.release_page, hfind]
    rw [if_neg (by omega)]
    rfl
  · intro q
    by_cases hq : q = pid
    · subst hq
      have h2 := poolSet_find_self s q
        (fun x => let x' := { x with pin_count := x.pin_count - 1 };
          if x'.pin_count = 0 then { x' with pinned := false } else x') p' hfid hfind
      rw [pageView_pool h2, pageView_pool hfind]
      simp [hpin]
    · rw [poolSet_pageView_other s pid
        (fun x => let x' := { x with pin_count := x.pin_count - 1 };
          if x'.pin_count = 0 then { x' with pinned := false } else x') q hfid hq]
  · intro x hx
    obtain ⟨y, hy, hxy⟩ := poolSet_mem s pid _ x hx
    by_cases hyid : y.page_id = pid
    · have hyp : y = p' := mem_unique_of_nodup hmid.nodup hy hpmem (by rw [hyid, hpid])
      subst hyp
      rw [hxy, if_pos hyid]
      simp [hpin]
    · rw [hxy, if_neg hyid]
      have h0 := hmid.pins y hy hyid
      simp [h0]
  · intro x hx hxd
    obtain ⟨y, hy, hxy⟩ := poolSet_mem s pid _ x hx
    by_cases hyid : y.page_id = pid
    · have hyp : y = p' := mem_unique_of_nodup hmid.nodup hy hpmem (by rw [hyid, hpid])
      subst hyp
      have hxdirty : x.dirty = y.dirty := by
        rw [hxy, if_pos hyid]
        by_cases h : y.pin_count - 1 = 0 <;> simp [h]
      have hxid : x.page_id = pid := by
        rw [hxy, if_pos hyid]
        by_cases h : y.pin_count - 1 = 0 <;> simp [h, hyid]
      have hxrows : x.rows = y.rows := by
        rw [hxy, if_pos hyid]
        by_cases h : y.pin_count - 1 = 0 <;> simp [h]
      obtain ⟨pd, h1, h2⟩ := hsync1 (by rw [← hxdirty]; exact hxd)
      refine ⟨pd, ?_, ?_⟩
      · rw [hxid]
        exact h1
      · rw [h2, hxrows]
    · have hxeq : x = y := by
        rw [hxy, if_neg hyid]
      subst hxeq
      exact hmid.csync x hy hyid hxd
  · show ((s.pool.updatePage pid _).lru.map Page.page_id).Nodup
    rw [updatePage_ids _ _ _ hfid]
    exact hmid.nodup

end Inno
namespace Inno

/-- One engine write operation: `tx_insert_row` funnels into
`Operation.insert_row` (engine.py line 88 / operation.py line 40), and
`tx_update_row` resolves the page through the index — raising when the id
is unknown (engine.py lines 100-103) — then calls `Operation.update_row`. -/
inductive EngOp where
  | insert (row : Row) (next_lsn : Nat)
  | update (row_id : Nat) (row : Row)

def engStep (t : Nat) (st : OpState) : EngOp → Except Err OpState
  | .insert row next_lsn => Operation.insert_row t st row next_lsn
  | .update row_id row =>
    match Operation.get_page_id st row_id with
    | none => .error .rowMissing
    | some page_id => Operation.update_row st row_id row page_id

/-- Run a sequence of engine writes.  An operation that raises leaves the
state as it was — every raising path reachable below mutates nothing before
raising — and the run continues with the next operation. -/
def engRun (t : Nat) (st : OpState) : List EngOp → OpState
  | [] => st
  | op :: ops =>
    match engStep t st op with
    | .ok st' => engRun t st' ops
    | .error _ => engRun t st ops

/-- Specification-side map: "the last row value written for id" (spec §2).
An insert records the row under its own id; an update overwrites an
existing id and is rejected otherwise. -/
def lastWrittenFrom (m : List (Nat × Row)) : List EngOp → List (Nat × Row)
  | [] => m
  | .insert row _ :: ops => lastWrittenFrom (dictSet m row.rid row) ops
  | .update row_id row :: ops =>
    if (dictGet m row_id).isSome then lastWrittenFrom (dictSet m row_id row) ops
    else lastWrittenFrom m ops

def lastWritten (ops : List EngOp) : List (Nat × Row) := lastWrittenFrom [] ops

/-- `Operation.__init__` on the fresh engine: empty disk, empty pool of the
given capacity (the engine passes 5), the `BPlusTree` root a single empty
leaf, and `current_page_id = disk.get_current_page_id() = 1`. -/
def initOp (cap : Nat) : OpState :=
  { sys := { disk := {}, dwb := {}, pool := { capacity := cap } }
    index := .leaf [] []
    current_page_id := 1 }

/-- The run invariant tying the machine state to the specification map `m`
through the ghost page assignment `pg` (the page chosen for each row at its
first insert, which later updates reuse). -/
structure EngInv (t : Nat) (st : OpState) (m : List (Nat × Row))
    (pg : List (Nat × Nat)) : Prop where
  wf : WFroot t st.index
  dom1 : ∀ r, r ∈ st.index.leafKeys ↔ (dictGet pg r).isSome
  dom2 : ∀ r, (dictGet pg r).isSome ↔ (dictGet m r).isSome
  psound : ∀ r p, (r, p) ∈ st.index.pairsOf → dictGet pg r = some p
  content : ∀ r p, dictGet pg r = some p →
    ∃ page, pageView st.sys p = some page ∧ dictGet page.rows r = dictGet m r
  sys : SysInv st.sys

theorem get_page_id_inv (t : Nat) (st : OpState) (m : List (Nat × Row))
    (pg : List (Nat × Nat)) (hinv : EngInv t st m pg) :
    ∀ r, Operation.get_page_id st r = dictGet pg r := by
  intro r
  cases hpg : dictGet pg r with
  | none =>
    cases hs : Operation.get_page_id st r with
    | none => rfl
    | some p =>
      have hmem := pairsOf_fst_leafKeys_root t st.index hinv.wf r p
        (searchVal_sound_root t st.index r p hinv.wf hs)
      rw [hinv.dom1 r, hpg] at hmem
      simp at hmem
  | some p =>
    have hrmem : r ∈ st.index.leafKeys := (hinv.dom1 r).mpr (by rw [hpg]; rfl)
    have hsome := searchVal_complete_root t st.index r hinv.wf hrmem
    obtain ⟨q, hq⟩ := Option.isSome_iff_exists.mp hsome
    have hpq := hinv.psound r q (searchVal_sound_root t st.index r q hinv.wf hq)
    rw [hpg] at hpq
    rw [show Operation.get_page_id st r = BNode.searchVal r st.index from rfl, hq, hpq]

theorem map_rows_eq_some {o : Option Page} {rs : List (Nat × Row)}
    (h : o.map Page.rows = some rs) : ∃ pg, o = some pg ∧ pg.rows = rs := by
  cases o with
  | none => simp at h
  | some p =>
    refine ⟨p, rfl, ?_⟩
    simpa using h

theorem get_row_spec (t : Nat) (st : OpState) (m : List (Nat × Row))
    (pg : List (Nat × Nat)) (hinv : EngInv t st m pg) (r : Nat) :
    ((Operation.get_row st r).toOption.map (fun x => x.2)) = dictGet m r
    ∧ (dictGet m r = none → Operation.get_row st r = .error .rowMissing) := by
  cases hm : dictGet m r with
  | none =>
    have hpg : dictGet pg r = none := by
      cases hpg2 : dictGet pg r with
      | none => rfl
      | some p =>
        have := (hinv.dom2 r).mp (by rw [hpg2]; rfl)
        rw [hm] at this
        simp at this
    have hgp : Operation.get_page_id st r = none :=
      (get_page_id_inv t st m pg hinv r).trans hpg
    constructor
    · rw [Operation.get_row, hgp]
      rfl
    · intro _
      rw [Operation.get_row, hgp]
  | some row =>
    have hpgs : (dictGet pg r).isSome := (hinv.dom2 r).mpr (by rw [hm]; rfl)
    obtain ⟨p, hpg⟩ := Option.isSome_iff_exists.mp hpgs
    obtain ⟨page, hview, hrows⟩ := hinv.content r p hpg
    have hgp : Operation.get_page_id st r = some p :=
      (get_page_id_inv t st m pg hinv r).trans hpg
    obtain ⟨s', p', hload, hrows', hpin', hpid', hfind', hpv', hsync', hmid', hcap'⟩ :=
      load_page_spec st.sys hinv.sys p page hview
    obtain ⟨s2, hrel, hpv2, hinv2, hcap2⟩ :=
      release_page_spec s' p p' hfind' hpin' hmid' hsync'
    have hrowlookup : dictGet p'.rows r = some row := by rw [hrows', hrows, hm]
    constructor
    · rw [Operation.get_row, hgp]
      simp only [hload, hrel, Bind.bind, Except.bind, Pure.pure, Except.pure, hrowlookup]
      rfl
    · intro hcontra
      exact absurd hcontra (by simp)

theorem lastWrittenFrom_cons (m : List (Nat × Row)) (op : EngOp) (ops : List EngOp) :
    lastWrittenFrom m (op :: ops) = lastWrittenFrom (lastWrittenFrom m [op]) ops := by
  cases op with
  | insert row lsn => rfl
  | update row_id row =>
    rw [lastWrittenFrom, lastWrittenFrom]
    by_cases h : (dictGet m row_id).isSome = true
    · rw [if_pos h, if_pos h]
      rfl
    · rw [if_neg h, if_neg h]
      rfl

theorem EngInv_init (t : Nat) (cap : Nat) (hcap : 1 ≤ cap) :
    EngInv t (initOp cap) [] [] := by
  refine ⟨⟨rfl, rfl, by simp⟩, ?_, ?_, ?_, ?_, ⟨?_, ?_, ?_, ?_, ?_, hcap⟩⟩
  · intro r
    rw [show (initOp cap).index = BNode.leaf [] [] from rfl, BNode.leafKeys]
    simp [dictGet]
  · intro r
    rfl
  · intro r p hp
    rw [show (initOp cap).index = BNode.leaf [] [] from rfl, BNode.pairsOf] at hp
    simp at hp
  · intro r p hp
    simp [dictGet] at hp
  · intro q hq
    simp [initOp] at hq
  · intro pr hpr
    simp [initOp] at hpr
  · intro pr hpr
    simp [initOp] at hpr
  · intro q hq
    simp [initOp] at hq
  · simp [initOp]

end Inno
namespace Inno

theorem update_row_spec (t : Nat) (st : OpState) (m : List (Nat × Row))
    (pg : List (Nat × Nat)) (hinv : EngInv t st m pg) (row_id : Nat) (row : Row)
    (p : Nat) (hpg : dictGet pg row_id = some p) :
    ∃ s3 : Sys, Operation.update_row st row_id row p = .ok { st with sys := s3 }
      ∧ EngInv t { st with sys := s3 } (dictSet m row_id row) pg := by
  obtain ⟨page, hview, hrows⟩ := hinv.content row_id p hpg
  obtain ⟨s', p', hload, hrows', hpin', hpid', hfind', hpv', hsync', hmid', hcap'⟩ :=
    load_page_spec st.sys hinv.sys p page hview
  have hfind2 := poolSet_find_self s' p (fun q => { q with rows := dictSet q.rows row_id row }) p' (fun q => rfl) hfind'
  have hpv2 : ∀ q, q ≠ p → pageView (poolSet s' p (fun x => { x with rows := dictSet x.rows row_id row })) q = pageView s' q :=
    fun q hq => poolSet_pageView_other s' p (fun x => { x with rows := dictSet x.rows row_id row }) q (fun x => rfl) hq
  have hmid2 := poolSet_MidInv s' p (fun q => { q with rows := dictSet q.rows row_id row }) (fun q => rfl) hmid'
  obtain ⟨s2, hmark, hs2eq, hfind3, hpv3, hdisk3, hmid3⟩ :=
    mark_dirty_spec (poolSet s' p (fun q => { q with rows := dictSet q.rows row_id row }))
      p { p' with rows := dictSet p'.rows row_id row } hfind2 hmid2
  obtain ⟨s3, hrel, hpv4, hsys3, hcap3⟩ := release_page_spec s2 p _ hfind3
    hpin' hmid3 (fun h => absurd h (by simp))
  have hequp : Operation.update_row st row_id row p = .ok { st with sys := s3 } := by
    rw [Operation.update_row]
    have hmark2 : Sys.mark_dirty { s' with pool := s'.pool.updatePage p (fun q => { q with rows := dictSet q.rows row_id row }) } p = .ok s2 := hmark
    simp only [hload, Bind.bind, Except.bind, hmark2, hrel, Pure.pure, Except.pure]
  have hchain : ∀ q, q ≠ p →
      (pageView s3 q).map Page.rows = (pageView st.sys q).map Page.rows := by
    intro q hq
    rw [hpv4 q, hpv3 q hq, hpv2 q hq]
    exact hpv' q hq
  have hatp : (pageView s3 p).map Page.rows = some (dictSet p'.rows row_id row) := by
    rw [hpv4 p, pageView_pool hfind3]
    rfl
  refine ⟨s3, hequp, ⟨hinv.wf, hinv.dom1, ?_, hinv.psound, ?_, hsys3⟩⟩
  · intro r
    by_cases hr : r = row_id
    · subst hr
      rw [dictGet_dictSet_self]
      constructor
      · intro _
        rfl
      · intro _
        rw [hpg]
        rfl
    · rw [dictGet_dictSet_ne _ _ _ _ hr]
      exact hinv.dom2 r
  · intro r p2 hpg2
    by_cases hp2 : p2 = p
    · subst hp2
      obtain ⟨page3, hv3, hr3⟩ := map_rows_eq_some hatp
      refine ⟨page3, hv3, ?_⟩
      rw [hr3]
      by_cases hr : r = row_id
      · subst hr
        rw [dictGet_dictSet_self, dictGet_dictSet_self]
      · rw [dictGet_dictSet_ne _ _ _ _ hr, dictGet_dictSet_ne _ _ _ _ hr]
        obtain ⟨page2, hview2, hrows2⟩ := hinv.content r p2 hpg2
        rw [hview] at hview2
        have hpe : page = page2 := Option.some.inj hview2
        rw [← hpe, ← hrows'] at hrows2
        exact hrows2
    · obtain ⟨page2, hview2, hrows2⟩ := hinv.content r p2 hpg2
      have h5 := hchain p2 hp2
      rw [hview2] at h5
      obtain ⟨page3, hv3, hr3⟩ := map_rows_eq_some (by rw [h5]; rfl)
      refine ⟨page3, hv3, ?_⟩
      have hrne : r ≠ row_id := by
        intro hr
        subst hr
        rw [hpg] at hpg2
        exact hp2 (Option.some.inj hpg2).symm
      rw [hr3, dictGet_dictSet_ne _ _ _ _ hrne]
      exact hrows2

end Inno
namespace Inno

theorem insert_finish_spec (t : Nat) (ht : 2 ≤ t) (st : OpState) (m : List (Nat × Row))
    (pg : List (Nat × Nat)) (hinv : EngInv t st m pg) (row : Row) (g cpid : Nat)
    (hpg : dictGet pg row.rid = none)
    (sMid : Sys) (p' : Page)
    (hfind : sMid.pool.find g = some p')
    (hpin : p'.pin_count = 1)
    (hmid : MidInv sMid g)
    (hpvrel : ∀ q, q ≠ g →
      (pageView sMid q).map Page.rows = (pageView st.sys q).map Page.rows)
    (hgview : (pageView st.sys g).map Page.rows = some p'.rows
      ∨ pageView st.sys g = none) :
    ∃ s3, Operation.insert_row_finish t { st with sys := sMid, current_page_id := cpid } row g
      = .ok { st with sys := s3, current_page_id := cpid, index := insert_row_mapping t st.index row.rid g }
      ∧ EngInv t { st with sys := s3, current_page_id := cpid, index := insert_row_mapping t st.index row.rid g }
        (dictSet m row.rid row) (dictSet pg row.rid g) := by
  have hfreshK : row.rid ∉ st.index.leafKeys := by
    rw [hinv.dom1 row.rid, hpg]
    simp
  obtain ⟨hwf', hiffI, hpairsI⟩ :=
    insert_row_mapping_wf_fresh t ht st.index hinv.wf row.rid g hfreshK
  have hfind2 := poolSet_find_self sMid g (fun q => { q with rows := dictSet q.rows row.rid row }) p' (fun q => rfl) hfind
  have hpv2 : ∀ q, q ≠ g → pageView (poolSet sMid g (fun x => { x with rows := dictSet x.rows row.rid row })) q = pageView sMid q :=
    fun q hq => poolSet_pageView_other sMid g (fun x => { x with rows := dictSet x.rows row.rid row }) q (fun x => rfl) hq
  have hmid2 := poolSet_MidInv sMid g (fun q => { q with rows := dictSet q.rows row.rid row }) (fun q => rfl) hmid
  obtain ⟨s2, hmark, hs2eq, hfind3, hpv3, hdisk3, hmid3⟩ :=
    mark_dirty_spec (poolSet sMid g (fun q => { q with rows := dictSet q.rows row.rid row }))
      g { p' with rows := dictSet p'.rows row.rid row } hfind2 hmid2
  obtain ⟨s3, hrel, hpv4, hsys3, hcap3⟩ := release_page_spec s2 g _ hfind3
    hpin hmid3 (fun h => absurd h (by simp))
  have heqf : Operation.insert_row_finish t { st with sys := sMid, current_page_id := cpid } row g
      = .ok { st with sys := s3, current_page_id := cpid, index := insert_row_mapping t st.index row.rid g } := by
    rw [Operation.insert_row_finish]
    have hmark2 : Sys.mark_dirty { sMid with pool := sMid.pool.updatePage g (fun q => { q with rows := dictSet q.rows row.rid row }) } g = .ok s2 := hmark
    simp only [hmark2, hrel, Bind.bind, Except.bind, Pure.pure, Except.pure]
  have hchain : ∀ q, q ≠ g →
      (pageView s3 q).map Page.rows = (pageView st.sys q).map Page.rows := by
    intro q hq
    rw [hpv4 q, hpv3 q hq, hpv2 q hq]
    exact hpvrel q hq
  have hatp : (pageView s3 g).map Page.rows = some (dictSet p'.rows row.rid row) := by
    rw [hpv4 g, pageView_pool hfind3]
    rfl
  refine ⟨s3, heqf, ⟨hwf', ?_, ?_, ?_, ?_, hsys3⟩⟩
  · intro r
    rw [show ({ st with sys := s3, current_page_id := cpid, index := insert_row_mapping t st.index row.rid g } : OpState).index = insert_row_mapping t st.index row.rid g from rfl]
    rw [hiffI r]
    by_cases hr : r = row.rid
    · subst hr
      rw [dictGet_dictSet_self]
      simp
    · rw [dictGet_dictSet_ne _ _ _ _ hr]
      rw [hinv.dom1 r]
      constructor
      · rintro (rfl | h)
        · exact absurd rfl hr
        · exact h
      · intro h
        exact Or.inr h
  · intro r
    by_cases hr : r = row.rid
    · subst hr
      rw [dictGet_dictSet_self, dictGet_dictSet_self]
      simp
    · rw [dictGet_dictSet_ne _ _ _ _ hr, dictGet_dictSet_ne _ _ _ _ hr]
      exact hinv.dom2 r
  · intro r p2 hp2
    rcases hpairsI (r, p2) hp2 with heq2 | hold
    · have hr : r = row.rid := congrArg Prod.fst heq2
      have hp : p2 = g := congrArg Prod.snd heq2
      subst hr
      subst hp
      rw [dictGet_dictSet_self]
    · have hrmem : r ∈ st.index.leafKeys :=
        pairsOf_fst_leafKeys_root t st.index hinv.wf r p2 hold
      have hrs : (dictGet pg r).isSome := (hinv.dom1 r).mp hrmem
      have hrne : r ≠ row.rid := by
        intro he
        subst he
        rw [hpg] at hrs
        simp at hrs
      rw [dictGet_dictSet_ne _ _ _ _ hrne]
      exact hinv.psound r p2 hold
  · intro r p2 hp2
    by_cases hr : r = row.rid
    · subst hr
      rw [dictGet_dictSet_self] at hp2
      have hp : p2 = g := Option.some.inj hp2.symm
      subst hp
      obtain ⟨page3, hv3, hr3⟩ := map_rows_eq_some hatp
      refine ⟨page3, hv3, ?_⟩
      rw [hr3, dictGet_dictSet_self, dictGet_dictSet_self]
    · rw [dictGet_dictSet_ne _ _ _ _ hr] at hp2
      obtain ⟨page2, hview2, hrows2⟩ := hinv.content r p2 hp2
      by_cases hpg2 : p2 = g
      · subst hpg2
        rcases hgview with hgv | hgv
        · rw [hview2] at hgv
          have hre : page2.rows = p'.rows := by simpa using hgv
          obtain ⟨page3, hv3, hr3⟩ := map_rows_eq_some hatp
          refine ⟨page3, hv3, ?_⟩
          rw [hr3, dictGet_dictSet_ne _ _ _ _ hr, dictGet_dictSet_ne _ _ _ _ hr]
          rw [← hre]
          exact hrows2
        · rw [hview2] at hgv
          cases hgv
      · have h5 := hchain p2 hpg2
        rw [hview2] at h5
        obtain ⟨page3, hv3, hr3⟩ := map_rows_eq_some (by rw [h5]; rfl)
        refine ⟨page3, hv3, ?_⟩
        rw [hr3, dictGet_dictSet_ne _ _ _ _ hr]
        exact hrows2

end Inno
namespace Inno

theorem load_page_ok_pageView {s : Sys} {pid : Nat} {pr : Sys × Page}
    (h : s.load_page pid = .ok pr) : ∃ page, pageView s pid = some page := by
  rw [Sys.load_page] at h
  cases hf : s.pool.find pid with
  | some p0 => exact ⟨p0, pageView_pool hf⟩
  | none =>
    rw [hf] at h
    cases hg : dictGet s.disk.pages pid with
    | some page => exact ⟨page, by rw [pageView_disk hf, hg]⟩
    | none =>
      rw [show s.disk.get_page pid = .error .pageMissing from by rw [Disk.get_page, hg]]
        at h
      simp only [Bind.bind, Except.bind] at h
      cases h

theorem pageView_none {s : Sys} {pid : Nat} (h : pageView s pid = none) :
    s.pool.find pid = none ∧ dictGet s.disk.pages pid = none := by
  cases hf : s.pool.find pid with
  | some p => rw [pageView_pool hf] at h; cases h
  | none =>
    rw [pageView_disk hf] at h
    exact ⟨rfl, h⟩

theorem insert_row_step (t : Nat) (ht : 2 ≤ t) (st : OpState) (m : List (Nat × Row))
    (pg : List (Nat × Nat)) (hinv : EngInv t st m pg) (row : Row) (lsn : Nat) :
    ∃ st' pg', Operation.insert_row t st row lsn = .ok st'
      ∧ EngInv t st' (dictSet m row.rid row) pg' := by
  have hgid := get_page_id_inv t st m pg hinv row.rid
  cases hpg : dictGet pg row.rid with
  | some p =>
    obtain ⟨s3, hequp, hinv'⟩ := update_row_spec t st m pg hinv row.rid row p hpg
    refine ⟨{ st with sys := s3 }, pg, ?_, ?_⟩
    · rw [Operation.insert_row,
        show Operation.get_page_id st row.rid = some p from hgid.trans hpg]
      exact hequp
    · exact hinv'
  | none =>
    set g := max (Operation.get_current_page_id_from_disk st)
      (Operation.get_current_page_id_from_buffer_pool st) with hgdef
    have hap : Operation.allocate_page_for_row st
        = ({ st with current_page_id := g }, g) := rfl
    cases hpl : pageView st.sys g with
    | some page =>
      obtain ⟨s', p', hload, hrows', hpin', hpid', hfind', hpv', hsync', hmid', hcap'⟩ :=
        load_page_spec st.sys hinv.sys g page hpl
      have hgview : (pageView st.sys g).map Page.rows = some p'.rows
          ∨ pageView st.sys g = none := by
        left
        rw [hpl, hrows']
        rfl
      obtain ⟨s3, heqf, hinv'⟩ := insert_finish_spec t ht st m pg hinv row g g hpg
        s' p' hfind' hpin' hmid' hpv' hgview
      refine ⟨_, dictSet pg row.rid g, ?_, hinv'⟩
      rw [Operation.insert_row,
        show Operation.get_page_id st row.rid = none from hgid.trans hpg]
      simp only [hap, hload]
      exact heqf
    | none =>
      obtain ⟨hfg, hdg⟩ := pageView_none hpl
      have hloaderr : ∃ e, st.sys.load_page g = .error e := by
        cases hl : st.sys.load_page g with
        | error e => exact ⟨e, rfl⟩
        | ok pr =>
          obtain ⟨pp, hpp⟩ := load_page_ok_pageView hl
          rw [hpl] at hpp
          cases hpp
      obtain ⟨e, hle⟩ := hloaderr
      set page0 : Page := { page_id := g, rows := [], page_lsn := lsn } with hpage0
      set sA : Sys := { st.sys with disk := st.sys.disk.write_page page0 } with hsA
      have hsAview : ∀ q, q ≠ g → pageView sA q = pageView st.sys q := by
        intro q hq
        cases hf1 : st.sys.pool.find q with
        | some x =>
          have hfA : sA.pool.find q = some x := hf1
          rw [pageView_pool hfA, pageView_pool hf1]
        | none =>
          have hfA : sA.pool.find q = none := hf1
          rw [pageView_disk hfA, pageView_disk hf1]
          show dictGet (dictSet st.sys.disk.pages g page0) q = _
          rw [dictGet_dictSet_ne _ _ _ _ hq]
      have hinvA : SysInv sA := by
        refine ⟨hinv.sys.pins, ?_, ?_, ?_, hinv.sys.nodup, hinv.sys.cap⟩
        · intro pr hpr
          rcases mem_dictSet _ _ _ pr hpr with rfl | h
          · rfl
          · exact hinv.sys.dpins pr h
        · intro pr hpr
          rcases mem_dictSet _ _ _ pr hpr with rfl | h
          · rfl
          · exact hinv.sys.dkeys pr h
        · intro q hq hqd
          obtain ⟨pd, h1, h2⟩ := hinv.sys.csync q hq hqd
          refine ⟨pd, ?_, h2⟩
          have hqne : q.page_id ≠ g := by
            intro he
            have := List.find?_eq_none.mp hfg q hq
            simp [he] at this
          show dictGet (dictSet st.sys.disk.pages g page0) q.page_id = some pd
          rw [dictGet_dictSet_ne _ _ _ _ hqne]
          exact h1
      have hmissA : sA.pool.find page0.page_id = none := hfg
      obtain ⟨s1, haddeq, hfind1, hpv1, hinv1, hcap1⟩ :=
        add_page_to_memory_spec sA hinvA page0 hmissA rfl
          (fun _ => ⟨page0, dictGet_dictSet_self _ _ _, rfl⟩)
      have hfind1g : s1.pool.find g = some page0 := hfind1
      have hmid1 : MidInv s1 g := hinv1.toMid g
      have hfind2 := poolSet_find_self s1 g
        (fun q => { q with pin_count := q.pin_count + 1 }) page0 (fun q => rfl) hfind1g
      have hmid2 := poolSet_MidInv s1 g
        (fun q => { q with pin_count := q.pin_count + 1 }) (fun q => rfl) hmid1
      have hpvrel : ∀ q, q ≠ g →
          (pageView (poolSet s1 g (fun x => { x with pin_count := x.pin_count + 1 })) q).map Page.rows
            = (pageView st.sys q).map Page.rows := by
        intro q hq
        rw [poolSet_pageView_other s1 g
          (fun x => { x with pin_count := x.pin_count + 1 }) q (fun x => rfl) hq]
        rw [hpv1 q hq]
        rw [hsAview q hq]
      obtain ⟨s3, heqf, hinv'⟩ := insert_finish_spec t ht st m pg hinv row g g hpg
        (poolSet s1 g (fun x => { x with pin_count := x.pin_count + 1 }))
        { page0 with pin_count := page0.pin_count + 1 }
        hfind2 rfl hmid2 hpvrel (Or.inr hpl)
      refine ⟨_, dictSet pg row.rid g, ?_, hinv'⟩
      rw [Operation.insert_row,
        show Operation.get_page_id st row.rid = none from hgid.trans hpg]
      simp only [hap, hle]
      have haddeq2 : Sys.add_page_to_memory { st.sys with disk := st.sys.disk.write_page page0 } page0 = .ok s1 := haddeq
      simp only [haddeq2]
      have hmid3 : { s1 with pool := s1.pool.updatePage g (fun q => { q with pin_count := q.pin_count + 1 }) } = poolSet s1 g (fun q => { q with pin_count := q.pin_count + 1 }) := rfl
      rw [hmid3]
      exact heqf

end Inno
namespace Inno

theorem engStep_spec (t : Nat) (ht : 2 ≤ t) (st : OpState) (m : List (Nat × Row))
    (pg : List (Nat × Nat)) (op : EngOp) (hinv : EngInv t st m pg) :
    ∃ pg2, EngInv t (match engStep t st op with
        | .ok st' => st'
        | .error _ => st) (lastWrittenFrom m [op]) pg2 := by
  cases op with
  | insert row lsn =>
    obtain ⟨st', pg', heq, hinv'⟩ := insert_row_step t ht st m pg hinv row lsn
    refine ⟨pg', ?_⟩
    rw [show engStep t st (.insert row lsn) = Operation.insert_row t st row lsn from rfl,
      heq]
    exact hinv'
  | update row_id row =>
    have hstep0 : engStep t st (.update row_id row)
        = (match Operation.get_page_id st row_id with
          | none => .error .rowMissing
          | some page_id => Operation.update_row st row_id row page_id) := rfl
    cases hpg : dictGet pg row_id with
    | some p =>
      obtain ⟨s3, hequp, hinv'⟩ := update_row_spec t st m pg hinv row_id row p hpg
      refine ⟨pg, ?_⟩
      have hstep : engStep t st (.update row_id row) = .ok { st with sys := s3 } := by
        rw [hstep0,
          show Operation.get_page_id st row_id = some p from
            (get_page_id_inv t st m pg hinv row_id).trans hpg]
        exact hequp
      rw [hstep]
      have hlw : lastWrittenFrom m [.update row_id row] = dictSet m row_id row := by
        rw [lastWrittenFrom,
          if_pos ((hinv.dom2 row_id).mp (by rw [hpg]; rfl))]
        rfl
      rw [hlw]
      exact hinv'
    | none =>
      have hstep : engStep t st (.update row_id row) = .error .rowMissing := by
        rw [hstep0,
          show Operation.get_page_id st row_id = none from
            (get_page_id_inv t st m pg hinv row_id).trans hpg]
      rw [hstep]
      have hms : (dictGet m row_id).isSome = false := by
        cases hm2 : (dictGet m row_id).isSome with
        | false => rfl
        | true =>
          have := (hinv.dom2 row_id).mpr hm2
          rw [hpg] at this
          simp at this
      have hlw : lastWrittenFrom m [.update row_id row] = m := by
        rw [lastWrittenFrom, if_neg (by rw [hms]; simp)]
        rfl
      rw [hlw]
      exact ⟨pg, hinv⟩

theorem engRun_inv (t : Nat) (ht : 2 ≤ t) :
    ∀ (ops : List EngOp) (st : OpState) (m : List (Nat × Row)) (pg : List (Nat × Nat)),
      EngInv t st m pg →
      ∃ pg', EngInv t (engRun t st ops) (lastWrittenFrom m ops) pg'
  | [], st, m, pg, hinv => ⟨pg, hinv⟩
  | op :: ops, st, m, pg, hinv => by
    obtain ⟨pg2, h2⟩ := engStep_spec t ht st m pg op hinv
    rw [engRun, lastWrittenFrom_cons]
    cases he : engStep t st op with
    | ok st' =>
      rw [he] at h2
      exact engRun_inv t ht ops st' _ pg2 h2
    | error e =>
      rw [he] at h2
      exact engRun_inv t ht ops st _ pg2 h2

/-- C1: for every sequence of engine writes — inserts (`tx_insert_row` /
`Operation.insert_row`, which routes an already-indexed id to
`Operation.update_row`) and updates (`tx_update_row`, which resolves the
page through the index and raises RowMissing on an unknown id) — run on
the fresh engine (capacity ≥ 1, index degree t ≥ 2), a subsequent
`Operation.get_row id` returns exactly the last row value written for that
id, and returns the RowMissing error when the id was never (successfully)
written.  The value read is compared to the specification map
`lastWritten`: the fold of "insert records the row under its id, update
overwrites an existing id" over the operation sequence. -/
theorem c1_get_row_returns_last_written (t : Nat) (ht : 2 ≤ t) (cap : Nat)
    (hcap : 1 ≤ cap) (ops : List EngOp) (r : Nat) :
    ((Operation.get_row (engRun t (initOp cap) ops) r).toOption.map (fun x => x.2))
      = dictGet (lastWritten ops) r
    ∧ (dictGet (lastWritten ops) r = none →
        Operation.get_row (engRun t (initOp cap) ops) r = .error .rowMissing) := by
  obtain ⟨pg', hinv'⟩ := engRun_inv t ht ops (initOp cap) [] [] (EngInv_init t cap hcap)
  exact get_row_spec t _ _ pg' hinv' r

/-- Witness for C1: three writes at t = 2, capacity 5 (the engine's value):
insert rows 1 and 2, then update row 1; reading row 1 returns the updated
value and reading the never-inserted row 9 fails with RowMissing. -/
theorem c1_get_row_returns_last_written_witness :
    2 ≤ 2 ∧ 1 ≤ 5
    ∧ ((Operation.get_row (engRun 2 (initOp 5)
          [.insert ⟨1, [10]⟩ 1, .insert ⟨2, [20]⟩ 2, .update 1 ⟨1, [11]⟩]) 1).toOption.map
            (fun x => x.2))
        = dictGet (lastWritten
            [.insert ⟨1, [10]⟩ 1, .insert ⟨2, [20]⟩ 2, .update 1 ⟨1, [11]⟩]) 1
    ∧ dictGet (lastWritten
          [.insert ⟨1, [10]⟩ 1, .insert ⟨2, [20]⟩ 2, .update 1 ⟨1, [11]⟩]) 1
        = some ⟨1, [11]⟩
    ∧ (dictGet (lastWritten
          [.insert ⟨1, [10]⟩ 1, .insert ⟨2, [20]⟩ 2, .update 1 ⟨1, [11]⟩]) 9 = none
        → Operation.get_row (engRun 2 (initOp 5)
            [.insert ⟨1, [10]⟩ 1, .insert ⟨2, [20]⟩ 2, .update 1 ⟨1, [11]⟩]) 9
          = .error .rowMissing) :=
  ⟨by decide, by decide,
    (c1_get_row_returns_last_written 2 (by decide) 5 (by decide)
      [.insert ⟨1, [10]⟩ 1, .insert ⟨2, [20]⟩ 2, .update 1 ⟨1, [11]⟩] 1).1,
    by decide,
    (c1_get_row_returns_last_written 2 (by decide) 5 (by decide)
      [.insert ⟨1, [10]⟩ 1, .insert ⟨2, [20]⟩ 2, .update 1 ⟨1, [11]⟩] 9).2⟩

end Inno
